import Mathlib

/-!
# Table generator of `charmap/maketables.go`

A shallow embedding of the generator that turns a UCM mapping file into the
decode and encode tables of a single-byte `Charmap`, followed by the
properties of the tables that it emits.

Conventions of the embedding.

* A Go `string` is the list of its bytes (`List Nat`, every element below 256).
* A Go `rune` (an `int32`) is represented by the natural number `uint32(r)`.
  The generator only compares runes for equality, converts them with
  `uint32(c)` and hands them to the UTF-8 encoder, whose first step is the
  same conversion, so nothing is lost.
* `panic` and `log.Fatalf` end the run; they are the `error` results.
* The order in which `range` enumerates a Go map and the algorithm behind
  `sort.Sort` are not fixed by the language; both are taken from a `Runtime`
  record, and the theorems hold for every runtime that honours the two
  documented contracts.
* The functions of the Go library (`utf8.EncodeRune`, decoding by `range`,
  `strings.HasPrefix`, `strings.TrimSpace`, `fmt.Sscanf`) are written out
  from their documented behaviour, with arithmetic in place of masks and
  shifts; the two expressions of the generator itself that work on bits,
  `uint32(i)<<24 | uint32(c)` and `b[i]&0xffffff`, are kept as such.
* What is written to the code writer is represented by the values written:
  `buildCharmap` gives the fields of the `Charmap` literal, and `mainBody`
  follows the same statements with the writer, whose output is the sequence
  of the calls of `printf` made (`mainBody_result` and `mainBody_ok` relate
  the two).
* The mapping text is the list of the bytes that the response body delivers;
  `scanTokens` follows `bufio.Scanner` with `bufio.ScanLines` on it, with the
  limit of 64 KiB on a line, past which the scanner stops.  Whether the body
  reports the end of the data together with its last bytes or by a read of
  its own is not fixed by `io.Reader`; it is a parameter, `eofWithData`.
-/

namespace MakeTables

/-! ## `unicode/utf8` -/

/-- The constant `utf8.RuneError`, U+FFFD: the "unmapped" sentinel. -/
def RuneError : Nat := 0xFFFD

/-- The bytes `utf8.EncodeRune(p, r)` writes to `p`, for `i = uint32(r)`; the
value it returns is the length of this list.  Surrogates and values above
`utf8.MaxRune` are encoded as `RuneError`. -/
def EncodeRune (i : Nat) : List Nat :=
  if i ≤ 0x7F then [i]
  else if i ≤ 0x7FF then [0xC0 + i / 64, 0x80 + i % 64]
  else if 0x10FFFF < i ∨ (0xD800 ≤ i ∧ i ≤ 0xDFFF) then [0xEF, 0xBF, 0xBD]
  else if i ≤ 0xFFFF then [0xE0 + i / 4096, 0x80 + i / 64 % 64, 0x80 + i % 64]
  else [0xF0 + i / 262144, 0x80 + i / 4096 % 64, 0x80 + i / 64 % 64, 0x80 + i % 64]

/-- A continuation byte `10xxxxxx` whose value lies in the accept range
`lo..hi` of the decoder. -/
def inRange (lo hi b : Nat) : Bool := decide (lo ≤ b) && decide (b ≤ hi)

/-- The pair `(rune, size)` returned by `utf8.DecodeRuneInString(s)`: the first
rune of `s` and its width in bytes, `(RuneError, 0)` on the empty string and
`(RuneError, 1)` on an ill-formed or truncated sequence (overlong forms,
surrogates and values above U+10FFFF are ill-formed). -/
def DecodeRuneInString (s : List Nat) : Nat × Nat :=
  match s with
  | [] => (RuneError, 0)
  | b0 :: t =>
    if b0 < 0x80 then (b0, 1)
    else if b0 < 0xC2 then (RuneError, 1)
    else if b0 < 0xE0 then
      match t with
      | b1 :: _ =>
        if inRange 0x80 0xBF b1 then ((b0 % 32) * 64 + b1 % 64, 2) else (RuneError, 1)
      | _ => (RuneError, 1)
    else if b0 < 0xF0 then
      match t with
      | b1 :: b2 :: _ =>
        if inRange (if b0 = 0xE0 then 0xA0 else 0x80) (if b0 = 0xED then 0x9F else 0xBF) b1
            && inRange 0x80 0xBF b2 then
          ((b0 % 16) * 4096 + (b1 % 64) * 64 + b2 % 64, 3)
        else (RuneError, 1)
      | _ => (RuneError, 1)
    else if b0 < 0xF5 then
      match t with
      | b1 :: b2 :: b3 :: _ =>
        if inRange (if b0 = 0xF0 then 0x90 else 0x80) (if b0 = 0xF4 then 0x8F else 0xBF) b1
            && inRange 0x80 0xBF b2 && inRange 0x80 0xBF b3 then
          ((b0 % 8) * 262144 + (b1 % 64) * 4096 + (b2 % 64) * 64 + b3 % 64, 4)
        else (RuneError, 1)
      | _ => (RuneError, 1)
    else (RuneError, 1)

/-- The runes produced by `for _, c := range s` on a string `s`, with one unit
of fuel per iteration.  Every iteration consumes at least one byte, so
`s.length` units are enough (`rangeRunes_fuel`). -/
def rangeRunes : Nat → List Nat → List Nat
  | 0, _ => []
  | fuel + 1, s =>
    match s with
    | [] => []
    | b :: t =>
      let d := DecodeRuneInString (b :: t)
      d.1 :: rangeRunes fuel ((b :: t).drop d.2)

/-- The loop `for _, c := range s`: the sequence of runes of the string `s`. -/
def rangeString (s : List Nat) : List Nat := rangeRunes s.length s

/-- The conversion `string(mapping)` of a `[]rune` to a string: the
concatenation of the UTF-8 encodings of its runes. -/
def runesToString (mapping : List Nat) : List Nat :=
  mapping.flatMap EncodeRune

/-- The test `strings.HasPrefix(s, pre)`, a comparison of bytes. -/
def hasPrefixBytes (s pre : List Nat) : Bool :=
  decide (pre.length ≤ s.length) && (s.take pre.length == pre)

/-! ## Constants and types of the generator -/

/-- The bytes of a string literal that holds only ASCII characters. -/
def bytesOf (s : String) : List Nat := s.toList.map Char.toNat

/-- The constant `ascii`: the canonical 7-bit sequence the mapping is
compared with. -/
def ascii : List Nat :=
  [0x00, 0x01, 0x02, 0x03, 0x04, 0x05, 0x06, 0x07,
   0x08, 0x09, 0x0a, 0x0b, 0x0c, 0x0d, 0x0e, 0x0f] ++
  [0x10, 0x11, 0x12, 0x13, 0x14, 0x15, 0x16, 0x17,
   0x18, 0x19, 0x1a, 0x1b, 0x1c, 0x1d, 0x1e, 0x1f] ++
  bytesOf " !\"#$%&'()*+,-./0123456789:;<=>?" ++
  bytesOf "@ABCDEFGHIJKLMNOPQRSTUVWXYZ[\\]^_" ++
  bytesOf "`abcdefghijklmnopqrstuvwxyz\x7b|\x7d~\x7f"

/-- One element of the emitted `decode: [256]utf8Enc` literal: the length `n`
and the three bytes `buf[0], buf[1], buf[2]`. -/
structure utf8Enc where
  n : Nat
  b0 : Nat
  b1 : Nat
  b2 : Nat
deriving DecidableEq, Repr

/-- The three stored bytes of a decode entry. -/
def utf8Enc.bytes (e : utf8Enc) : List Nat := [e.b0, e.b1, e.b2]

/-- The emitted `Charmap` literal. -/
structure Charmap where
  name : String
  asciiSuperset : Bool
  low : Nat
  replacement : Nat
  decode : List utf8Enc
  encode : List Nat
deriving DecidableEq, Repr

/-- The ways in which the construction of one table stops without a result. -/
inductive BuildError where
  /-- The `panic` of the decode loop, "rune ... is too long", raised for the
  rune `c` while the counter is `i`. -/
  | runeTooLong (i c : Nat)
  /-- The run-time panic of `encode[len(encode)-1]` on an empty slice. -/
  | indexOutOfRange
  /-- The padding loop was cut off by the model; never returned, see
  `buildCharmap_ne_outOfFuel`. -/
  | outOfFuel
deriving DecidableEq, Repr

/-- The map `backMapping : map[rune]byte` as an association list. -/
abbrev BackMap := List (Nat × Nat)

/-- The test `_, ok := backMapping[c]`. -/
def BackMap.has (m : BackMap) (c : Nat) : Bool := m.any (fun p => p.1 == c)

/-- The assignment `backMapping[c] = v`. -/
def BackMap.set (m : BackMap) (c v : Nat) : BackMap :=
  if m.has c then m.map (fun p => if p.1 == c then (c, v) else p) else m ++ [(c, v)]

/-- The method `byRune.Less`: entries compare by their low 24 bits. -/
def byRune.Less (b : List Nat) (i j : Nat) : Bool :=
  decide (b.getD i 0 &&& 0xffffff < b.getD j 0 &&& 0xffffff)

/-- What the generator takes from the Go runtime and library: the order in
which `range` enumerates a map, and `sort.Sort` on a `byRune`. -/
structure Runtime where
  rangeMap : BackMap → List (Nat × Nat)
  sortSort : List Nat → List Nat

/-- The contracts of the language and of package `sort`: `range` over a map
visits every entry once, and `sort.Sort` permutes its argument so that no
later element is `Less` than an earlier one. -/
def Runtime.Valid (rt : Runtime) : Prop :=
  (∀ m, (rt.rangeMap m).Perm m) ∧
  (∀ l, (rt.sortSort l).Perm l) ∧
  (∀ l i j, i < j → j < (rt.sortSort l).length → byRune.Less (rt.sortSort l) j i = false)

/-! ## The body of `main` for one encoding -/

/-- The values `n, buf[0], buf[1], buf[2]` printed for the rune `c`, after
`var buf [8]byte` and `n := utf8.EncodeRune(buf[:], c)`. -/
def decodeEntry (c : Nat) : utf8Enc :=
  let n := (EncodeRune c).length
  let buf := EncodeRune c ++ List.replicate (8 - n) 0
  ⟨n, buf.getD 0 0, buf.getD 1 0, buf.getD 2 0⟩

/-- The statement `if _, ok := backMapping[c]; !ok && c != utf8.RuneError
{ backMapping[c] = byte(i) }`. -/
def recordFirst (backMapping : BackMap) (c i : Nat) : BackMap :=
  if !(backMapping.has c) && c != RuneError then backMapping.set c (i % 256)
  else backMapping

/-- The loop `for _, c := range e.mapping` of `main`, run on the runes still
to come, with the counter `i`, the reverse map and the decode entries printed
so far. -/
def decodeLoop : List Nat → Nat → BackMap → List utf8Enc →
    Except BuildError (BackMap × List utf8Enc)
  | [], _, backMapping, dec => .ok (backMapping, dec)
  | c :: cs, i, backMapping, dec =>
    let backMapping1 := recordFirst backMapping c i
    if (EncodeRune c).length > 3 then .error (.runeTooLong i c)
    else decodeLoop cs (i + 1) backMapping1 (dec ++ [decodeEntry c])

/-- The key `uint32(i)<<24 | uint32(c)` appended for a map entry `(c, i)`. -/
def packKey (p : Nat × Nat) : Nat :=
  ((p.2 % 2 ^ 32) <<< 24) % 2 ^ 32 ||| p.1 % 2 ^ 32

/-- The loop `for len(encode) < cap(encode)`, one unit of fuel per iteration.
The slice is made by `make([]uint32, 0, 256)` and receives one key for each
entry of the reverse map, at most 256 of them for a mapping of 256 runes, so
that it is never reallocated and `cap(encode)` is 256 throughout. -/
def padLoop : Nat → List Nat → Except BuildError (List Nat)
  | fuel, encode =>
    if encode.length < 256 then
      match fuel with
      | 0 => .error .outOfFuel
      | fuel + 1 =>
        match encode.getLast? with
        | none => .error .indexOutOfRange
        | some last => padLoop fuel (encode ++ [last])
    else .ok encode

/-- The flag `asciiSuperset := strings.HasPrefix(e.mapping, ascii)`. -/
def asciiSuperset (mapping : List Nat) : Bool := hasPrefixBytes mapping ascii

/-- The offset `low`: `0x80` if `asciiSuperset`, else `0x00`. -/
def low (mapping : List Nat) : Nat := if asciiSuperset mapping then 0x80 else 0x00

/-- The body of the loop of `main` for one encoding `e` whose `mapping` has
already been replaced by the string returned from `getUCM`: the values of the
`Charmap` literal written for it. -/
def buildCharmap (rt : Runtime) (name : String) (replacement : Nat)
    (mapping : List Nat) : Except BuildError Charmap :=
  match decodeLoop (rangeString mapping) 0 [] [] with
  | .error err => .error err
  | .ok (backMapping, dec) =>
    let encode := rt.sortSort ((rt.rangeMap backMapping).map packKey)
    match padLoop 256 encode with
    | .error err => .error err
    | .ok encode =>
      .ok ⟨name, asciiSuperset mapping, low mapping, replacement, dec, encode⟩

/-! ## A concrete runtime -/

/-- Insertion of a key before the first element it is `Less` than. -/
def insertKey (x : Nat) : List Nat → List Nat
  | [] => [x]
  | y :: ys => if byRune.Less [x, y] 0 1 then x :: y :: ys else y :: insertKey x ys

/-- A runtime whose maps are enumerated in insertion order and whose sort is
an insertion sort. -/
def simpleRuntime : Runtime where
  rangeMap := fun m => m
  sortSort := fun l => l.foldr insertKey []

/-! ## `getUCM`

The mapping text is the list of the bytes of the response body.  The loop of
`getUCM` reads it through a `bufio.Scanner`, whose tokens are the lines of the
text, each a string without its line terminator.  `strings.TrimSpace` and
`fmt.Sscanf` read a string rune by rune, so a line is first turned into its
runes with `rangeString`. -/

/-- White space according to `unicode.IsSpace`, which is also the table
`space` of package `fmt`. -/
def isSpace (r : Nat) : Bool :=
  (decide (0x09 ≤ r) && decide (r ≤ 0x0D)) || r == 0x20 || r == 0x85 || r == 0xA0 ||
  r == 0x1680 || (decide (0x2000 ≤ r) && decide (r ≤ 0x200A)) || r == 0x2028 ||
  r == 0x2029 || r == 0x202F || r == 0x205F || r == 0x3000

/-- The function `strings.TrimSpace` on the runes of a string. -/
def TrimSpace (s : List Nat) : List Nat :=
  ((s.dropWhile isSpace).reverse.dropWhile isSpace).reverse

/-- The value of a hexadecimal digit. -/
def hexVal (r : Nat) : Option Nat :=
  if 0x30 ≤ r ∧ r ≤ 0x39 then some (r - 0x30)
  else if 0x61 ≤ r ∧ r ≤ 0x66 then some (r - 0x61 + 10)
  else if 0x41 ≤ r ∧ r ≤ 0x46 then some (r - 0x41 + 10)
  else none

/-- The runes the scanner accepts into the token of a `%x` number: the
hexadecimal digits and the underscore. -/
def isHexTok (r : Nat) : Bool := (hexVal r).isSome || r == 0x5F

/-- The number `strconv.ParseUint(tok, 16, 64)` reads from a token, before
any range check; an underscore is a syntax error. -/
def hexValue (tok : List Nat) : Option Nat :=
  tok.foldl (fun acc r =>
    match acc, hexVal r with
    | some a, some d => some (a * 16 + d)
    | _, _ => none) (some 0)

/-- The method `SkipSpace` of the scanner of `Sscanf`: a newline is an error. -/
def SkipSpace : List Nat → Option (List Nat)
  | [] => some []
  | r :: t => if r = 0x0A then none else if isSpace r then SkipSpace t else some (r :: t)

/-- A literal rune of the format: the next rune of the input must be the same. -/
def matchRune (c : Nat) : List Nat → Option (List Nat)
  | [] => none
  | r :: t => if r = c then some t else none

/-- A space of the format that does not follow a newline: one or more spaces
of the input, or the end of the input. -/
def matchSpace : List Nat → Option (List Nat)
  | [] => some []
  | r :: t =>
    if !isSpace r || r == 0x0A then none
    else some (t.dropWhile (fun x => isSpace x && x != 0x0A))

/-- The verb `%x` with a `*rune` operand: an optional sign and a hexadecimal
number that fits an `int32`; the value is returned as `uint32(r)`. -/
def scanInt32 (s : List Nat) : Option (Nat × List Nat) :=
  match SkipSpace s with
  | none => none
  | some s1 =>
    let signed : Bool × List Nat :=
      match s1 with
      | 0x2D :: t => (true, t)
      | 0x2B :: t => (false, t)
      | _ => (false, s1)
    let tok := signed.2.takeWhile isHexTok
    let rest := signed.2.dropWhile isHexTok
    match (if tok = [] then none else hexValue tok) with
    | none => none
    | some v =>
      if signed.1 then
        if v ≤ 2 ^ 31 then some ((2 ^ 32 - v) % 2 ^ 32, rest) else none
      else
        if v < 2 ^ 31 then some (v, rest) else none

/-- The verb `%x` with a `*byte` operand: a hexadecimal number below 256. -/
def scanUint8 (s : List Nat) : Option (Nat × List Nat) :=
  match SkipSpace s with
  | none => none
  | some s1 =>
    let tok := s1.takeWhile isHexTok
    let rest := s1.dropWhile isHexTok
    match (if tok = [] then none else hexValue tok) with
    | none => none
    | some v => if v < 256 then some (v, rest) else none

/-- The call `fmt.Sscanf(s, "<U%x> \\x%x |0", &r, &c)`: the pair `(r, c)` when
`err == nil`, and `none` otherwise.  Input after the final `0` is not read. -/
def Sscanf (s : List Nat) : Option (Nat × Nat) := do
  let s ← matchRune 0x3C s
  let s ← matchRune 0x55 s
  let (r, s) ← scanInt32 s
  let s ← matchRune 0x3E s
  let s ← matchSpace s
  let s ← matchRune 0x5C s
  let s ← matchRune 0x78 s
  let (c, s) ← scanUint8 s
  let s ← matchSpace s
  let s ← matchRune 0x7C s
  let _ ← matchRune 0x30 s
  pure (r, c)

/-- The failure of `getUCM`: `log.Fatalf` with the number of characters found. -/
inductive ParseError where
  | onlyFewCharacters (charsFound : Nat)
deriving DecidableEq, Repr

/-- What one iteration of the loop `for scanner.Scan()` reads from a line: the
pair `(r, c)` stored by `Sscanf`, or `none` when the iteration ends in one of
its two `continue` statements (blank line, comment, or no match). -/
def lineEntry (line : List Nat) : Option (Nat × Nat) :=
  let s := TrimSpace (rangeString line)
  if s = [] ∨ s.head? = some 0x23 then none else Sscanf s

/-- The loop `for scanner.Scan()` of `getUCM` on the lines still to come, with
the array `mapping` and the counter `charsFound`. -/
def scanLoop : List (List Nat) → List Nat → Nat → List Nat × Nat
  | [], mapping, charsFound => (mapping, charsFound)
  | line :: rest, mapping, charsFound =>
    match lineEntry line with
    | none => scanLoop rest mapping charsFound
    | some (r, c) => scanLoop rest (mapping.set c r) (charsFound + 1)

/-- The statements of `getUCM` from `mapping := make([]rune, 256)` on, for a
scanner that yields the lines `lines`: the string `string(mapping)`, or the
fatal error when fewer than 128 characters were found. -/
def parseLines (lines : List (List Nat)) : Except ParseError (List Nat) :=
  let mapping := List.replicate 256 RuneError
  let r := scanLoop lines mapping 0
  if r.2 < 128 then .error (.onlyFewCharacters r.2) else .ok (runesToString r.1)

/-- The constant `bufio.MaxScanTokenSize`: the largest size, 64 KiB, to which
the buffer of a scanner made by `bufio.NewScanner` grows. -/
def MaxScanTokenSize : Nat := 64 * 1024

/-- The function `dropCR` of package `bufio`: a carriage return at the end of
the line is dropped. -/
def dropCR (data : List Nat) : List Nat :=
  if data.getLast? = some 0x0D then data.dropLast else data

/-- The tokens that the successive calls of `scanner.Scan()` yield, with the
split function `bufio.ScanLines`, on the text still to come, `cur` being the
bytes of the line already read.

A line that ends in a newline is yielded, without the newline and after
`dropCR`, if it fits into the buffer together with its newline, that is, if
it has fewer than `MaxScanTokenSize` bytes.  Otherwise the buffer is full and
holds no newline: `Scan` sets `ErrTooLong` and returns false, which ends the
loop of `getUCM`; `scanner.Err()` is never read there.  The bytes after the
last newline, if there are any, are yielded as a final line when the end of
the data is seen before the buffer is full: always with fewer than
`MaxScanTokenSize` bytes, and with exactly that many if the reader reports
the end together with its last bytes (`eofWithData`). -/
def scanFrom (eofWithData : Bool) : List Nat → List Nat → List (List Nat)
  | [], cur =>
    if cur = [] then []
    else if cur.length < MaxScanTokenSize ∨
        (cur.length = MaxScanTokenSize ∧ eofWithData = true) then [dropCR cur]
    else []
  | b :: rest, cur =>
    if b = 0x0A then
      if cur.length < MaxScanTokenSize then dropCR cur :: scanFrom eofWithData rest []
      else []
    else scanFrom eofWithData rest (cur ++ [b])

/-- The lines that `for scanner.Scan()` goes through, `scanner.Text()` at each
iteration, for `scanner := bufio.NewScanner(res.Body)` on a body that
delivers `text`. -/
def scanTokens (eofWithData : Bool) (text : List Nat) : List (List Nat) :=
  scanFrom eofWithData text []

/-- The function `getUCM` after the mapping text has been fetched: the string
`string(mapping)`, or the fatal error when fewer than 128 characters were
found. -/
def getUCM (eofWithData : Bool) (text : List Nat) : Except ParseError (List Nat) :=
  let mapping := List.replicate 256 RuneError
  let r := scanLoop (scanTokens eofWithData text) mapping 0
  if r.2 < 128 then .error (.onlyFewCharacters r.2) else .ok (runesToString r.1)


/-! ## Predicates used in the statements -/

/-- A Unicode scalar value: a code point up to U+10FFFF that is not a
surrogate. -/
def IsScalar (r : Nat) : Prop := r < 0xD800 ∨ (0xE000 ≤ r ∧ r ≤ 0x10FFFF)

instance (r : Nat) : Decidable (IsScalar r) := by unfold IsScalar; infer_instance

/-- A `RawMapping`: 256 characters, one for each byte value. -/
def RawMapping (rm : List Nat) : Prop := rm.length = 256 ∧ ∀ r ∈ rm, IsScalar r

/-- The state of the reverse map after the runes `pre` have been seen: its
keys are distinct, and it holds exactly the pairs of a character of `pre`
other than the sentinel and the index of its first occurrence, as a byte. -/
def RecordsFirst (pre : List Nat) (m : BackMap) : Prop :=
  (m.map Prod.fst).Nodup ∧
  ∀ c v, (c, v) ∈ m ↔ (c ≠ RuneError ∧ c ∈ pre ∧ v = pre.indexOf c % 256)

/-- The lines of a text still to come, with their carriage returns, `cur`
being the bytes of the line already read: a line ends at each newline, and
the bytes after the last newline, if there are any, are a last line. -/
def splitFrom : List Nat → List Nat → List (List Nat)
  | [], cur => if cur = [] then [] else [cur]
  | b :: rest, cur =>
    if b = 0x0A then cur :: splitFrom rest [] else splitFrom rest (cur ++ [b])

/-- The lines of a text as they stand between the newlines. -/
def splitLines (text : List Nat) : List (List Nat) := splitFrom text []

/-- The lines of a text, each without its line terminator. -/
def textLines (text : List Nat) : List (List Nat) := (splitLines text).map dropCR

/-- The text that consists of the given lines, each ended by a newline. -/
def unlines : List (List Nat) → List Nat
  | [] => []
  | l :: ls => l ++ 0x0A :: unlines ls

/-- The byte values that receive a mapping from a matching line of the text. -/
def mappedBytes (lines : List (List Nat)) : List Nat :=
  ((lines.filterMap lineEntry).map Prod.snd).dedup

/-- The characters of a mapping other than the sentinel, each listed once. -/
def distinctChars (rm : List Nat) : List Nat :=
  (rm.filter (fun c => c != RuneError)).dedup

/-! ## The variable names and the code writer -/

/-- The name `varNames[0]`, the first element of
`strings.Split(e.varName, ",")`: the bytes before the first comma. -/
def firstVarName (varName : List Nat) : List Nat :=
  varName.takeWhile (fun c => c != 0x2C)

/-- The loop `for ; lvn < len(varName); lvn++` on the bytes of `varName` from
position `lvn` on: the value of `lvn` when the loop ends, at the end of the
name or at the first byte that is not in `'A'..'Z'`. -/
def lvnLoop : List Nat → Nat → Nat
  | [], lvn => lvn
  | c :: cs, lvn =>
    if !(decide (c ≥ 0x41) && decide (c ≤ 0x5A)) then lvn else lvnLoop cs (lvn + 1)

/-- The function `strings.ToLower` on a string of ASCII bytes, the only
strings the generator applies it to: the letters `A..Z` are replaced by
`a..z`. -/
def ToLower (s : List Nat) : List Nat :=
  s.map (fun c => if 0x41 ≤ c ∧ c ≤ 0x5A then c + 0x20 else c)

/-- The name `lowerVarName := strings.ToLower(varName[:lvn]) + varName[lvn:]`. -/
def lowerVarName (varName : List Nat) : List Nat :=
  let lvn := lvnLoop varName 0
  ToLower (varName.take lvn) ++ varName.drop lvn

/-- An operand of a call of `printf`. -/
inductive Arg where
  | bytes (s : List Nat)
  | text (s : String)
  | bool (b : Bool)
  | int (n : Nat)
deriving DecidableEq, Repr

/-- One call `printf(s, a...)`, that is `fmt.Fprintf(w, s, a...)`: the format
and the operands. -/
structure Printf where
  format : String
  args : List Arg
deriving DecidableEq, Repr

/-- Modelled from the spec: the code writer `gen.NewCodeWriter()` of the
package `internal/gen`, whose source is not given.  It is the code emitter
that collects what is written to it until `WriteGoFile`; its accumulated
output is kept as the sequence of the calls of `printf` that produced it,
and `Size` is its size estimate. -/
structure CodeWriter where
  out : List Printf
  Size : Nat
deriving DecidableEq, Repr

/-- A run of calls of `printf` on the writer. -/
def CodeWriter.printf (w : CodeWriter) (calls : List Printf) : CodeWriter :=
  { w with out := w.out ++ calls }

/-- An element of the table `encodings`, its `mapping` being the string that
`getUCM` returned. -/
structure Encoding where
  name : String
  comment : String
  varName : List Nat
  replacement : Nat
  mapping : List Nat
deriving DecidableEq, Repr

/-- The calls of `printf` of `main` for an encoding `e` from the comment line
to the opening of the decode table. -/
def headerCalls (e : Encoding) : List Printf :=
  let varName := firstVarName e.varName
  [⟨"// %s is the %s encoding.\n", [.bytes varName, .text e.name]⟩] ++
  (if e.comment != "" then [⟨"//\n// %s\n", [.text e.comment]⟩] else []) ++
  [⟨"var %s *Charmap = &%s\n\nvar %s = Charmap\x7b\nname: %q,\n",
      [.bytes varName, .bytes (lowerVarName varName), .bytes (lowerVarName varName),
        .text e.name]⟩,
   ⟨"asciiSuperset: %t,\n", [.bool (asciiSuperset e.mapping)]⟩,
   ⟨"low: 0x%02x,\n", [.int (low e.mapping)]⟩,
   ⟨"replacement: 0x%02x,\n", [.int e.replacement]⟩,
   ⟨"decode: [256]utf8Enc\x7b\n", []⟩]

/-- The calls of `printf` of one iteration of the decode loop that does not
panic: the entry of the rune `c`, and a newline when the counter `i` is odd. -/
def entryCalls (i c : Nat) : List Printf :=
  [⟨"\x7b%d,[3]byte\x7b0x%02x,0x%02x,0x%02x\x7d\x7d,",
      [.int (decodeEntry c).n, .int (decodeEntry c).b0, .int (decodeEntry c).b1,
        .int (decodeEntry c).b2]⟩] ++
  (if i % 2 = 1 then [⟨"\n", []⟩] else [])

/-- The loop `for _, c := range e.mapping` of `main` with the writer: the
reverse map is updated, the panic comes before anything is printed for the
rune, and the entry is printed otherwise. -/
def writeDecodeLoop : List Nat → Nat → BackMap → CodeWriter →
    CodeWriter × Except BuildError BackMap
  | [], _, backMapping, w => (w, .ok backMapping)
  | c :: cs, i, backMapping, w =>
    let backMapping1 := recordFirst backMapping c i
    if (EncodeRune c).length > 3 then (w, .error (.runeTooLong i c))
    else writeDecodeLoop cs (i + 1) backMapping1 (w.printf (entryCalls i c))

/-- The calls of `printf` of one iteration of `for i, enc := range encode`. -/
def keyCalls (i enc : Nat) : List Printf :=
  [⟨"0x%08x,", [.int enc]⟩] ++ (if i % 8 = 7 then [⟨"\n", []⟩] else [])

/-- The loop `for i, enc := range encode` of `main`. -/
def writeEncodeLoop : List Nat → Nat → CodeWriter → CodeWriter
  | [], _, w => w
  | enc :: rest, i, w => writeEncodeLoop rest (i + 1) (w.printf (keyCalls i enc))

/-- The body of the loop `for _, e := range encodings` of `main` on the
writer `w`, after `e.mapping = getUCM(e.mapping)`: the writer when the body
ends or panics, and how it ends. -/
def mainBody (rt : Runtime) (e : Encoding) (w : CodeWriter) :
    CodeWriter × Except BuildError Unit :=
  let w1 := w.printf (headerCalls e)
  match writeDecodeLoop (rangeString e.mapping) 0 [] w1 with
  | (w2, .error err) => (w2, .error err)
  | (w2, .ok backMapping) =>
    let w3 := w2.printf [⟨"\x7d,\n", []⟩, ⟨"encode: [256]uint32\x7b\n", []⟩]
    let encode := rt.sortSort ((rt.rangeMap backMapping).map packKey)
    match padLoop 256 encode with
    | .error err => (w3, .error err)
    | .ok encode =>
      let w4 := (writeEncodeLoop encode 0 w3).printf [⟨"\x7d,\n\x7d\n", []⟩]
      ({ w4 with Size := w4.Size + (2 * 4 * 256 + 3 * 8) }, .ok ())

/-- The writer of `main` when the loop over `encodings` begins: the three
calls of `printf` for the import clause have been made. -/
def initialWriter : CodeWriter :=
  ⟨[⟨"import (\n", []⟩, ⟨"\t\"golang.org/x/text/encoding\"\n", []⟩, ⟨")\n\n", []⟩], 0⟩

/-- A runtime that enumerates maps from the last entry to the first and sorts
the reversed slice by insertion. -/
def reverseRuntime : Runtime where
  rangeMap := fun m => m.reverse
  sortSort := fun l => l.reverse.foldr insertKey []

/-- The rune that `string(mapping)` keeps of an element of `mapping`: the
element itself if it is a Unicode scalar value, U+FFFD otherwise. -/
def validRune (r : Nat) : Nat := if IsScalar r then r else RuneError

/-- The runes of a line `<U` digits `> \x` digits ` |` flag. -/
def entryRunes (ud bd : List Nat) (flag : Nat) : List Nat :=
  bytesOf "<U" ++ ud ++ bytesOf "> \\x" ++ bd ++ bytesOf " |" ++ [flag]

/-- The code point of the last matching line, in the order of the text, whose
byte value is `b`, if there is one. -/
def lastEntry (lines : List (List Nat)) (b : Nat) : Option Nat :=
  (((lines.filterMap lineEntry).filter (fun p => p.2 == b)).getLast?).map Prod.fst

/-! ## Sample inputs -/

/-- The mapping of the scenario of the specification: ASCII on the bytes
`0x00..0x7F`, the euro sign on `0x80`, the sentinel on all other bytes. -/
def euroMapping : List Nat :=
  List.range 128 ++ [0x20AC] ++ List.replicate 127 RuneError

/-- A mapping in which the bytes `0x41` and `0x42` both stand for U+0041. -/
def duplicateMapping : List Nat :=
  List.range 0x42 ++ [0x41] ++ List.replicate 189 RuneError

/-- A mapping that holds U+1F600, a character outside the three-byte range,
at byte `0x02`. -/
def emojiMapping : List Nat :=
  [0x41, 0x42, 0x1F600, 0x1F601] ++ List.replicate 252 RuneError

/-- The mapping in which no byte is mapped. -/
def unmappedMapping : List Nat := List.replicate 256 RuneError

/-- A mapping text of 128 lines that all map the byte `0x41`. -/
def repeatedLines : List (List Nat) :=
  List.replicate 128 (bytesOf "<U0041> \\x41 |0")

/-- A mapping text of 128 lines that all map the byte `0x00` to U+FFFD. -/
def sentinelLines : List (List Nat) :=
  List.replicate 128 (bytesOf "<UFFFD> \\x00 |0")

/-- The entry `EBCDIC-K` of the table `encodings`, with a mapping that holds
U+1F600 at byte `0x02`. -/
def emojiEncoding : Encoding :=
  ⟨"EBCDIC-K", "", bytesOf "EBCDIC_K", 0x3f, runesToString emojiMapping⟩

/-- A mapping text of 128 lines: 127 that map the byte `0x41` to U+0041 and a
last one that maps it to U+00C1. -/
def overwriteLines : List (List Nat) :=
  List.replicate 127 (bytesOf "<U0041> \\x41 |0") ++ [bytesOf "<U00C1> \\x41 |0"]

/-- The text of the lines `repeatedLines`. -/
def repeatedText : List Nat := unlines repeatedLines

/-- The text of the lines `sentinelLines`. -/
def sentinelText : List Nat := unlines sentinelLines

/-- The text of the lines `overwriteLines`. -/
def overwriteText : List Nat := unlines overwriteLines

/-- A mapping text of 128 lines: 127 that map the byte `0x41` to U+0041 and a
last one that gives the byte `0x42` the code point of a surrogate. -/
def surrogateLines : List (List Nat) :=
  List.replicate 127 (bytesOf "<U0041> \\x41 |0") ++ [bytesOf "<UD800> \\x42 |0"]

/-- The text of the lines `surrogateLines`. -/
def surrogateText : List Nat := unlines surrogateLines

/-- A mapping text of two lines, for the bytes `0x41` and `0xC1`. -/
def twoEntriesText : List Nat :=
  unlines [bytesOf "<U0041> \\x41 |0", bytesOf "<U00C1> \\xC1 |0"]

/-- A comment line of 64 KiB: `#` and 65535 times `x`. -/
def longComment : List Nat := 0x23 :: List.replicate 65535 0x78

/-- A mapping text of 128 lines that all map the byte `0x41`, in two halves. -/
def halvesText : List Nat :=
  unlines (List.replicate 64 (bytesOf "<U0041> \\x41 |0") ++
    List.replicate 64 (bytesOf "<U0041> \\x41 |0"))

/-- The text `halvesText` with the line `longComment` between the halves. -/
def longCommentText : List Nat :=
  unlines (List.replicate 64 (bytesOf "<U0041> \\x41 |0") ++
    longComment :: List.replicate 64 (bytesOf "<U0041> \\x41 |0"))

/-! ## The definitions on small inputs -/

theorem EncodeRune_samples :
    EncodeRune 0x41 = [0x41] ∧ EncodeRune 0xE9 = [0xC3, 0xA9] ∧
    EncodeRune 0x20AC = [0xE2, 0x82, 0xAC] ∧ EncodeRune 0x1F600 = [0xF0, 0x9F, 0x98, 0x80] ∧
    EncodeRune 0xD800 = [0xEF, 0xBF, 0xBD] ∧ EncodeRune 0x110000 = [0xEF, 0xBF, 0xBD] := by
  decide

theorem rangeString_sample :
    rangeString [0x41, 0xE2, 0x82, 0xAC, 0xFF, 0xC3, 0xA9, 0xE2, 0x82] =
      [0x41, 0x20AC, 0xFFFD, 0xE9, 0xFFFD, 0xFFFD] := by
  decide

theorem decodeLoop_sample :
    decodeLoop [0x41, 0x41, 0x20AC, 0xFFFD] 0 [] [] =
      .ok ([(0x41, 0), (0x20AC, 2)],
        [⟨1, 0x41, 0, 0⟩, ⟨1, 0x41, 0, 0⟩, ⟨3, 0xE2, 0x82, 0xAC⟩, ⟨3, 0xEF, 0xBF, 0xBD⟩]) := by
  rfl

theorem packKey_sample : packKey (0x20AC, 0x80) = 0x800020AC := by decide

theorem sortSort_sample :
    simpleRuntime.sortSort [0x800020AC, 0x41000041, 0x010000E9] =
      [0x41000041, 0x010000E9, 0x800020AC] := by
  decide

set_option maxRecDepth 100000 in
theorem Sscanf_samples :
    Sscanf (bytesOf "<U20AC> \\x80 |0") = some (0x20AC, 0x80) ∧
    Sscanf (bytesOf "<U20AC>   \\x80  |0 # euro") = some (0x20AC, 0x80) ∧
    Sscanf (bytesOf "<U20AC> \\x80 |1") = none ∧
    Sscanf (bytesOf "<U20AC> \\x80\\x81 |0") = none ∧
    Sscanf (bytesOf "<U20AC> \\x100 |0") = none ∧
    Sscanf (bytesOf "<U20AC>\\x80 |0") = none ∧
    Sscanf (bytesOf "CHARMAP") = none := by
  decide

set_option maxRecDepth 100000 in
theorem lineEntry_samples :
    lineEntry (bytesOf "") = none ∧ lineEntry (bytesOf "   ") = none ∧
    lineEntry (bytesOf "  # <U0041> \\x41 |0") = none ∧
    lineEntry (bytesOf "\t<U0041> \\x41 |0  ") = some (0x41, 0x41) := by
  decide

set_option maxRecDepth 100000 in
theorem padLoop_sample :
    padLoop 256 (List.replicate 253 0x01000041 ++ [0x000020AC]) =
      .ok (List.replicate 253 0x01000041 ++ [0x000020AC, 0x000020AC, 0x000020AC]) ∧
    padLoop 256 [] = .error .indexOutOfRange := by
  constructor <;> rfl

/-! ## UTF-8 -/

theorem EncodeRune_length_pos (r : Nat) : 1 ≤ (EncodeRune r).length := by
  unfold EncodeRune; split_ifs <;> simp

theorem EncodeRune_length_le (r : Nat) : (EncodeRune r).length ≤ 4 := by
  unfold EncodeRune; split_ifs <;> simp

theorem EncodeRune_length_le_three_iff (r : Nat) (h : IsScalar r) :
    (EncodeRune r).length ≤ 3 ↔ r ≤ 0xFFFF := by
  unfold IsScalar at h
  unfold EncodeRune; split_ifs <;> simp <;> omega

set_option maxHeartbeats 4000000 in
theorem DecodeRuneInString_EncodeRune (r : Nat) (h : IsScalar r) (rest : List Nat) :
    DecodeRuneInString (EncodeRune r ++ rest) = (r, (EncodeRune r).length) := by
  unfold IsScalar at h
  unfold EncodeRune
  split_ifs with h1 h2 h3 h4
  · simp [DecodeRuneInString]; omega
  · simp only [DecodeRuneInString, inRange, List.cons_append, List.nil_append, List.length_cons,
      List.length_nil, Bool.and_eq_true, decide_eq_true_eq]
    split_ifs <;> first | omega | (refine Prod.ext ?_ rfl; dsimp only; omega)
  · omega
  · simp only [DecodeRuneInString, inRange, List.cons_append, List.nil_append, List.length_cons,
      List.length_nil, Bool.and_eq_true, decide_eq_true_eq]
    split_ifs <;> first | omega | (refine Prod.ext ?_ rfl; dsimp only; omega)
  · simp only [DecodeRuneInString, inRange, List.cons_append, List.nil_append, List.length_cons,
      List.length_nil, Bool.and_eq_true, decide_eq_true_eq]
    split_ifs <;> first | omega | (refine Prod.ext ?_ rfl; dsimp only; omega)

theorem rangeRunes_runesToString (rm : List Nat) (h : ∀ r ∈ rm, IsScalar r) :
    ∀ fuel, (runesToString rm).length ≤ fuel → rangeRunes fuel (runesToString rm) = rm := by
  induction rm with
  | nil => intro fuel _; cases fuel <;> simp [runesToString, rangeRunes]
  | cons r rs ih =>
    intro fuel hf
    have hr : IsScalar r := h r (List.mem_cons_self _ _)
    have hpos := EncodeRune_length_pos r
    have hs : runesToString (r :: rs) = EncodeRune r ++ runesToString rs := by
      simp [runesToString]
    rw [hs] at hf ⊢
    rw [List.length_append] at hf
    obtain ⟨f, rfl⟩ : ∃ f, fuel = f + 1 := ⟨fuel - 1, by omega⟩
    obtain ⟨b, t, hbt⟩ : ∃ b t, EncodeRune r ++ runesToString rs = b :: t := by
      cases hE : EncodeRune r with
      | nil => rw [hE] at hpos; simp at hpos
      | cons b t => exact ⟨b, t ++ runesToString rs, rfl⟩
    have hd := DecodeRuneInString_EncodeRune r hr (runesToString rs)
    rw [hbt] at hd
    rw [hbt, rangeRunes]
    simp only [hd]
    rw [← hbt, List.drop_left, ih (fun x hx => h x (List.mem_cons_of_mem _ hx)) f (by omega)]

/-- Ranging over the string made from scalar values gives the values back. -/
theorem rangeString_runesToString (rm : List Nat) (h : ∀ r ∈ rm, IsScalar r) :
    rangeString (runesToString rm) = rm :=
  rangeRunes_runesToString rm h _ (Nat.le_refl _)
theorem BackMap.has_iff (m : BackMap) (c : Nat) : m.has c = true ↔ c ∈ m.map Prod.fst := by
  simp [BackMap.has]

theorem BackMap.set_of_not_has (m : BackMap) (c v : Nat) (h : m.has c = false) :
    m.set c v = m ++ [(c, v)] := by
  simp [BackMap.set, h]

theorem recordsFirst_nil : RecordsFirst [] [] := by
  simp [RecordsFirst]

theorem recordsFirst_step (pre : List Nat) (m : BackMap) (c : Nat)
    (h : RecordsFirst pre m) : RecordsFirst (pre ++ [c]) (recordFirst m c pre.length) := by
  obtain ⟨hnd, hm⟩ := h
  have hkey : ∀ x, x ∈ m.map Prod.fst ↔ (x ≠ RuneError ∧ x ∈ pre) := by
    intro x
    constructor
    · intro hx
      obtain ⟨⟨a, v⟩, hav, rfl⟩ := List.mem_map.1 hx
      exact ⟨((hm a v).1 hav).1, ((hm a v).1 hav).2.1⟩
    · rintro ⟨h1, h2⟩
      exact List.mem_map.2 ⟨(x, pre.indexOf x % 256), (hm _ _).2 ⟨h1, h2, rfl⟩, rfl⟩
  unfold recordFirst
  by_cases hc : m.has c = false ∧ c ≠ RuneError
  · obtain ⟨hhas, hne⟩ := hc
    have hnotkey : c ∉ m.map Prod.fst := by
      intro hx
      have := (BackMap.has_iff m c).2 hx
      rw [hhas] at this; exact Bool.noConfusion this
    have hnotpre : c ∉ pre := fun hx => hnotkey ((hkey c).2 ⟨hne, hx⟩)
    have hif : (!(m.has c) && c != RuneError) = true := by simp [hhas, hne]
    rw [if_pos hif, BackMap.set_of_not_has m c _ hhas]
    refine ⟨?_, ?_⟩
    · rw [List.map_append, List.nodup_append]
      refine ⟨hnd, by simp, ?_⟩
      intro x hx hx2
      simp at hx2
      subst hx2
      exact hnotkey hx
    · intro x v
      rw [List.mem_append, hm x v]
      constructor
      · rintro (⟨h1, h2, h3⟩ | h)
        · refine ⟨h1, List.mem_append_left _ h2, ?_⟩
          rw [List.indexOf_append_of_mem h2]; exact h3
        · simp at h
          obtain ⟨rfl, rfl⟩ := h
          refine ⟨hne, by simp, ?_⟩
          rw [List.indexOf_append_of_not_mem hnotpre]
          simp
      · rintro ⟨h1, h2, h3⟩
        rcases List.mem_append.1 h2 with h2 | h2
        · left
          refine ⟨h1, h2, ?_⟩
          rw [List.indexOf_append_of_mem h2] at h3; exact h3
        · right
          simp at h2
          subst h2
          rw [List.indexOf_append_of_not_mem hnotpre] at h3
          simp at h3
          simp [h3]
  · have hif : ¬ ((!(m.has c) && c != RuneError) = true) := by
      intro h
      simp at h
      exact hc ⟨h.1, h.2⟩
    rw [if_neg hif]
    have hc2 : c = RuneError ∨ c ∈ pre := by
      by_cases h1 : c = RuneError
      · exact Or.inl h1
      · right
        have : m.has c = true := by
          cases hh : m.has c
          · exact absurd ⟨hh, h1⟩ hc
          · rfl
        exact ((hkey c).1 ((BackMap.has_iff m c).1 this)).2
    refine ⟨hnd, ?_⟩
    intro x v
    rw [hm x v]
    constructor
    · rintro ⟨h1, h2, h3⟩
      refine ⟨h1, List.mem_append_left _ h2, ?_⟩
      rw [List.indexOf_append_of_mem h2]; exact h3
    · rintro ⟨h1, h2, h3⟩
      have h2' : x ∈ pre := by
        rcases List.mem_append.1 h2 with h2 | h2
        · exact h2
        · simp at h2
          subst h2
          rcases hc2 with h | h
          · exact absurd h h1
          · exact h
      refine ⟨h1, h2', ?_⟩
      rw [List.indexOf_append_of_mem h2'] at h3; exact h3

/-! ## The decode loop -/

theorem decodeLoop_ok (cs : List Nat) :
    ∀ (pre : List Nat) (m : BackMap) (dec : List utf8Enc) (m1 : BackMap) (dec1 : List utf8Enc),
      RecordsFirst pre m → decodeLoop cs pre.length m dec = .ok (m1, dec1) →
      RecordsFirst (pre ++ cs) m1 ∧ dec1 = dec ++ cs.map decodeEntry ∧
        ∀ c ∈ cs, (EncodeRune c).length ≤ 3 := by
  induction cs with
  | nil =>
    intro pre m dec m1 dec1 hinv h
    simp only [decodeLoop, Except.ok.injEq, Prod.mk.injEq] at h
    obtain ⟨rfl, rfl⟩ := h
    simp [hinv]
  | cons c cs ih =>
    intro pre m dec m1 dec1 hinv h
    rw [decodeLoop] at h
    by_cases hlen : (EncodeRune c).length > 3
    · simp [hlen] at h
    · simp only [hlen, if_false] at h
      have hstep := recordsFirst_step pre m c hinv
      have hl : pre.length + 1 = (pre ++ [c]).length := by simp
      rw [hl] at h
      obtain ⟨h1, h2, h3⟩ := ih (pre ++ [c]) _ _ m1 dec1 hstep h
      refine ⟨by simpa using h1, by simp [h2], ?_⟩
      intro x hx
      rcases List.mem_cons.1 hx with rfl | hx
      · omega
      · exact h3 x hx

theorem decodeLoop_total (cs : List Nat) (hcs : ∀ c ∈ cs, (EncodeRune c).length ≤ 3) :
    ∀ (i : Nat) (m : BackMap) (dec : List utf8Enc), ∃ r, decodeLoop cs i m dec = .ok r := by
  induction cs with
  | nil => intro i m dec; exact ⟨_, rfl⟩
  | cons c cs ih =>
    intro i m dec
    rw [decodeLoop]
    have hc : ¬ (EncodeRune c).length > 3 := by
      have := hcs c (List.mem_cons_self _ _); omega
    simp only [hc, if_false]
    exact ih (fun x hx => hcs x (List.mem_cons_of_mem _ hx)) _ _ _

theorem decodeLoop_error (pre : List Nat) (hpre : ∀ c ∈ pre, (EncodeRune c).length ≤ 3)
    (c : Nat) (hc : 3 < (EncodeRune c).length) (post : List Nat) :
    ∀ (i : Nat) (m : BackMap) (dec : List utf8Enc),
      decodeLoop (pre ++ c :: post) i m dec = .error (.runeTooLong (i + pre.length) c) := by
  induction pre with
  | nil => intro i m dec; simp [decodeLoop, hc]
  | cons x xs ih =>
    intro i m dec
    have hx : ¬ (EncodeRune x).length > 3 := by
      have := hpre x (List.mem_cons_self _ _); omega
    rw [List.cons_append, decodeLoop]
    simp only [hx, if_false]
    rw [ih (fun y hy => hpre y (List.mem_cons_of_mem _ hy))]
    simp [Nat.add_assoc, Nat.add_comm 1]
/-! ## Packed keys -/

theorem packKey_eq (c v : Nat) (hv : v < 256) (hc : c < 2 ^ 24) :
    packKey (c, v) = 2 ^ 24 * v + c := by
  unfold packKey
  simp only
  rw [Nat.mod_eq_of_lt (by omega : v < 2 ^ 32), Nat.mod_eq_of_lt (by omega : c < 2 ^ 32),
    Nat.shiftLeft_eq, Nat.mod_eq_of_lt (by omega : v * 2 ^ 24 < 2 ^ 32), Nat.mul_comm,
    ← Nat.mul_add_lt_is_or hc]

theorem key_and_mask (c v : Nat) (hc : c < 2 ^ 24) :
    (2 ^ 24 * v + c) &&& 0xffffff = c := by
  have h := Nat.and_pow_two_sub_one_eq_mod (2 ^ 24 * v + c) 24
  have e : (2 : Nat) ^ 24 - 1 = 0xffffff := by norm_num
  rw [e] at h
  rw [h]
  omega

theorem key_shiftRight (c v : Nat) (hc : c < 2 ^ 24) :
    (2 ^ 24 * v + c) >>> 24 = v := by
  rw [Nat.shiftRight_eq_div_pow]
  omega

/-! ## The padding loop -/

theorem padLoop_nil (fuel : Nat) : padLoop (fuel + 1) [] = .error .indexOutOfRange := by
  simp [padLoop]

theorem padLoop_ok (fuel : Nat) :
    ∀ (l : List Nat) (hl : l ≠ []), 256 - l.length ≤ fuel →
      padLoop fuel l = .ok (l ++ List.replicate (256 - l.length) (l.getLast hl)) := by
  induction fuel with
  | zero =>
    intro l hl hf
    have : ¬ l.length < 256 := by omega
    have h0 : 256 - l.length = 0 := by omega
    rw [padLoop]
    simp [this, h0]
  | succ f ih =>
    intro l hl hf
    rw [padLoop]
    by_cases hlt : l.length < 256
    · simp only [hlt, if_true]
      rw [List.getLast?_eq_getLast l hl]
      simp only
      rw [ih (l ++ [l.getLast hl]) (by simp) (by simp; omega)]
      have e : 256 - l.length = (256 - (l.length + 1)) + 1 := by omega
      simp only [List.length_append, List.length_singleton, List.getLast_append_singleton]
      rw [e, List.replicate_succ]
      simp
    · have h0 : 256 - l.length = 0 := by omega
      simp [hlt, h0]
/-! ## The encode table -/

theorem sortSort_pairwise (rt : Runtime) (hrt : rt.Valid) (l : List Nat) :
    (rt.sortSort l).Pairwise (fun a b => a &&& 0xffffff ≤ b &&& 0xffffff) := by
  rw [List.pairwise_iff_getElem]
  intro i j hi hj hij
  have h := hrt.2.2 l i j hij hj
  unfold byRune.Less at h
  rw [List.getD_eq_getElem _ _ hi, List.getD_eq_getElem _ _ hj] at h
  simpa using h

theorem RecordsFirst.length_le {rm : List Nat} {m : BackMap} (h : RecordsFirst rm m) :
    m.length ≤ rm.length := by
  have hsub : m.map Prod.fst ⊆ rm := by
    intro c hc
    obtain ⟨⟨a, v⟩, hav, rfl⟩ := List.mem_map.1 hc
    exact ((h.2 a v).1 hav).2.1
  have := (h.1.subperm hsub).length_le
  simpa using this

theorem RecordsFirst.keys_perm {rm : List Nat} {m : BackMap} (h : RecordsFirst rm m) :
    (m.map Prod.fst).Perm (distinctChars rm) := by
  unfold distinctChars
  rw [List.perm_ext_iff_of_nodup h.1 (List.nodup_dedup _)]
  intro c
  rw [List.mem_dedup, List.mem_filter]
  constructor
  · intro hc
    obtain ⟨⟨a, v⟩, hav, rfl⟩ := List.mem_map.1 hc
    have := (h.2 a v).1 hav
    exact ⟨this.2.1, by simpa using this.1⟩
  · rintro ⟨h1, h2⟩
    exact List.mem_map.2 ⟨(c, rm.indexOf c % 256), (h.2 _ _).2 ⟨by simpa using h2, h1, rfl⟩, rfl⟩

theorem RecordsFirst.map_packKey {rm : List Nat} {m : BackMap} (h : RecordsFirst rm m)
    (hlen : rm.length ≤ 256) (h24 : ∀ c ∈ rm, c < 2 ^ 24) :
    m.map packKey = (m.map Prod.fst).map (fun c => 2 ^ 24 * rm.indexOf c + c) := by
  rw [List.map_map]
  apply List.map_congr_left
  rintro ⟨c, v⟩ hp
  obtain ⟨_, hc, hv⟩ := (h.2 c v).1 hp
  have hidx : rm.indexOf c < rm.length := List.indexOf_lt_length.2 hc
  have hv2 : v = rm.indexOf c := by rw [hv]; exact Nat.mod_eq_of_lt (by omega)
  subst hv2
  simp only [Function.comp]
  exact packKey_eq c _ (by omega) (h24 c hc)

theorem scalar_lt_of_length_le {c : Nat} (hs : IsScalar c) (h : (EncodeRune c).length ≤ 3) :
    c ≤ 0xFFFF := (EncodeRune_length_le_three_iff c hs).1 h

theorem buildCharmap_ok_spec (rt : Runtime) (hrt : rt.Valid) (name : String) (repl : Nat)
    (rm : List Nat) (hrm : RawMapping rm) (cm : Charmap)
    (h : buildCharmap rt name repl (runesToString rm) = .ok cm) :
    ∃ (l : List Nat) (hl : l ≠ []),
      l.Perm ((distinctChars rm).map
        (fun c => 2 ^ 24 * rm.indexOf c + c)) ∧
      l.Pairwise (fun a b => a &&& 0xffffff ≤ b &&& 0xffffff) ∧
      l.length ≤ 256 ∧
      (∀ c ∈ rm, c ≤ 0xFFFF) ∧
      cm = ⟨name, asciiSuperset (runesToString rm), low (runesToString rm), repl,
        rm.map decodeEntry, l ++ List.replicate (256 - l.length) (l.getLast hl)⟩ := by
  unfold buildCharmap at h
  rw [rangeString_runesToString rm hrm.2] at h
  cases hdl : decodeLoop rm 0 [] [] with
  | error e => rw [hdl] at h; simp at h
  | ok r =>
    obtain ⟨m, dec⟩ := r
    rw [hdl] at h
    simp only at h
    obtain ⟨hinv, hdec, h3⟩ := decodeLoop_ok rm [] [] [] m dec recordsFirst_nil hdl
    simp only [List.nil_append] at hinv hdec
    have hle : ∀ c ∈ rm, c ≤ 0xFFFF := fun c hc =>
      scalar_lt_of_length_le (hrm.2 c hc) (h3 c hc)
    have hperm : (rt.sortSort ((rt.rangeMap m).map packKey)).Perm
        ((distinctChars rm).map
          (fun c => 2 ^ 24 * rm.indexOf c + c)) := by
      refine (hrt.2.1 _).trans (((hrt.1 m).map packKey).trans ?_)
      rw [hinv.map_packKey (by rw [hrm.1]) (fun c hc => by have := hle c hc; omega)]
      exact hinv.keys_perm.map _
    have hlen : (rt.sortSort ((rt.rangeMap m).map packKey)).length ≤ 256 := by
      have h1 := (hrt.2.1 ((rt.rangeMap m).map packKey)).length_eq
      have h2 := (hrt.1 m).length_eq
      have h3 := hinv.length_le
      rw [hrm.1] at h3
      rw [h1, List.length_map, h2]
      exact h3
    by_cases hl : rt.sortSort ((rt.rangeMap m).map packKey) = []
    · rw [hl, padLoop_nil] at h
      simp at h
    · rw [padLoop_ok 256 _ hl (by omega)] at h
      simp only [Except.ok.injEq] at h
      subst hdec
      exact ⟨_, hl, hperm, sortSort_pairwise rt hrt _, hlen, hle, h.symm⟩

theorem buildCharmap_succeeds (rt : Runtime) (hrt : rt.Valid) (name : String) (repl : Nat)
    (rm : List Nat) (hsc : ∀ r ∈ rm, IsScalar r) (h3 : ∀ r ∈ rm, r ≤ 0xFFFF)
    (hne : ∃ r ∈ rm, r ≠ RuneError) :
    ∃ cm, buildCharmap rt name repl (runesToString rm) = .ok cm := by
  unfold buildCharmap
  rw [rangeString_runesToString rm hsc]
  obtain ⟨⟨m, dec⟩, hdl⟩ := decodeLoop_total rm
    (fun c hc => (EncodeRune_length_le_three_iff c (hsc c hc)).2 (h3 c hc)) 0 [] []
  rw [hdl]
  simp only
  obtain ⟨hinv, -, -⟩ := decodeLoop_ok rm [] [] [] m dec recordsFirst_nil hdl
  simp only [List.nil_append] at hinv
  obtain ⟨r, hr, hr2⟩ := hne
  have hmem : (r, rm.indexOf r % 256) ∈ m := (hinv.2 _ _).2 ⟨hr2, hr, rfl⟩
  have hl : rt.sortSort ((rt.rangeMap m).map packKey) ≠ [] := by
    intro hnil
    have h1 := (hrt.2.1 ((rt.rangeMap m).map packKey)).length_eq
    have h2 := (hrt.1 m).length_eq
    rw [hnil, List.length_map, h2] at h1
    have : m = [] := List.eq_nil_of_length_eq_zero h1.symm
    rw [this] at hmem
    simp at hmem
  rw [padLoop_ok 256 _ hl (by omega)]
  exact ⟨_, rfl⟩
/-! ## The concrete runtime honours the contracts -/

theorem insertKey_perm (x : Nat) (l : List Nat) : (insertKey x l).Perm (x :: l) := by
  induction l with
  | nil => simp [insertKey]
  | cons y ys ih =>
    unfold insertKey
    split_ifs
    · exact List.Perm.refl _
    · exact (List.Perm.cons y ih).trans (List.Perm.swap x y ys)

theorem insertKey_pairwise (x : Nat) (l : List Nat)
    (h : l.Pairwise (fun a b => a &&& 0xffffff ≤ b &&& 0xffffff)) :
    (insertKey x l).Pairwise (fun a b => a &&& 0xffffff ≤ b &&& 0xffffff) := by
  induction l with
  | nil => simp [insertKey]
  | cons y ys ih =>
    rw [List.pairwise_cons] at h
    unfold insertKey
    by_cases hlt : byRune.Less [x, y] 0 1 = true
    · rw [if_pos hlt]
      have hxy : x &&& 0xffffff < y &&& 0xffffff := by simpa [byRune.Less] using hlt
      refine List.pairwise_cons.2 ⟨?_, List.pairwise_cons.2 h⟩
      intro b hb
      rcases List.mem_cons.1 hb with rfl | hb
      · omega
      · have := h.1 b hb; omega
    · rw [if_neg hlt]
      have hxy : y &&& 0xffffff ≤ x &&& 0xffffff := by
        have : ¬ (x &&& 0xffffff < y &&& 0xffffff) := by simpa [byRune.Less] using hlt
        omega
      refine List.pairwise_cons.2 ⟨?_, ih h.2⟩
      intro b hb
      rcases List.mem_cons.1 ((insertKey_perm x ys).subset hb) with rfl | hb
      · exact hxy
      · exact h.1 b hb

theorem simpleRuntime_valid : simpleRuntime.Valid := by
  have hperm : ∀ l : List Nat, (l.foldr insertKey []).Perm l := by
    intro l
    induction l with
    | nil => exact List.Perm.refl _
    | cons x xs ih => exact (insertKey_perm x _).trans (List.Perm.cons x ih)
  have hsorted : ∀ l : List Nat,
      (l.foldr insertKey []).Pairwise (fun a b => a &&& 0xffffff ≤ b &&& 0xffffff) := by
    intro l
    induction l with
    | nil => exact List.Pairwise.nil
    | cons x xs ih => exact insertKey_pairwise x _ ih
  refine ⟨fun m => List.Perm.refl _, hperm, ?_⟩
  intro l i j hij hj
  have h := List.pairwise_iff_getElem.1 (hsorted l) i j (by
    show i < (simpleRuntime.sortSort l).length
    omega) hj hij
  show byRune.Less (l.foldr insertKey []) j i = false
  unfold byRune.Less
  have hj2 : j < (l.foldr insertKey []).length := hj
  rw [List.getD_eq_getElem _ _ hj2, List.getD_eq_getElem _ _ (by omega : i < _)]
  simp only [decide_eq_false_iff_not, not_lt]
  exact h
/-! ## Entries of the built tables -/

theorem indexOf_le_of_getElem? (l : List Nat) (c : Nat) :
    ∀ b, l[b]? = some c → l.indexOf c ≤ b := by
  induction l with
  | nil => intro b h; simp at h
  | cons x xs ih =>
    intro b h
    by_cases hx : x = c
    · subst hx; simp
    · cases b with
      | zero => simp at h; exact absurd h hx
      | succ b =>
        rw [List.indexOf_cons_ne _ hx]
        simp only [List.getElem?_cons_succ] at h
        exact Nat.succ_le_succ (ih b h)

theorem getElem?_indexOf (l : List Nat) (c : Nat) (h : c ∈ l) :
    l[l.indexOf c]? = some c := by
  have hlt : l.indexOf c < l.length := List.indexOf_lt_length.2 h
  rw [List.getElem?_eq_getElem hlt, List.getElem_indexOf hlt]

theorem mem_distinctChars (rm : List Nat) (c : Nat) :
    c ∈ distinctChars rm ↔ c ∈ rm ∧ c ≠ RuneError := by
  simp [distinctChars, List.mem_dedup, List.mem_filter]

theorem mem_encode_iff (rt : Runtime) (hrt : rt.Valid) (name : String) (repl : Nat)
    (rm : List Nat) (hrm : RawMapping rm) (cm : Charmap)
    (h : buildCharmap rt name repl (runesToString rm) = .ok cm) (e : Nat) :
    e ∈ cm.encode ↔ ∃ c, c ∈ rm ∧ c ≠ RuneError ∧ e = 2 ^ 24 * rm.indexOf c + c := by
  obtain ⟨l, hl, hperm, -, -, -, rfl⟩ := buildCharmap_ok_spec rt hrt name repl rm hrm cm h
  have hmem : e ∈ l ++ List.replicate (256 - l.length) (l.getLast hl) ↔ e ∈ l := by
    rw [List.mem_append, List.mem_replicate]
    constructor
    · rintro (h1 | ⟨-, rfl⟩)
      · exact h1
      · exact List.getLast_mem hl
    · exact Or.inl
  show e ∈ l ++ List.replicate (256 - l.length) (l.getLast hl) ↔ _
  rw [hmem, hperm.mem_iff, List.mem_map]
  constructor
  · rintro ⟨c, hc, rfl⟩
    exact ⟨c, ((mem_distinctChars rm c).1 hc).1, ((mem_distinctChars rm c).1 hc).2, rfl⟩
  · rintro ⟨c, h1, h2, rfl⟩
    exact ⟨c, (mem_distinctChars rm c).2 ⟨h1, h2⟩, rfl⟩

theorem chars_le_of_ok (rt : Runtime) (hrt : rt.Valid) (name : String) (repl : Nat)
    (rm : List Nat) (hrm : RawMapping rm) (cm : Charmap)
    (h : buildCharmap rt name repl (runesToString rm) = .ok cm) : ∀ c ∈ rm, c ≤ 0xFFFF := by
  obtain ⟨l, hl, -, -, -, hle, -⟩ := buildCharmap_ok_spec rt hrt name repl rm hrm cm h
  exact hle

theorem decode_of_ok (rt : Runtime) (hrt : rt.Valid) (name : String) (repl : Nat)
    (rm : List Nat) (hrm : RawMapping rm) (cm : Charmap)
    (h : buildCharmap rt name repl (runesToString rm) = .ok cm) :
    cm.decode = rm.map decodeEntry := by
  obtain ⟨l, hl, -, -, -, -, rfl⟩ := buildCharmap_ok_spec rt hrt name repl rm hrm cm h
  rfl

theorem decodeEntry_spec (c : Nat) (hs : IsScalar c) (hc : c ≤ 0xFFFF) :
    (decodeEntry c).n = (EncodeRune c).length ∧
    (decodeEntry c).n = (if c < 0x80 then 1 else if c < 0x800 then 2 else 3) ∧
    (decodeEntry c).bytes.take (decodeEntry c).n = EncodeRune c ∧
    (decodeEntry c).bytes.drop (decodeEntry c).n = List.replicate (3 - (decodeEntry c).n) 0 := by
  unfold IsScalar at hs
  unfold decodeEntry utf8Enc.bytes EncodeRune
  split_ifs <;> first | omega | simp

/-! ## Properties of the tables -/

/-- C1. Round trip: when construction succeeds on a RawMapping and the byte
`b` is mapped to a character `c` other than the sentinel, the first `n` bytes
of `DecodeTable[b]` decode to `c`, and the EncodeTable has an entry whose low
24 bits are `c` and whose high 8 bits are a byte `b'` with
`RawMapping[b'] = c`; `b' = b` if no other byte is mapped to `c`. -/
theorem roundtrip_decode_encode (rt : Runtime) (hrt : rt.Valid) (name : String)
    (replacement : Nat) (rm : List Nat) (hrm : RawMapping rm) (cm : Charmap)
    (h : buildCharmap rt name replacement (runesToString rm) = .ok cm)
    (b c : Nat) (hc : rm[b]? = some c) (hne : c ≠ RuneError) :
    (∃ d, cm.decode[b]? = some d ∧ DecodeRuneInString (d.bytes.take d.n) = (c, d.n)) ∧
    ∃ e ∈ cm.encode, e &&& 0xffffff = c ∧ e >>> 24 < 256 ∧ rm[e >>> 24]? = some c ∧
      ((∀ b', rm[b']? = some c → b' = b) → e >>> 24 = b) := by
  have hmem : c ∈ rm := List.getElem?_mem hc
  have hle := chars_le_of_ok rt hrt name replacement rm hrm cm h c hmem
  have hs := hrm.2 c hmem
  have hidx : rm.indexOf c < 256 := by
    have := List.indexOf_lt_length.2 hmem
    rw [hrm.1] at this; exact this
  constructor
  · refine ⟨decodeEntry c, ?_, ?_⟩
    · rw [decode_of_ok rt hrt name replacement rm hrm cm h, List.getElem?_map, hc]
      rfl
    · obtain ⟨h1, -, h3, -⟩ := decodeEntry_spec c hs hle
      rw [h3, h1]
      have := DecodeRuneInString_EncodeRune c hs []
      simpa using this
  · refine ⟨2 ^ 24 * rm.indexOf c + c, ?_, ?_, ?_, ?_, ?_⟩
    · exact (mem_encode_iff rt hrt name replacement rm hrm cm h _).2 ⟨c, hmem, hne, rfl⟩
    · exact key_and_mask c _ (by omega)
    · rw [key_shiftRight c _ (by omega)]; exact hidx
    · rw [key_shiftRight c _ (by omega)]; exact getElem?_indexOf rm c hmem
    · intro huniq
      rw [key_shiftRight c _ (by omega)]
      exact huniq _ (getElem?_indexOf rm c hmem)

/-- C2. Lowest byte wins: when construction succeeds, every EncodeTable entry
whose low 24 bits are a character `c` of the RawMapping other than the
sentinel has as its high 8 bits the smallest byte `b` with
`RawMapping[b] = c`, and is the key packed from `c` and that byte. -/
theorem lowest_byte_wins (rt : Runtime) (hrt : rt.Valid) (name : String)
    (replacement : Nat) (rm : List Nat) (hrm : RawMapping rm) (cm : Charmap)
    (h : buildCharmap rt name replacement (runesToString rm) = .ok cm)
    (c : Nat) (hc : c ∈ rm) (hne : c ≠ RuneError)
    (e : Nat) (he : e ∈ cm.encode) (hec : e &&& 0xffffff = c) :
    rm[e >>> 24]? = some c ∧ (∀ b, rm[b]? = some c → e >>> 24 ≤ b) ∧
      e = packKey (c, e >>> 24) := by
  obtain ⟨c', hc', -, rfl⟩ := (mem_encode_iff rt hrt name replacement rm hrm cm h e).1 he
  have hle := chars_le_of_ok rt hrt name replacement rm hrm cm h c' hc'
  have hidx : rm.indexOf c' < 256 := by
    have := List.indexOf_lt_length.2 hc'
    rw [hrm.1] at this; exact this
  rw [key_and_mask c' _ (by omega)] at hec
  subst hec
  rw [key_shiftRight c' _ (by omega)]
  exact ⟨getElem?_indexOf rm c' hc', indexOf_le_of_getElem? rm c',
    (packKey_eq c' _ hidx (by omega)).symm⟩

theorem pairwise_append_replicate_getLast (l : List Nat) (hl : l ≠ []) (n : Nat)
    (h : l.Pairwise (fun a b => a &&& 0xffffff ≤ b &&& 0xffffff)) :
    (l ++ List.replicate n (l.getLast hl)).Pairwise
      (fun a b => a &&& 0xffffff ≤ b &&& 0xffffff) := by
  rw [List.pairwise_append]
  refine ⟨h, by simp [List.pairwise_replicate], ?_⟩
  intro a ha b hb
  obtain ⟨-, rfl⟩ := List.mem_replicate.1 hb
  obtain ⟨init, hinit⟩ : ∃ init, l = init ++ [l.getLast hl] :=
    ⟨l.dropLast, (List.dropLast_append_getLast hl).symm⟩
  rw [hinit] at ha h
  rcases List.mem_append.1 ha with ha | ha
  · exact (List.pairwise_append.1 h).2.2 a ha _ (by simp)
  · simp only [List.mem_singleton] at ha
    rw [ha]

/-- C3. Sortedness: when construction succeeds, the EncodeTable has 256
entries and, padding included, is non-decreasing in the low 24 bits of its
entries. -/
theorem encode_sorted (rt : Runtime) (hrt : rt.Valid) (name : String)
    (replacement : Nat) (rm : List Nat) (hrm : RawMapping rm) (cm : Charmap)
    (h : buildCharmap rt name replacement (runesToString rm) = .ok cm) :
    cm.encode.length = 256 ∧
      cm.encode.Pairwise (fun a b => a &&& 0xffffff ≤ b &&& 0xffffff) := by
  obtain ⟨l, hl, -, hsorted, hlen, -, rfl⟩ :=
    buildCharmap_ok_spec rt hrt name replacement rm hrm cm h
  refine ⟨?_, pairwise_append_replicate_getLast l hl _ hsorted⟩
  show (l ++ List.replicate (256 - l.length) (l.getLast hl)).length = 256
  rw [List.length_append, List.length_replicate]
  omega

/-- C5. Decode table: when construction succeeds, the DecodeTable has 256
entries and `DecodeTable[b] = (n, [b0, b1, b2])` where `n`, one of 1, 2, 3, is
the UTF-8 length of `RawMapping[b]`, the first `n` bytes are its UTF-8
encoding and the other `3 - n` bytes are zero; U+20AC gets `(3, E2 82 AC)` and
the sentinel gets `(3, EF BF BD)`. -/
theorem decode_table_correct (rt : Runtime) (hrt : rt.Valid) (name : String)
    (replacement : Nat) (rm : List Nat) (hrm : RawMapping rm) (cm : Charmap)
    (h : buildCharmap rt name replacement (runesToString rm) = .ok cm)
    (b : Nat) (hb : b < 256) :
    cm.decode.length = 256 ∧
    ∃ c d, rm[b]? = some c ∧ cm.decode[b]? = some d ∧
      d.n = (EncodeRune c).length ∧
      d.n = (if c < 0x80 then 1 else if c < 0x800 then 2 else 3) ∧
      d.bytes.take d.n = EncodeRune c ∧
      d.bytes.drop d.n = List.replicate (3 - d.n) 0 ∧
      (c = 0x20AC → d = ⟨3, 0xE2, 0x82, 0xAC⟩) ∧
      (c = RuneError → d = ⟨3, 0xEF, 0xBF, 0xBD⟩) := by
  have hdec := decode_of_ok rt hrt name replacement rm hrm cm h
  have hlt : b < rm.length := by rw [hrm.1]; exact hb
  have hc : rm[b]? = some rm[b] := List.getElem?_eq_getElem hlt
  have hmem : rm[b] ∈ rm := List.getElem_mem hlt
  have hle := chars_le_of_ok rt hrt name replacement rm hrm cm h _ hmem
  obtain ⟨h1, h2, h3, h4⟩ := decodeEntry_spec _ (hrm.2 _ hmem) hle
  refine ⟨by rw [hdec, List.length_map, hrm.1], rm[b], decodeEntry rm[b], hc, ?_,
    h1, h2, h3, h4, ?_, ?_⟩
  · rw [hdec, List.getElem?_map, hc]; rfl
  · intro hc2; rw [hc2]; decide
  · intro hc2; rw [hc2]; decide

/-- C7. Key packing: when construction succeeds, every EncodeTable entry `e`
packs a byte `b < 256` and a character `c < 2 ^ 24` with `e >> 24 = b`,
`e & 0xffffff = c`, `RawMapping[b] = c` and `c` not the sentinel; and the
characters that occur in the table are exactly the characters of the
RawMapping other than the sentinel. -/
theorem key_packing_faithful (rt : Runtime) (hrt : rt.Valid) (name : String)
    (replacement : Nat) (rm : List Nat) (hrm : RawMapping rm) (cm : Charmap)
    (h : buildCharmap rt name replacement (runesToString rm) = .ok cm) :
    (∀ e ∈ cm.encode, rm[e >>> 24]? = some (e &&& 0xffffff) ∧ e &&& 0xffffff ≠ RuneError ∧
      e >>> 24 < 256 ∧ e &&& 0xffffff < 2 ^ 24 ∧ e < 2 ^ 32 ∧
      e = packKey (e &&& 0xffffff, e >>> 24)) ∧
    (∀ c, (∃ e ∈ cm.encode, e &&& 0xffffff = c) ↔ (c ∈ rm ∧ c ≠ RuneError)) := by
  have hkey : ∀ c ∈ rm, c < 2 ^ 24 ∧ rm.indexOf c < 256 := by
    intro c hc
    have hle := chars_le_of_ok rt hrt name replacement rm hrm cm h c hc
    have := List.indexOf_lt_length.2 hc
    rw [hrm.1] at this
    exact ⟨by omega, this⟩
  constructor
  · intro e he
    obtain ⟨c, hc, hne, rfl⟩ := (mem_encode_iff rt hrt name replacement rm hrm cm h e).1 he
    obtain ⟨h24, hidx⟩ := hkey c hc
    rw [key_and_mask c _ h24, key_shiftRight c _ h24]
    exact ⟨getElem?_indexOf rm c hc, hne, hidx, h24, by omega, (packKey_eq c _ hidx h24).symm⟩
  · intro c
    constructor
    · rintro ⟨e, he, rfl⟩
      obtain ⟨c, hc, hne, rfl⟩ := (mem_encode_iff rt hrt name replacement rm hrm cm h e).1 he
      rw [key_and_mask c _ (hkey c hc).1]
      exact ⟨hc, hne⟩
    · rintro ⟨hc, hne⟩
      exact ⟨2 ^ 24 * rm.indexOf c + c,
        (mem_encode_iff rt hrt name replacement rm hrm cm h _).2 ⟨c, hc, hne, rfl⟩,
        key_and_mask c _ (hkey c hc).1⟩

theorem exists_first_tooLong (rm : List Nat) (h : ∃ c ∈ rm, 3 < (EncodeRune c).length) :
    ∃ pre c post, rm = pre ++ c :: post ∧ 3 < (EncodeRune c).length ∧
      ∀ x ∈ pre, (EncodeRune x).length ≤ 3 := by
  induction rm with
  | nil => obtain ⟨c, hc, -⟩ := h; simp at hc
  | cons x xs ih =>
    by_cases hx : 3 < (EncodeRune x).length
    · exact ⟨[], x, xs, rfl, hx, by simp⟩
    · obtain ⟨c, hc, hc3⟩ := h
      have hcx : c ∈ xs := by
        rcases List.mem_cons.1 hc with rfl | hc
        · exact absurd hc3 hx
        · exact hc
      obtain ⟨pre, c', post, rfl, h1, h2⟩ := ih ⟨c, hcx, hc3⟩
      refine ⟨x :: pre, c', post, rfl, h1, ?_⟩
      intro y hy
      rcases List.mem_cons.1 hy with rfl | hy
      · omega
      · exact h2 y hy

theorem buildCharmap_error_of_big (rt : Runtime) (name : String) (replacement : Nat)
    (rm : List Nat) (hrm : RawMapping rm) (hbig : ∃ c ∈ rm, 0x10000 ≤ c) :
    ∃ b c, rm[b]? = some c ∧ 0x10000 ≤ c ∧
      (∀ b' c', b' < b → rm[b']? = some c' → c' < 0x10000) ∧
      buildCharmap rt name replacement (runesToString rm) = .error (.runeTooLong b c) := by
  have hbig' : ∃ c ∈ rm, 3 < (EncodeRune c).length := by
    obtain ⟨c, hc, hc2⟩ := hbig
    refine ⟨c, hc, ?_⟩
    have := EncodeRune_length_le_three_iff c (hrm.2 c hc)
    omega
  obtain ⟨pre, c, post, hsplit, hc3, hpre⟩ := exists_first_tooLong rm hbig'
  have hcmem : c ∈ rm := by rw [hsplit]; simp
  refine ⟨pre.length, c, ?_, ?_, ?_, ?_⟩
  · rw [hsplit, List.getElem?_append_right (Nat.le_refl _)]; simp
  · have := EncodeRune_length_le_three_iff c (hrm.2 c hcmem)
    omega
  · intro b' c' hb' hc'
    rw [hsplit, List.getElem?_append_left hb'] at hc'
    have hmem' : c' ∈ pre := List.getElem?_mem hc'
    have hs : IsScalar c' := hrm.2 c' (by rw [hsplit]; exact List.mem_append_left _ hmem')
    have := (EncodeRune_length_le_three_iff c' hs).1 (hpre c' hmem')
    omega
  · unfold buildCharmap
    rw [rangeString_runesToString rm hrm.2, hsplit, decodeLoop_error pre hpre c hc3 post]
    simp

/-- C8. Range error: on a RawMapping that holds a character in
U+10000..U+10FFFF, construction stops with the character-too-long error and
yields no Charmap; the error is raised at the lowest byte `b` whose
character `c` is such a character. -/
theorem range_error (rt : Runtime) (name : String) (replacement : Nat)
    (rm : List Nat) (hrm : RawMapping rm) (hbig : ∃ c ∈ rm, 0x10000 ≤ c) :
    ∃ b c, rm[b]? = some c ∧ 0x10000 ≤ c ∧
      (∀ b' c', b' < b → rm[b']? = some c' → c' < 0x10000) ∧
      buildCharmap rt name replacement (runesToString rm) = .error (.runeTooLong b c) :=
  buildCharmap_error_of_big rt name replacement rm hrm hbig
/-! ## ASCII supersets -/

theorem ascii_eq : ascii = List.range' 0 128 := by decide

theorem hasPrefixBytes_iff (s pre : List Nat) : hasPrefixBytes s pre = true ↔ pre <+: s := by
  unfold hasPrefixBytes
  rw [List.prefix_iff_eq_take]
  simp only [Bool.and_eq_true, decide_eq_true_eq, beq_iff_eq]
  constructor
  · rintro ⟨-, h⟩; exact h.symm
  · intro h
    refine ⟨?_, h.symm⟩
    have := congrArg List.length h
    rw [List.length_take] at this
    omega

theorem EncodeRune_head (r : Nat) :
    (r ≤ 0x7F ∧ EncodeRune r = [r]) ∨
      (0x7F < r ∧ ∃ b t, EncodeRune r = b :: t ∧ 0xC0 ≤ b) := by
  unfold EncodeRune
  split_ifs with h1 h2 h3 h4
  · exact Or.inl ⟨h1, rfl⟩
  · exact Or.inr ⟨by omega, _, _, rfl, by omega⟩
  · exact Or.inr ⟨by omega, _, _, rfl, by omega⟩
  · exact Or.inr ⟨by omega, _, _, rfl, by omega⟩
  · exact Or.inr ⟨by omega, _, _, rfl, by omega⟩

theorem range'_prefix_runesToString (n : Nat) :
    ∀ (k : Nat) (rm : List Nat), k + n ≤ 128 →
      (List.range' k n <+: runesToString rm ↔ ∀ j < n, rm[j]? = some (k + j)) := by
  induction n with
  | zero => intro k rm _; simp
  | succ n ih =>
    intro k rm hk
    rw [List.range'_succ]
    cases rm with
    | nil =>
      simp only [runesToString, List.flatMap_nil, List.prefix_nil, List.cons_ne_nil, false_iff]
      intro h
      have := h 0 (by omega)
      simp at this
    | cons r rs =>
      have hs : runesToString (r :: rs) = EncodeRune r ++ runesToString rs := by
        simp [runesToString]
      rw [hs]
      rcases EncodeRune_head r with ⟨hr, he⟩ | ⟨hr, b, t, he, hb⟩
      · rw [he, List.singleton_append, List.cons_prefix_cons, ih (k + 1) rs (by omega)]
        constructor
        · rintro ⟨rfl, h2⟩ j hj
          cases j with
          | zero => simp
          | succ j =>
            have := h2 j (by omega)
            simp only [List.getElem?_cons_succ]
            rw [this]; congr 1; omega
        · intro h
          refine ⟨?_, ?_⟩
          · have := h 0 (by omega)
            simp at this
            omega
          · intro j hj
            have := h (j + 1) (by omega)
            simp only [List.getElem?_cons_succ] at this
            rw [this]; congr 1; omega
      · rw [he, List.cons_append, List.cons_prefix_cons]
        constructor
        · rintro ⟨rfl, -⟩; omega
        · intro h
          have := h 0 (by omega)
          simp at this
          omega

/-- C4. ASCII-superset detection: for every RawMapping (of any length),
`asciiSuperset` is true if and only if `RawMapping[i]` is the character with
code point `i` for every `i` in 0..127; `low` is `0x80` when it is true and
`0x00` otherwise, and a constructed Charmap carries these two values. -/
theorem asciiSuperset_iff (rm : List Nat) :
    (asciiSuperset (runesToString rm) = true ↔ ∀ i < 128, rm[i]? = some i) ∧
    (asciiSuperset (runesToString rm) = true → low (runesToString rm) = 0x80) ∧
    (asciiSuperset (runesToString rm) = false → low (runesToString rm) = 0x00) ∧
    ∀ (rt : Runtime) (name : String) (replacement : Nat) (cm : Charmap),
      buildCharmap rt name replacement (runesToString rm) = .ok cm →
        cm.asciiSuperset = asciiSuperset (runesToString rm) ∧
        cm.low = low (runesToString rm) := by
  refine ⟨?_, ?_, ?_, ?_⟩
  · unfold asciiSuperset
    have hp := range'_prefix_runesToString 128 0 rm (Nat.le_of_eq (Nat.zero_add 128))
    rw [hasPrefixBytes_iff, ascii_eq, hp]
    constructor
    · intro h i hi; rw [h i hi]; congr 1; omega
    · intro h i hi; rw [h i hi]; congr 1; omega
  · intro h; simp [low, h]
  · intro h; simp [low, h]
  · intro rt name replacement cm h
    unfold buildCharmap at h
    cases hdl : decodeLoop (rangeString (runesToString rm)) 0 [] [] with
    | error e => rw [hdl] at h; simp at h
    | ok r =>
      obtain ⟨m, dec⟩ := r
      rw [hdl] at h
      simp only at h
      cases hp : padLoop 256 (rt.sortSort ((rt.rangeMap m).map packKey)) with
      | error e => rw [hp] at h; simp at h
      | ok enc =>
        rw [hp] at h
        simp only [Except.ok.injEq] at h
        rw [← h]
        simp only [and_self]
/-! ## Padding and the empty reverse map -/

theorem isScalar_RuneError : IsScalar RuneError := by decide

theorem unmappedMapping_raw : RawMapping unmappedMapping := by
  refine ⟨List.length_replicate _ _, ?_⟩
  intro r hr
  rw [unmappedMapping, List.mem_replicate] at hr
  rw [hr.2]; exact isScalar_RuneError

theorem distinctChars_unmapped : distinctChars unmappedMapping = [] := by
  have hf : unmappedMapping.filter (fun c => c != RuneError) = [] := by
    rw [List.filter_eq_nil_iff]
    intro a ha
    rw [unmappedMapping, List.mem_replicate] at ha
    simp [ha.2]
  rw [distinctChars, hf]
  rfl

theorem buildCharmap_unmapped (rt : Runtime) (hrt : rt.Valid) (name : String) (repl : Nat) :
    buildCharmap rt name repl (runesToString unmappedMapping) = .error .indexOutOfRange := by
  have hsc := unmappedMapping_raw.2
  have h3 : ∀ c ∈ unmappedMapping, (EncodeRune c).length ≤ 3 := by
    intro c hc
    rw [unmappedMapping, List.mem_replicate] at hc
    rw [hc.2]; decide
  unfold buildCharmap
  rw [rangeString_runesToString _ hsc]
  obtain ⟨⟨m, dec⟩, hdl⟩ := decodeLoop_total unmappedMapping h3 0 [] []
  rw [hdl]
  simp only
  obtain ⟨hinv, -, -⟩ := decodeLoop_ok unmappedMapping [] [] [] m dec recordsFirst_nil hdl
  simp only [List.nil_append] at hinv
  have hm : m = [] := by
    cases m with
    | nil => rfl
    | cons p ps =>
      obtain ⟨c, v⟩ := p
      have := (hinv.2 c v).1 (List.mem_cons_self _ _)
      obtain ⟨h1, h2, -⟩ := this
      rw [unmappedMapping, List.mem_replicate] at h2
      exact absurd h2.2 h1
  subst hm
  have h1 : rt.rangeMap [] = [] := List.Perm.eq_nil (hrt.1 [])
  have h2 : rt.sortSort [] = [] := List.Perm.eq_nil (hrt.2.1 [])
  rw [h1, List.map_nil, h2, padLoop_nil]

theorem getElem?_append_replicate_getLast (l : List Nat) (hl : l ≠ []) (n j : Nat)
    (hj : l.length - 1 ≤ j) (hjn : j < l.length + n) :
    (l ++ List.replicate n (l.getLast hl))[j]? = some (l.getLast hl) := by
  have hpos : 0 < l.length := List.length_pos.2 hl
  by_cases hlt : j < l.length
  · have hj' : j = l.length - 1 := by omega
    rw [List.getElem?_append_left hlt, List.getLast_eq_getElem, List.getElem?_eq_getElem hlt]
    congr 1
    subst hj'
    rfl
  · rw [List.getElem?_append_right (by omega), List.getElem?_replicate]
    simp
    omega

theorem buildCharmap_padding (rt : Runtime) (hrt : rt.Valid) (name : String) (repl : Nat)
    (rm : List Nat) (hrm : RawMapping rm) (cm : Charmap)
    (h : buildCharmap rt name repl (runesToString rm) = .ok cm) :
    0 < (distinctChars rm).length ∧ (distinctChars rm).length ≤ 256 ∧
    cm.encode.length = 256 ∧
    (cm.encode.take (distinctChars rm).length).Perm
      ((distinctChars rm).map (fun c => packKey (c, rm.indexOf c))) ∧
    (cm.encode.take (distinctChars rm).length).Pairwise
      (fun a b => a &&& 0xffffff ≤ b &&& 0xffffff) ∧
    ∀ j, (distinctChars rm).length ≤ j → j < 256 →
      cm.encode[j]? = cm.encode[(distinctChars rm).length - 1]? := by
  obtain ⟨l, hl, hperm, hsorted, hlen, hle, rfl⟩ :=
    buildCharmap_ok_spec rt hrt name repl rm hrm cm h
  have hk : l.length = (distinctChars rm).length := by
    have := hperm.length_eq
    rw [List.length_map] at this
    exact this
  have hpos : 0 < l.length := List.length_pos.2 hl
  have hmap : (distinctChars rm).map (fun c => 2 ^ 24 * rm.indexOf c + c) =
      (distinctChars rm).map (fun c => packKey (c, rm.indexOf c)) := by
    apply List.map_congr_left
    intro c hc
    have hc' := ((mem_distinctChars rm c).1 hc).1
    have hidx := List.indexOf_lt_length.2 hc'
    rw [hrm.1] at hidx
    have := hle c hc'
    exact (packKey_eq c _ hidx (by omega)).symm
  show _ ∧ _ ∧ (l ++ List.replicate (256 - l.length) (l.getLast hl)).length = 256 ∧
    ((l ++ List.replicate (256 - l.length) (l.getLast hl)).take _).Perm _ ∧
    ((l ++ List.replicate (256 - l.length) (l.getLast hl)).take _).Pairwise _ ∧
    ∀ j, _ → _ → (l ++ List.replicate (256 - l.length) (l.getLast hl))[j]? =
      (l ++ List.replicate (256 - l.length) (l.getLast hl))[_]?
  rw [← hk, List.take_left' rfl, ← hmap]
  refine ⟨hpos, hlen, ?_, hperm, hsorted, ?_⟩
  · rw [List.length_append, List.length_replicate]; omega
  · intro j hj hj256
    rw [getElem?_append_replicate_getLast l hl _ j (by omega) (by omega),
      getElem?_append_replicate_getLast l hl _ (l.length - 1) (Nat.le_refl _) (by omega)]
/-! ## Facts about the sample inputs -/

set_option maxRecDepth 100000 in
theorem euroMapping_raw : RawMapping euroMapping := by
  unfold RawMapping; decide

set_option maxRecDepth 100000 in
theorem euroMapping_le : ∀ r ∈ euroMapping, r ≤ 0xFFFF := by decide

set_option maxRecDepth 100000 in
theorem duplicateMapping_raw : RawMapping duplicateMapping := by
  unfold RawMapping; decide

set_option maxRecDepth 100000 in
theorem duplicateMapping_le : ∀ r ∈ duplicateMapping, r ≤ 0xFFFF := by decide

set_option maxRecDepth 100000 in
theorem emojiMapping_raw : RawMapping emojiMapping := by
  unfold RawMapping; decide

set_option maxRecDepth 100000 in
theorem distinctChars_euro_length : (distinctChars euroMapping).length = 129 := by decide

/-! ## The parser loop -/

theorem scanLoop_eq (lines : List (List Nat)) :
    ∀ (mapping : List Nat) (charsFound : Nat),
      scanLoop lines mapping charsFound =
        ((lines.filterMap lineEntry).foldl (fun m p => m.set p.2 p.1) mapping,
          charsFound + (lines.filterMap lineEntry).length) := by
  induction lines with
  | nil => intro mapping charsFound; simp [scanLoop]
  | cons line rest ih =>
    intro mapping charsFound
    rw [scanLoop]
    cases hl : lineEntry line with
    | none => simp only [List.filterMap_cons, hl]; exact ih _ _
    | some p =>
      obtain ⟨r, c⟩ := p
      simp only [List.filterMap_cons, hl, List.foldl_cons, List.length_cons]
      rw [ih]
      congr 1
      omega

theorem foldl_set_length (ps : List (Nat × Nat)) :
    ∀ mapping : List Nat,
      (ps.foldl (fun m p => m.set p.2 p.1) mapping).length = mapping.length := by
  induction ps with
  | nil => intro mapping; rfl
  | cons p ps ih => intro mapping; rw [List.foldl_cons, ih, List.length_set]

theorem foldl_set_replicate (n r c : Nat) :
    ∀ mapping : List Nat,
      ((List.replicate (n + 1) (r, c)).foldl (fun m p => m.set p.2 p.1) mapping) =
        mapping.set c r := by
  induction n with
  | zero => intro mapping; rfl
  | succ n ih =>
    intro mapping
    rw [List.replicate_succ, List.foldl_cons, ih]
    simp

theorem parseLines_eq (lines : List (List Nat)) :
    parseLines lines =
      if (lines.filterMap lineEntry).length < 128 then
        .error (.onlyFewCharacters (lines.filterMap lineEntry).length)
      else .ok (runesToString ((lines.filterMap lineEntry).foldl
        (fun m p => m.set p.2 p.1) (List.replicate 256 RuneError))) := by
  unfold parseLines
  simp only [scanLoop_eq, Nat.zero_add]

set_option maxRecDepth 100000 in
theorem lineEntry_repeated : lineEntry (bytesOf "<U0041> \\x41 |0") = some (0x41, 0x41) := by
  decide

set_option maxRecDepth 100000 in
theorem lineEntry_sentinel : lineEntry (bytesOf "<UFFFD> \\x00 |0") = some (0xFFFD, 0x00) := by
  decide

theorem parseLines_replicate (line : List Nat) (r c : Nat) (h : lineEntry line = some (r, c)) :
    parseLines (List.replicate 128 line) =
      .ok (runesToString ((List.replicate 256 RuneError).set c r)) := by
  rw [parseLines_eq, List.filterMap_replicate_of_some h]
  have hlen : ¬ (List.replicate 128 (r, c)).length < 128 := by
    rw [List.length_replicate]; omega
  rw [if_neg hlen, foldl_set_replicate 127 r c]

theorem parseLines_sentinelLines : parseLines sentinelLines = .ok (runesToString unmappedMapping) := by
  rw [sentinelLines, parseLines_replicate _ _ _ lineEntry_sentinel]
  have : (List.replicate 256 RuneError).set 0 0xFFFD = unmappedMapping := by
    apply List.ext_getElem?
    intro i
    rw [List.getElem?_set]
    split_ifs with h1 h2
    · subst h1
      rw [unmappedMapping, List.getElem?_replicate]
      simp [RuneError]
    · subst h1
      rw [List.length_replicate] at h2
      omega
    · rfl
  rw [this]
theorem le_of_no_tooLong (rt : Runtime) (name : String) (repl : Nat) (rm : List Nat)
    (hrm : RawMapping rm)
    (hno : ∀ i c, buildCharmap rt name repl (runesToString rm) ≠ .error (.runeTooLong i c)) :
    ∀ c ∈ rm, c ≤ 0xFFFF := by
  intro c hc
  by_contra hbig
  obtain ⟨b, c', -, -, -, herr⟩ :=
    buildCharmap_error_of_big rt name repl rm hrm ⟨c, hc, by omega⟩
  exact hno b c' herr

theorem ne_tooLong_of_ok {r : Except BuildError Charmap} (h : ∃ cm, r = .ok cm) :
    ∀ i c, r ≠ .error (.runeTooLong i c) := by
  obtain ⟨cm, rfl⟩ := h
  intro i c hc
  exact Except.noConfusion hc

/-! ## The scanner -/

theorem getUCM_eq_parseLines (eofWithData : Bool) (text : List Nat) :
    getUCM eofWithData text = parseLines (scanTokens eofWithData text) := rfl

theorem scanFrom_of_short (eofWithData : Bool) (text : List Nat) :
    ∀ cur : List Nat, (∀ l ∈ splitFrom text cur, l.length < MaxScanTokenSize) →
      scanFrom eofWithData text cur = (splitFrom text cur).map dropCR := by
  induction text with
  | nil =>
    intro cur h
    rw [scanFrom, splitFrom]
    by_cases hc : cur = []
    · rw [if_pos hc, if_pos hc]; rfl
    · rw [if_neg hc, if_neg hc]
      rw [splitFrom, if_neg hc] at h
      rw [if_pos (Or.inl (h cur (List.mem_singleton.2 rfl)))]
      rfl
  | cons b rest ih =>
    intro cur h
    rw [scanFrom, splitFrom]
    rw [splitFrom] at h
    by_cases hb : b = 0x0A
    · rw [if_pos hb, if_pos hb]
      rw [if_pos hb] at h
      rw [if_pos (h cur (List.mem_cons_self _ _)), List.map_cons,
        ih [] (fun l hl => h l (List.mem_cons_of_mem _ hl))]
    · rw [if_neg hb, if_neg hb]
      rw [if_neg hb] at h
      exact ih _ h

theorem scanTokens_of_short (eofWithData : Bool) (text : List Nat)
    (h : ∀ l ∈ splitLines text, l.length < MaxScanTokenSize) :
    scanTokens eofWithData text = textLines text :=
  scanFrom_of_short eofWithData text [] h

theorem scanFrom_initial (eofWithData : Bool) (text : List Nat) :
    ∀ cur : List Nat,
      scanFrom eofWithData text cur <+: (splitFrom text cur).map dropCR := by
  induction text with
  | nil =>
    intro cur
    rw [scanFrom, splitFrom]
    by_cases hc : cur = []
    · rw [if_pos hc, if_pos hc]; exact List.prefix_refl _
    · rw [if_neg hc, if_neg hc]
      split_ifs
      · exact List.prefix_refl _
      · exact List.nil_prefix
  | cons b rest ih =>
    intro cur
    rw [scanFrom, splitFrom]
    by_cases hb : b = 0x0A
    · rw [if_pos hb, if_pos hb]
      split_ifs
      · rw [List.map_cons]
        exact (List.prefix_cons_inj _).2 (ih [])
      · exact List.nil_prefix
    · rw [if_neg hb, if_neg hb]
      exact ih _

theorem scanTokens_initial (eofWithData : Bool) (text : List Nat) :
    scanTokens eofWithData text <+: textLines text :=
  scanFrom_initial eofWithData text []

theorem scanTokens_entries_le (eofWithData : Bool) (text : List Nat) :
    ((scanTokens eofWithData text).filterMap lineEntry).length ≤
      ((textLines text).filterMap lineEntry).length :=
  ((scanTokens_initial eofWithData text).filterMap lineEntry).length_le

theorem scanFrom_line (eofWithData : Bool) (rest : List Nat) (l : List Nat) :
    ∀ cur : List Nat, 0x0A ∉ l →
      scanFrom eofWithData (l ++ 0x0A :: rest) cur =
        if (cur ++ l).length < MaxScanTokenSize then
          dropCR (cur ++ l) :: scanFrom eofWithData rest []
        else [] := by
  induction l with
  | nil =>
    intro cur _
    rw [List.nil_append, scanFrom, if_pos rfl, List.append_nil]
  | cons b l ih =>
    intro cur h
    have hb : b ≠ 0x0A := fun hb => h (by rw [hb]; exact List.mem_cons_self _ _)
    have hl : 0x0A ∉ l := fun hl => h (List.mem_cons_of_mem _ hl)
    rw [List.cons_append, scanFrom, if_neg hb, ih _ hl, List.append_assoc,
      List.singleton_append]

theorem splitFrom_line (rest : List Nat) (l : List Nat) :
    ∀ cur : List Nat, 0x0A ∉ l →
      splitFrom (l ++ 0x0A :: rest) cur = (cur ++ l) :: splitFrom rest [] := by
  induction l with
  | nil =>
    intro cur _
    rw [List.nil_append, splitFrom, if_pos rfl, List.append_nil]
  | cons b l ih =>
    intro cur h
    have hb : b ≠ 0x0A := fun hb => h (by rw [hb]; exact List.mem_cons_self _ _)
    have hl : 0x0A ∉ l := fun hl => h (List.mem_cons_of_mem _ hl)
    rw [List.cons_append, splitFrom, if_neg hb, ih _ hl, List.append_assoc,
      List.singleton_append]

theorem splitLines_unlines (lines : List (List Nat)) (h : ∀ l ∈ lines, 0x0A ∉ l) :
    splitLines (unlines lines) = lines := by
  induction lines with
  | nil => rfl
  | cons l ls ih =>
    have ih1 := ih (fun l hl => h l (List.mem_cons_of_mem _ hl))
    rw [splitLines] at ih1 ⊢
    rw [unlines, splitFrom_line _ _ _ (h l (List.mem_cons_self _ _)), List.nil_append, ih1]

theorem scanTokens_unlines_cons (eofWithData : Bool) (l : List Nat) (ls : List (List Nat))
    (h : 0x0A ∉ l) :
    scanTokens eofWithData (unlines (l :: ls)) =
      if l.length < MaxScanTokenSize then dropCR l :: scanTokens eofWithData (unlines ls)
      else [] := by
  rw [scanTokens, unlines, scanFrom_line _ _ _ _ h, List.nil_append]
  rfl

theorem scanTokens_unlines_append (eofWithData : Bool) (pre rest : List (List Nat))
    (h : ∀ l ∈ pre, 0x0A ∉ l ∧ l.length < MaxScanTokenSize) :
    scanTokens eofWithData (unlines (pre ++ rest)) =
      pre.map dropCR ++ scanTokens eofWithData (unlines rest) := by
  induction pre with
  | nil => rfl
  | cons l ls ih =>
    obtain ⟨h1, h2⟩ := h l (List.mem_cons_self _ _)
    rw [List.cons_append, scanTokens_unlines_cons _ _ _ h1, if_pos h2,
      ih (fun l hl => h l (List.mem_cons_of_mem _ hl))]
    rfl

theorem scanTokens_unlines (eofWithData : Bool) (lines : List (List Nat))
    (h : ∀ l ∈ lines, 0x0A ∉ l ∧ l.length < MaxScanTokenSize) :
    scanTokens eofWithData (unlines lines) = lines.map dropCR := by
  have := scanTokens_unlines_append eofWithData lines [] h
  rw [List.append_nil] at this
  rw [this]
  show _ ++ [] = _
  rw [List.append_nil]

theorem scanTokens_unlines_long (eofWithData : Bool) (pre post : List (List Nat))
    (long : List Nat) (h : ∀ l ∈ pre, 0x0A ∉ l ∧ l.length < MaxScanTokenSize)
    (hl : 0x0A ∉ long) (hlong : MaxScanTokenSize ≤ long.length) :
    scanTokens eofWithData (unlines (pre ++ long :: post)) = pre.map dropCR := by
  rw [scanTokens_unlines_append _ _ _ h, scanTokens_unlines_cons _ _ _ hl,
    if_neg (by omega), List.append_nil]

/-! ## The sample texts -/

theorem unlines_plain (lines : List (List Nat))
    (h : ∀ l ∈ lines, 0x0A ∉ l ∧ l.length < MaxScanTokenSize ∧ dropCR l = l) :
    splitLines (unlines lines) = lines ∧ textLines (unlines lines) = lines ∧
    (∀ l ∈ splitLines (unlines lines), l.length < MaxScanTokenSize) ∧
    ∀ eofWithData, scanTokens eofWithData (unlines lines) = lines := by
  have hid : lines.map dropCR = lines := by
    conv_rhs => rw [← List.map_id lines]
    exact List.map_congr_left (fun l hl => (h l hl).2.2)
  have hs := splitLines_unlines lines (fun l hl => (h l hl).1)
  refine ⟨hs, ?_, ?_, ?_⟩
  · rw [textLines, hs, hid]
  · rw [hs]
    exact fun l hl => (h l hl).2.1
  · intro e
    rw [scanTokens_unlines e lines (fun l hl => ⟨(h l hl).1, (h l hl).2.1⟩), hid]

set_option maxRecDepth 100000 in
theorem plain_repeated :
    0x0A ∉ bytesOf "<U0041> \\x41 |0" ∧
    (bytesOf "<U0041> \\x41 |0").length < MaxScanTokenSize ∧
    dropCR (bytesOf "<U0041> \\x41 |0") = bytesOf "<U0041> \\x41 |0" := by
  decide

set_option maxRecDepth 100000 in
theorem plain_sentinel :
    0x0A ∉ bytesOf "<UFFFD> \\x00 |0" ∧
    (bytesOf "<UFFFD> \\x00 |0").length < MaxScanTokenSize ∧
    dropCR (bytesOf "<UFFFD> \\x00 |0") = bytesOf "<UFFFD> \\x00 |0" := by
  decide

theorem replicate_plain (n : Nat) (line : List Nat)
    (h : 0x0A ∉ line ∧ line.length < MaxScanTokenSize ∧ dropCR line = line) :
    ∀ l ∈ List.replicate n line,
      0x0A ∉ l ∧ l.length < MaxScanTokenSize ∧ dropCR l = l := by
  intro l hl
  rw [(List.mem_replicate.1 hl).2]
  exact h

theorem getUCM_sentinelText (eofWithData : Bool) :
    getUCM eofWithData sentinelText = .ok (runesToString unmappedMapping) := by
  rw [getUCM_eq_parseLines, sentinelText,
    (unlines_plain sentinelLines (replicate_plain _ _ plain_sentinel)).2.2.2 eofWithData]
  exact parseLines_sentinelLines

/-! ## The scanner on small inputs and at its limit -/

set_option maxRecDepth 100000 in
theorem scanTokens_samples :
    scanTokens false (bytesOf "ab\r\ncd\n\nef") = [bytesOf "ab", bytesOf "cd", [], bytesOf "ef"] ∧
    scanTokens true (bytesOf "ab\r\ncd\n\nef") = [bytesOf "ab", bytesOf "cd", [], bytesOf "ef"] ∧
    scanTokens false (bytesOf "ab\n") = [bytesOf "ab"] ∧
    scanTokens false (bytesOf "a\rb\r\r\n") = [bytesOf "a\rb\r"] ∧
    scanTokens false (bytesOf "\r") = [[]] ∧
    scanTokens false [] = [] ∧
    splitLines (bytesOf "ab\r\ncd\n\nef") = [bytesOf "ab\r", bytesOf "cd", [], bytesOf "ef"] ∧
    textLines (bytesOf "ab\r\ncd\n\nef") = [bytesOf "ab", bytesOf "cd", [], bytesOf "ef"] ∧
    unlines [bytesOf "ab", bytesOf "cd"] = bytesOf "ab\ncd\n" := by
  decide

theorem scanFrom_last (eofWithData : Bool) (l : List Nat) :
    ∀ cur : List Nat, 0x0A ∉ l →
      scanFrom eofWithData l cur =
        if cur ++ l = [] then []
        else if (cur ++ l).length < MaxScanTokenSize ∨
            ((cur ++ l).length = MaxScanTokenSize ∧ eofWithData = true) then
          [dropCR (cur ++ l)]
        else [] := by
  induction l with
  | nil =>
    intro cur _
    rw [scanFrom, List.append_nil]
  | cons b l ih =>
    intro cur h
    have hb : b ≠ 0x0A := fun hb => h (by rw [hb]; exact List.mem_cons_self _ _)
    have hl : 0x0A ∉ l := fun hl => h (List.mem_cons_of_mem _ hl)
    rw [scanFrom, if_neg hb, ih _ hl, List.append_assoc, List.singleton_append]

theorem dropCR_replicate (n : Nat) : dropCR (List.replicate n 0x78) = List.replicate n 0x78 := by
  unfold dropCR
  rw [if_neg]
  intro h
  have hm := List.mem_of_getLast?_eq_some h
  have := (List.mem_replicate.1 hm).2
  omega

/-- The limit of the scanner: a line of 65535 bytes that ends in a newline is
read, and so are the lines after it; at a line of 65536 bytes the scan ends,
and nothing after it is read.  Bytes after the last newline are read as a
line when they are 65535; when they are 65536, they are read only if the
reader reports the end of the data together with them; more are never read. -/
theorem scanTokens_limit (eofWithData : Bool) :
    scanTokens eofWithData
        (unlines [List.replicate 65535 0x78, bytesOf "<U0041> \\x41 |0"]) =
      [List.replicate 65535 0x78, bytesOf "<U0041> \\x41 |0"] ∧
    scanTokens eofWithData
        (unlines [List.replicate 65536 0x78, bytesOf "<U0041> \\x41 |0"]) = [] ∧
    scanTokens eofWithData (List.replicate 65535 0x78) = [List.replicate 65535 0x78] ∧
    scanTokens true (List.replicate 65536 0x78) = [List.replicate 65536 0x78] ∧
    scanTokens false (List.replicate 65536 0x78) = [] ∧
    scanTokens eofWithData (List.replicate 65537 0x78) = [] := by
  have hx : ∀ n, 0x0A ∉ List.replicate n 0x78 := by
    intro n h
    have := (List.mem_replicate.1 h).2
    omega
  have hne : ∀ n, [] ++ List.replicate (n + 1) 0x78 ≠ [] := by
    intro n h
    rw [List.nil_append, List.replicate_succ] at h
    exact List.cons_ne_nil _ _ h
  refine ⟨?_, ?_, ?_, ?_, ?_, ?_⟩
  · rw [scanTokens_unlines_cons _ _ _ (hx _),
      if_pos (by rw [List.length_replicate]; unfold MaxScanTokenSize; omega),
      scanTokens_unlines_cons _ _ _ plain_repeated.1, if_pos plain_repeated.2.1,
      dropCR_replicate, plain_repeated.2.2]
    rfl
  · rw [scanTokens_unlines_cons _ _ _ (hx _),
      if_neg (by rw [List.length_replicate]; unfold MaxScanTokenSize; omega)]
  · rw [scanTokens, scanFrom_last _ _ _ (hx _), if_neg (hne 65534),
      if_pos (Or.inl (by
        rw [List.nil_append, List.length_replicate]; unfold MaxScanTokenSize; omega)),
      List.nil_append, dropCR_replicate]
  · rw [scanTokens, scanFrom_last _ _ _ (hx _), if_neg (hne 65535),
      if_pos (Or.inr ⟨by
        rw [List.nil_append, List.length_replicate]; unfold MaxScanTokenSize; omega, rfl⟩),
      List.nil_append, dropCR_replicate]
  · rw [scanTokens, scanFrom_last _ _ _ (hx _), if_neg (hne 65535), if_neg]
    rw [List.nil_append, List.length_replicate]
    unfold MaxScanTokenSize
    intro h
    rcases h with h | ⟨-, h⟩
    · omega
    · exact Bool.noConfusion h
  · rw [scanTokens, scanFrom_last _ _ _ (hx _), if_neg (hne 65536), if_neg]
    rw [List.nil_append, List.length_replicate]
    unfold MaxScanTokenSize
    intro h
    rcases h with h | ⟨h, -⟩ <;> omega

/-! ## Padding, totality and the parser threshold -/

/-- Padding when the slice `encode` is not empty: on a RawMapping on which no
character-too-long error occurs and which has `k >= 1` distinct characters
other than the sentinel, construction yields an EncodeTable of 256 entries
whose first `k` positions hold the `k` real entries, in sorted order, and
whose positions `k..255` all equal position `k - 1`. -/
theorem padding_correct (rt : Runtime) (hrt : rt.Valid) (name : String)
    (replacement : Nat) (rm : List Nat) (hrm : RawMapping rm)
    (hno : ∀ i c,
      buildCharmap rt name replacement (runesToString rm) ≠ .error (.runeTooLong i c))
    (hk : 0 < (distinctChars rm).length) :
    ∃ cm, buildCharmap rt name replacement (runesToString rm) = .ok cm ∧
      (distinctChars rm).length ≤ 256 ∧ cm.encode.length = 256 ∧
      (cm.encode.take (distinctChars rm).length).Perm
        ((distinctChars rm).map (fun c => packKey (c, rm.indexOf c))) ∧
      (cm.encode.take (distinctChars rm).length).Pairwise
        (fun a b => a &&& 0xffffff ≤ b &&& 0xffffff) ∧
      ∀ j, (distinctChars rm).length ≤ j → j < 256 →
        cm.encode[j]? = cm.encode[(distinctChars rm).length - 1]? := by
  have hle := le_of_no_tooLong rt name replacement rm hrm hno
  obtain ⟨c, hc⟩ := List.exists_mem_of_length_pos hk
  obtain ⟨hc1, hc2⟩ := (mem_distinctChars rm c).1 hc
  obtain ⟨cm, h⟩ := buildCharmap_succeeds rt hrt name replacement rm hrm.2 hle ⟨c, hc1, hc2⟩
  obtain ⟨-, h2, h3, h4, h5, h6⟩ := buildCharmap_padding rt hrt name replacement rm hrm cm h
  exact ⟨cm, h, h2, h3, h4, h5, h6⟩

/-- C6, the failing input. On the mapping in which no byte is mapped, no
character-too-long error occurs and the number `k` of distinct characters
other than the sentinel is `0 < 256`, yet there is no EncodeTable to pad:
the slice `encode` is empty, the padding loop reads `encode[len(encode)-1]`
and construction stops with an index out of range. -/
theorem padding_fails_on_unmapped :
    RawMapping unmappedMapping ∧
    (∀ i c, buildCharmap simpleRuntime "EBCDIC-K" 0x3f (runesToString unmappedMapping) ≠
      .error (.runeTooLong i c)) ∧
    (distinctChars unmappedMapping).length = 0 ∧
    (distinctChars unmappedMapping).length < 256 ∧
    buildCharmap simpleRuntime "EBCDIC-K" 0x3f (runesToString unmappedMapping) =
      .error .indexOutOfRange ∧
    ¬ ∃ cm, buildCharmap simpleRuntime "EBCDIC-K" 0x3f (runesToString unmappedMapping) =
      .ok cm := by
  have h := buildCharmap_unmapped simpleRuntime simpleRuntime_valid "EBCDIC-K" 0x3f
  refine ⟨unmappedMapping_raw, ?_, ?_, ?_, h, ?_⟩
  · intro i c hc
    rw [h] at hc
    exact BuildError.noConfusion (Except.error.inj hc)
  · rw [distinctChars_unmapped]; rfl
  · rw [distinctChars_unmapped]; decide
  · rintro ⟨cm, hcm⟩
    rw [h] at hcm
    exact Except.noConfusion hcm

/-- C9, the failing input. A mapping text of 128 lines `<UFFFD> \x00 |0` is
accepted by the parser, which returns the RawMapping of 256 sentinels; no
character of it needs more than 3 bytes, and yet, for every table name and
replacement byte, construction stops with an index out of range at
`encode[len(encode)-1]` and yields no Charmap. -/
theorem totality_fails_on_unmapped (eofWithData : Bool) (name : String)
    (replacement : Nat) :
    getUCM eofWithData sentinelText = .ok (runesToString unmappedMapping) ∧
    RawMapping unmappedMapping ∧
    (∀ c ∈ unmappedMapping, (EncodeRune c).length ≤ 3) ∧
    buildCharmap simpleRuntime name replacement (runesToString unmappedMapping) =
      .error .indexOutOfRange := by
  refine ⟨getUCM_sentinelText eofWithData, unmappedMapping_raw, ?_,
    buildCharmap_unmapped simpleRuntime simpleRuntime_valid name replacement⟩
  intro c hc
  rw [unmappedMapping, List.mem_replicate] at hc
  rw [hc.2]; decide

/-- The threshold on the lines that the scanner yields: the loop counts the
matching lines. With fewer than 128 of them the result is the source-format
error, which reports their number; with at least 128 of them, and so whenever
at least 128 byte values receive a mapping, it is the string of an array of
256 entries. -/
theorem parseLines_threshold (lines : List (List Nat)) :
    ((lines.filterMap lineEntry).length < 128 →
      parseLines lines = .error (.onlyFewCharacters (lines.filterMap lineEntry).length)) ∧
    (128 ≤ (lines.filterMap lineEntry).length →
      ∃ mapping : List Nat, mapping.length = 256 ∧
        parseLines lines = .ok (runesToString mapping)) ∧
    (128 ≤ (mappedBytes lines).length →
      ∃ mapping : List Nat, mapping.length = 256 ∧
        parseLines lines = .ok (runesToString mapping)) := by
  have hok : 128 ≤ (lines.filterMap lineEntry).length →
      ∃ mapping : List Nat, mapping.length = 256 ∧
        parseLines lines = .ok (runesToString mapping) := by
    intro h
    refine ⟨(lines.filterMap lineEntry).foldl (fun m p => m.set p.2 p.1)
        (List.replicate 256 RuneError), ?_, ?_⟩
    · rw [foldl_set_length, List.length_replicate]
    · rw [parseLines_eq, if_neg (by omega)]
  refine ⟨?_, hok, ?_⟩
  · intro h
    rw [parseLines_eq, if_pos h]
  · intro h
    apply hok
    have h1 : (mappedBytes lines).length ≤ ((lines.filterMap lineEntry).map Prod.snd).length :=
      (List.dedup_sublist _).length_le
    rw [List.length_map] at h1
    omega

theorem mappedBytes_repeatedLines : mappedBytes repeatedLines = [0x41] := by
  rw [mappedBytes, repeatedLines, List.filterMap_replicate_of_some lineEntry_repeated,
    List.map_replicate]
  exact List.replicate_dedup (by omega)

/-! ## The fuel of the two loops is enough -/

theorem DecodeRuneInString_size_pos (b : Nat) (t : List Nat) :
    1 ≤ (DecodeRuneInString (b :: t)).2 := by
  unfold DecodeRuneInString
  simp only
  split_ifs <;> (try split) <;> (try split_ifs) <;> simp

theorem rangeRunes_fuel (fuel : Nat) :
    ∀ s : List Nat, s.length ≤ fuel → rangeRunes fuel s = rangeRunes s.length s := by
  induction fuel using Nat.strong_induction_on with
  | _ fuel ih =>
    intro s hs
    cases s with
    | nil => cases fuel <;> simp [rangeRunes]
    | cons b t =>
      obtain ⟨f, rfl⟩ : ∃ f, fuel = f + 1 := ⟨fuel - 1, by simp at hs; omega⟩
      have hpos := DecodeRuneInString_size_pos b t
      have hlen : ((b :: t).drop (DecodeRuneInString (b :: t)).2).length ≤ t.length := by
        rw [List.length_drop, List.length_cons]; omega
      simp only [List.length_cons] at hs
      rw [List.length_cons, rangeRunes, rangeRunes]
      rw [ih f (by omega) _ (by omega), ih t.length (by omega) _ hlen]

theorem padLoop_fuel (l : List Nat) : padLoop 256 l ≠ .error .outOfFuel := by
  by_cases hl : l = []
  · subst hl
    rw [padLoop_nil]
    intro h
    exact BuildError.noConfusion (Except.error.inj h)
  · rw [padLoop_ok 256 l hl (by omega)]
    intro h
    exact Except.noConfusion h

theorem decodeLoop_error_kind (cs : List Nat) :
    ∀ (i : Nat) (m : BackMap) (dec : List utf8Enc) (e : BuildError),
      decodeLoop cs i m dec = .error e → ∃ j c, e = .runeTooLong j c := by
  induction cs with
  | nil => intro i m dec e h; simp [decodeLoop] at h
  | cons c cs ih =>
    intro i m dec e h
    rw [decodeLoop] at h
    by_cases hlen : (EncodeRune c).length > 3
    · simp only [hlen, if_true, Except.error.injEq] at h
      exact ⟨i, c, h.symm⟩
    · simp only [hlen, if_false] at h
      exact ih _ _ _ e h

/-- The construction never stops for lack of fuel: its padding loop ends. -/
theorem buildCharmap_ne_outOfFuel (rt : Runtime) (name : String) (repl : Nat)
    (mapping : List Nat) : buildCharmap rt name repl mapping ≠ .error .outOfFuel := by
  unfold buildCharmap
  cases hdl : decodeLoop (rangeString mapping) 0 [] [] with
  | error e =>
    obtain ⟨j, c, rfl⟩ := decodeLoop_error_kind _ _ _ _ e hdl
    intro h
    exact BuildError.noConfusion (Except.error.inj h)
  | ok r =>
    obtain ⟨m, dec⟩ := r
    simp only
    cases hp : padLoop 256 (rt.sortSort ((rt.rangeMap m).map packKey)) with
    | error e =>
      intro h
      simp only [Except.error.injEq] at h
      subst h
      exact padLoop_fuel _ hp
    | ok enc =>
      intro h
      exact Except.noConfusion h

/-! ## The later definitions on small inputs -/

theorem lowerVarName_samples :
    lowerVarName (bytesOf "IBM290") = bytesOf "ibm290" ∧
    lowerVarName (bytesOf "Windows1252") = bytesOf "windows1252" ∧
    lowerVarName (bytesOf "utf8") = bytesOf "utf8" ∧
    lowerVarName (bytesOf "_X") = bytesOf "_X" ∧
    lowerVarName [] = [] ∧
    firstVarName (bytesOf "EBCDIC_K,IBM290") = bytesOf "EBCDIC_K" ∧
    lvnLoop (bytesOf "EBCDIC_K") 0 = 6 := by
  decide

theorem validRune_samples :
    validRune 0x41 = 0x41 ∧ validRune 0xD800 = 0xFFFD ∧ validRune 0xDFFF = 0xFFFD ∧
    validRune 0xE000 = 0xE000 ∧ validRune 0x10FFFF = 0x10FFFF ∧
    validRune 0x110000 = 0xFFFD ∧ validRune 0xFFFFFFBF = 0xFFFD := by
  decide

theorem writeDecodeLoop_sample :
    writeDecodeLoop [0x41, 0x20AC, 0x1F600, 0x42] 0 [] ⟨[], 0⟩ =
      (⟨[⟨"\x7b%d,[3]byte\x7b0x%02x,0x%02x,0x%02x\x7d\x7d,", [.int 1, .int 0x41, .int 0, .int 0]⟩,
         ⟨"\x7b%d,[3]byte\x7b0x%02x,0x%02x,0x%02x\x7d\x7d,",
            [.int 3, .int 0xE2, .int 0x82, .int 0xAC]⟩,
         ⟨"\n", []⟩], 0⟩,
        .error (.runeTooLong 2 0x1F600)) := by
  rfl

theorem writeEncodeLoop_sample :
    (writeEncodeLoop [0x41000041, 0x800020AC] 7 ⟨[], 0⟩).out =
      [⟨"0x%08x,", [.int 0x41000041]⟩, ⟨"\n", []⟩, ⟨"0x%08x,", [.int 0x800020AC]⟩] := by
  decide

set_option maxRecDepth 100000 in
theorem Sscanf_signed_samples :
    Sscanf (bytesOf "<U-41> \\x41 |0") = some (0xFFFFFFBF, 0x41) ∧
    Sscanf (bytesOf "<UD800> \\x41 |0") = some (0xD800, 0x41) ∧
    Sscanf (bytesOf "<U110000> \\x41 |0") = some (0x110000, 0x41) ∧
    Sscanf (bytesOf "<U80000000> \\x41 |0") = none ∧
    Sscanf (bytesOf "<U00_41> \\x41 |0") = none := by
  decide

/-! ## The private variable name -/

theorem lvnLoop_eq (v : List Nat) :
    ∀ n, lvnLoop v n =
      n + (v.takeWhile (fun c => decide (0x41 ≤ c) && decide (c ≤ 0x5A))).length := by
  induction v with
  | nil => intro n; simp [lvnLoop]
  | cons c cs ih =>
    intro n
    rw [lvnLoop]
    by_cases hc : (decide (0x41 ≤ c) && decide (c ≤ 0x5A)) = true
    · have hc' : (decide (c ≥ 0x41) && decide (c ≤ 0x5A)) = true := hc
      rw [List.takeWhile_cons, if_pos hc, ih]
      simp only [hc', Bool.not_true, Bool.false_eq_true, if_false, List.length_cons]
      omega
    · have hc' : ¬ (decide (c ≥ 0x41) && decide (c ≤ 0x5A)) = true := hc
      rw [List.takeWhile_cons, if_neg hc]
      simp only [hc', Bool.not_eq_true, List.length_nil, Nat.add_zero]
      simp

theorem ToLower_of_upper (s : List Nat)
    (h : ∀ c ∈ s, (decide (0x41 ≤ c) && decide (c ≤ 0x5A)) = true) :
    ToLower s = s.map (fun c => c + 0x20) := by
  unfold ToLower
  apply List.map_congr_left
  intro c hc
  have := h c hc
  simp only [Bool.and_eq_true, decide_eq_true_eq] at this
  rw [if_pos this]

theorem take_length_takeWhile (p : Nat → Bool) (l : List Nat) :
    l.take (l.takeWhile p).length = l.takeWhile p := by
  induction l with
  | nil => rfl
  | cons a as ih =>
    rw [List.takeWhile_cons]
    split_ifs
    · rw [List.length_cons, List.take_succ_cons, ih]
    · rfl

theorem drop_length_takeWhile (p : Nat → Bool) (l : List Nat) :
    l.drop (l.takeWhile p).length = l.dropWhile p := by
  induction l with
  | nil => rfl
  | cons a as ih =>
    rw [List.takeWhile_cons, List.dropWhile_cons]
    split_ifs
    · rw [List.length_cons, List.drop_succ_cons, ih]
    · rfl

theorem of_mem_takeWhile (p : Nat → Bool) (l : List Nat) :
    ∀ c ∈ l.takeWhile p, p c = true := by
  induction l with
  | nil => intro c hc; simp at hc
  | cons a as ih =>
    intro c hc
    rw [List.takeWhile_cons] at hc
    split_ifs at hc with ha
    · rcases List.mem_cons.1 hc with rfl | hc
      · exact ha
      · exact ih c hc
    · simp at hc

theorem lowerVarName_eq (v : List Nat) :
    lowerVarName v =
      (v.takeWhile (fun c => decide (0x41 ≤ c) && decide (c ≤ 0x5A))).map (fun c => c + 0x20) ++
        v.dropWhile (fun c => decide (0x41 ≤ c) && decide (c ≤ 0x5A)) := by
  unfold lowerVarName
  simp only [lvnLoop_eq, Nat.zero_add]
  rw [take_length_takeWhile, drop_length_takeWhile, ToLower_of_upper _ (of_mem_takeWhile _ v)]

/-- C17. Private variable name: for every variable name `v`, `lowerVarName`
has the length of `v`, is `v` with exactly its longest leading run of
letters `A..Z` replaced by the lowercase letters, and differs from `v` if
and only if `v` begins with a letter `A..Z`; `EBCDIC_K` becomes `ebcdic_K`. -/
theorem lowerVarName_spec (v : List Nat) :
    (lowerVarName v).length = v.length ∧
    lowerVarName v =
      (v.takeWhile (fun c => decide (0x41 ≤ c) && decide (c ≤ 0x5A))).map
          (fun c => c + 0x20) ++
        v.dropWhile (fun c => decide (0x41 ≤ c) && decide (c ≤ 0x5A)) ∧
    (lowerVarName v ≠ v ↔ ∃ c t, v = c :: t ∧ 0x41 ≤ c ∧ c ≤ 0x5A) ∧
    lowerVarName (bytesOf "EBCDIC_K") = bytesOf "ebcdic_K" := by
  refine ⟨?_, lowerVarName_eq v, ?_, by decide⟩
  · rw [lowerVarName_eq, List.length_append, List.length_map, ← List.length_append,
      List.takeWhile_append_dropWhile]
  · rw [lowerVarName_eq]
    cases v with
    | nil => simp
    | cons c t =>
      by_cases hc : (decide (0x41 ≤ c) && decide (c ≤ 0x5A)) = true
      · rw [List.takeWhile_cons, if_pos hc, List.dropWhile_cons, if_pos hc]
        have hc2 : 0x41 ≤ c ∧ c ≤ 0x5A := by simpa using hc
        constructor
        · intro _; exact ⟨c, t, rfl, hc2.1, hc2.2⟩
        · intro _ h
          simp only [List.map_cons, List.cons_append, List.cons.injEq] at h
          omega
      · rw [List.takeWhile_cons, if_neg hc, List.dropWhile_cons, if_neg hc]
        have hc2 : ¬ (0x41 ≤ c ∧ c ≤ 0x5A) := by simpa using hc
        constructor
        · intro h; exact absurd rfl h
        · rintro ⟨c', t', heq, h1, h2⟩
          simp only [List.cons.injEq] at heq
          obtain ⟨rfl, -⟩ := heq
          exact absurd ⟨h1, h2⟩ hc2
/-! ## The string hand-off -/

theorem isScalar_validRune (r : Nat) : IsScalar (validRune r) := by
  unfold validRune
  split_ifs with h
  · exact h
  · exact isScalar_RuneError

theorem EncodeRune_validRune (r : Nat) : EncodeRune (validRune r) = EncodeRune r := by
  unfold validRune
  split_ifs with h
  · rfl
  · unfold IsScalar at h
    have hr : 0x10FFFF < r ∨ (0xD800 ≤ r ∧ r ≤ 0xDFFF) := by omega
    have e1 : EncodeRune RuneError = [0xEF, 0xBF, 0xBD] := by decide
    rw [e1]
    unfold EncodeRune
    rw [if_neg (by omega), if_neg (by omega), if_pos hr]

theorem runesToString_map_validRune (mapping : List Nat) :
    runesToString (mapping.map validRune) = runesToString mapping := by
  unfold runesToString
  induction mapping with
  | nil => rfl
  | cons r rs ih =>
    simp only [List.map_cons, List.flatMap_cons, ih, EncodeRune_validRune]

theorem rangeString_runesToString_any (mapping : List Nat) :
    rangeString (runesToString mapping) = mapping.map validRune := by
  rw [← runesToString_map_validRune]
  apply rangeString_runesToString
  intro r hr
  obtain ⟨x, -, rfl⟩ := List.mem_map.1 hr
  exact isScalar_validRune x

theorem decodeLoop_error_inv (cs : List Nat) :
    ∀ (i : Nat) (m : BackMap) (dec : List utf8Enc) (j c : Nat),
      decodeLoop cs i m dec = .error (.runeTooLong j c) →
        i ≤ j ∧ cs[j - i]? = some c ∧ 3 < (EncodeRune c).length := by
  induction cs with
  | nil => intro i m dec j c h; simp [decodeLoop] at h
  | cons x xs ih =>
    intro i m dec j c h
    rw [decodeLoop] at h
    by_cases hlen : (EncodeRune x).length > 3
    · simp only [hlen, if_true, Except.error.injEq, BuildError.runeTooLong.injEq] at h
      obtain ⟨rfl, rfl⟩ := h
      exact ⟨Nat.le_refl _, by simp, hlen⟩
    · simp only [hlen, if_false] at h
      obtain ⟨h1, h2, h3⟩ := ih _ _ _ j c h
      refine ⟨by omega, ?_, h3⟩
      have e : j - i = (j - (i + 1)) + 1 := by omega
      rw [e, List.getElem?_cons_succ]
      exact h2

theorem tooLong_inv (rt : Runtime) (name : String) (repl : Nat) (mapping : List Nat)
    (i c : Nat)
    (h : buildCharmap rt name repl (runesToString mapping) = .error (.runeTooLong i c)) :
    mapping[i]? = some c ∧ IsScalar c ∧ 0x10000 ≤ c := by
  unfold buildCharmap at h
  rw [rangeString_runesToString_any] at h
  cases hdl : decodeLoop (mapping.map validRune) 0 [] [] with
  | ok r =>
    obtain ⟨m, dec⟩ := r
    rw [hdl] at h
    simp only at h
    cases hp : padLoop 256 (rt.sortSort ((rt.rangeMap m).map packKey)) with
    | ok enc => rw [hp] at h; simp at h
    | error e =>
      rw [hp] at h
      simp only [Except.error.injEq] at h
      subst h
      by_cases hl : rt.sortSort ((rt.rangeMap m).map packKey) = []
      · rw [hl, padLoop_nil] at hp
        simp at hp
      · rw [padLoop_ok 256 _ hl (by omega)] at hp
        simp at hp
  | error e =>
    rw [hdl] at h
    simp only [Except.error.injEq] at h
    subst h
    obtain ⟨-, h2, h3⟩ := decodeLoop_error_inv _ _ _ _ _ _ hdl
    rw [Nat.sub_zero, List.getElem?_map] at h2
    cases hm : mapping[i]? with
    | none => rw [hm] at h2; simp at h2
    | some r =>
      rw [hm] at h2
      simp only [Option.map_some', Option.some.injEq] at h2
      have hs : IsScalar c := by rw [← h2]; exact isScalar_validRune r
      have hbig : 0x10000 ≤ c := by
        have := EncodeRune_length_le_three_iff c hs
        omega
      have hrc : r = c := by
        unfold validRune at h2
        split_ifs at h2 with hr
        · exact h2
        · rw [← h2] at hbig
          simp [RuneError] at hbig
      rw [hrc]
      exact ⟨rfl, hs, hbig⟩

/-- C15. String hand-off: for every array `mapping` of rune values, ranging
over `string(mapping)` yields as many runes as the array has elements, 256
for the array built by the parser, the `i`-th being `mapping[i]` when that is
a Unicode scalar value and U+FFFD otherwise; the counter of the builder is
therefore the byte value, and the character-too-long error is raised only
for an element that is a scalar value from U+10000 on, at its own index,
never for a surrogate or a value above U+10FFFF. -/
theorem string_handoff (mapping : List Nat) :
    rangeString (runesToString mapping) =
      mapping.map (fun r => if IsScalar r then r else RuneError) ∧
    (rangeString (runesToString mapping)).length = mapping.length ∧
    (∀ i : Nat, (rangeString (runesToString mapping))[i]? =
      (mapping[i]?).map (fun r => if IsScalar r then r else RuneError)) ∧
    (∀ lines : List (List Nat),
      (rangeString (runesToString
        (scanLoop lines (List.replicate 256 RuneError) 0).1)).length = 256) ∧
    (∀ (rt : Runtime) (name : String) (replacement i c : Nat),
      buildCharmap rt name replacement (runesToString mapping) = .error (.runeTooLong i c) →
        mapping[i]? = some c ∧ IsScalar c ∧ 0x10000 ≤ c) := by
  have h1 := rangeString_runesToString_any mapping
  refine ⟨h1, ?_, ?_, ?_, ?_⟩
  · rw [h1, List.length_map]
  · intro i
    rw [h1, List.getElem?_map]
    rfl
  · intro lines
    rw [rangeString_runesToString_any, List.length_map, scanLoop_eq, foldl_set_length,
      List.length_replicate]
  · intro rt name replacement i c h
    exact tooLong_inv rt name replacement mapping i c h

/-! ## Name and replacement byte -/

/-- C14. Name and replacement byte: for every mapping and any two pairs of a
name and a replacement byte, the two constructions fail with the same error
or both succeed, with the same `asciiSuperset`, `low`, DecodeTable and
EncodeTable, and the `name` and `replacement` of each Charmap are the values
supplied. -/
theorem name_replacement_frame (rt : Runtime) (mapping : List Nat)
    (name1 name2 : String) (replacement1 replacement2 : Nat) :
    (∀ err, buildCharmap rt name1 replacement1 mapping = .error err ↔
      buildCharmap rt name2 replacement2 mapping = .error err) ∧
    (∀ cm1, buildCharmap rt name1 replacement1 mapping = .ok cm1 →
      cm1.name = name1 ∧ cm1.replacement = replacement1 ∧
      ∃ cm2, buildCharmap rt name2 replacement2 mapping = .ok cm2 ∧
        cm2.name = name2 ∧ cm2.replacement = replacement2 ∧
        cm2.asciiSuperset = cm1.asciiSuperset ∧ cm2.low = cm1.low ∧
        cm2.decode = cm1.decode ∧ cm2.encode = cm1.encode) := by
  unfold buildCharmap
  cases hdl : decodeLoop (rangeString mapping) 0 [] [] with
  | error e => simp
  | ok r =>
    obtain ⟨m, dec⟩ := r
    simp only
    cases hp : padLoop 256 (rt.sortSort ((rt.rangeMap m).map packKey)) with
    | error e => simp
    | ok enc =>
      simp only [Except.ok.injEq]
      refine ⟨by simp, ?_⟩
      intro cm1 h
      rw [← h]
      exact ⟨by simp only, by simp only, _, rfl, by simp only [and_self]⟩
/-! ## Independence of the map order and of the sort -/

theorem foldr_insertKey_perm (l : List Nat) : (l.foldr insertKey []).Perm l := by
  induction l with
  | nil => exact List.Perm.refl _
  | cons x xs ih => exact (insertKey_perm x _).trans (List.Perm.cons x ih)

theorem foldr_insertKey_pairwise (l : List Nat) :
    (l.foldr insertKey []).Pairwise (fun a b => a &&& 0xffffff ≤ b &&& 0xffffff) := by
  induction l with
  | nil => exact List.Pairwise.nil
  | cons x xs ih => exact insertKey_pairwise x _ ih

theorem less_false_of_pairwise (l : List Nat)
    (h : l.Pairwise (fun a b => a &&& 0xffffff ≤ b &&& 0xffffff)) (i j : Nat)
    (hij : i < j) (hj : j < l.length) : byRune.Less l j i = false := by
  have hle := List.pairwise_iff_getElem.1 h i j (by omega) hj hij
  unfold byRune.Less
  rw [List.getD_eq_getElem _ _ hj, List.getD_eq_getElem _ _ (by omega : i < l.length)]
  simp only [decide_eq_false_iff_not, not_lt]
  exact hle

theorem reverseRuntime_valid : reverseRuntime.Valid := by
  refine ⟨fun m => List.reverse_perm m, ?_, ?_⟩
  · intro l
    exact (foldr_insertKey_perm l.reverse).trans (List.reverse_perm l)
  · intro l i j hij hj
    exact less_false_of_pairwise _ (foldr_insertKey_pairwise l.reverse) i j hij hj

theorem masks_distinctChars (rm : List Nat) (h24 : ∀ c ∈ rm, c < 2 ^ 24) :
    ((distinctChars rm).map (fun c => 2 ^ 24 * rm.indexOf c + c)).map
      (fun e => e &&& 0xffffff) = distinctChars rm := by
  rw [List.map_map]
  conv_rhs => rw [← List.map_id (distinctChars rm)]
  apply List.map_congr_left
  intro c hc
  simp only [Function.comp, id]
  exact key_and_mask c _ (h24 c ((mem_distinctChars rm c).1 hc).1)

theorem strict_of_perm_keys (rm l : List Nat) (h24 : ∀ c ∈ rm, c < 2 ^ 24)
    (hperm : l.Perm ((distinctChars rm).map (fun c => 2 ^ 24 * rm.indexOf c + c)))
    (hsorted : l.Pairwise (fun a b => a &&& 0xffffff ≤ b &&& 0xffffff)) :
    l.Pairwise (fun a b => a &&& 0xffffff < b &&& 0xffffff) := by
  have hnd : (l.map (fun e => e &&& 0xffffff)).Nodup := by
    rw [(hperm.map _).nodup_iff, masks_distinctChars rm h24]
    exact List.nodup_dedup _
  have hne : l.Pairwise (fun a b => a &&& 0xffffff ≠ b &&& 0xffffff) :=
    List.pairwise_map.1 hnd
  exact (hsorted.and hne).imp (fun h => Nat.lt_of_le_of_ne h.1 h.2)

theorem eq_of_perm_of_strict (l1 l2 : List Nat) (hperm : l1.Perm l2)
    (h1 : l1.Pairwise (fun a b => a &&& 0xffffff < b &&& 0xffffff))
    (h2 : l2.Pairwise (fun a b => a &&& 0xffffff < b &&& 0xffffff)) : l1 = l2 := by
  haveI : IsAntisymm Nat (fun a b => a &&& 0xffffff < b &&& 0xffffff) :=
    ⟨fun a b hab hba => absurd hab (Nat.lt_asymm hba)⟩
  exact List.eq_of_perm_of_sorted hperm h1 h2

theorem buildCharmap_runtime_independent (rt1 rt2 : Runtime) (h1 : rt1.Valid)
    (h2 : rt2.Valid) (name : String) (repl : Nat) (rm : List Nat) (hrm : RawMapping rm)
    (cm : Charmap) (h : buildCharmap rt1 name repl (runesToString rm) = .ok cm) :
    buildCharmap rt2 name repl (runesToString rm) = .ok cm := by
  obtain ⟨l1, hl1, hperm1, hsorted1, -, hle, rfl⟩ :=
    buildCharmap_ok_spec rt1 h1 name repl rm hrm cm h
  have h24 : ∀ c ∈ rm, c < 2 ^ 24 := fun c hc => by have := hle c hc; omega
  obtain ⟨x, hx⟩ := List.exists_mem_of_ne_nil l1 hl1
  obtain ⟨c, hc, -⟩ := List.mem_map.1 (hperm1.mem_iff.1 hx)
  obtain ⟨hc1, hc2⟩ := (mem_distinctChars rm c).1 hc
  obtain ⟨cm2, hcm2⟩ := buildCharmap_succeeds rt2 h2 name repl rm hrm.2 hle ⟨c, hc1, hc2⟩
  obtain ⟨l2, hl2, hperm2, hsorted2, -, -, rfl⟩ :=
    buildCharmap_ok_spec rt2 h2 name repl rm hrm cm2 hcm2
  have heq : l2 = l1 :=
    eq_of_perm_of_strict l2 l1 (hperm2.trans hperm1.symm)
      (strict_of_perm_keys rm l2 h24 hperm2 hsorted2)
      (strict_of_perm_keys rm l1 h24 hperm1 hsorted1)
  subst heq
  exact hcm2

theorem collected_keys_nodup (rt : Runtime) (hrt : rt.Valid) (rm : List Nat)
    (hrm : RawMapping rm) (m : BackMap) (dec : List utf8Enc)
    (h : decodeLoop (rangeString (runesToString rm)) 0 [] [] = .ok (m, dec)) :
    (((rt.rangeMap m).map packKey).map (fun e => e &&& 0xffffff)).Nodup := by
  rw [rangeString_runesToString rm hrm.2] at h
  obtain ⟨hinv, -, h3⟩ := decodeLoop_ok rm [] [] [] m dec recordsFirst_nil h
  simp only [List.nil_append] at hinv
  have h24 : ∀ c ∈ rm, c < 2 ^ 24 := fun c hc => by
    have := scalar_lt_of_length_le (hrm.2 c hc) (h3 c hc); omega
  have hp : (((rt.rangeMap m).map packKey).map (fun e => e &&& 0xffffff)).Perm
      (distinctChars rm) := by
    have h1 := ((hrt.1 m).map packKey).map (fun e => e &&& 0xffffff)
    refine h1.trans ?_
    rw [hinv.map_packKey (by rw [hrm.1]) h24]
    have h2 := (hinv.keys_perm.map (fun c => 2 ^ 24 * rm.indexOf c + c)).map
      (fun e => e &&& 0xffffff)
    rw [masks_distinctChars rm h24] at h2
    exact h2
  rw [hp.nodup_iff]
  exact List.nodup_dedup _

/-- C16. Determinism: when construction succeeds on a RawMapping, the keys
collected from the reverse map have pairwise distinct low 24 bits, the first
`k` entries of the EncodeTable are strictly increasing in them, and every
other runtime, whatever the order in which it enumerates the reverse map and
whatever its sort, yields the same Charmap. -/
theorem encode_deterministic (rt1 rt2 : Runtime) (h1 : rt1.Valid) (h2 : rt2.Valid)
    (name : String) (replacement : Nat) (rm : List Nat) (hrm : RawMapping rm)
    (cm : Charmap)
    (h : buildCharmap rt1 name replacement (runesToString rm) = .ok cm) :
    (∀ m dec, decodeLoop (rangeString (runesToString rm)) 0 [] [] = .ok (m, dec) →
      (((rt1.rangeMap m).map packKey).map (fun e => e &&& 0xffffff)).Nodup) ∧
    (cm.encode.take (distinctChars rm).length).Pairwise
      (fun a b => a &&& 0xffffff < b &&& 0xffffff) ∧
    buildCharmap rt2 name replacement (runesToString rm) = .ok cm := by
  refine ⟨fun m dec hd => collected_keys_nodup rt1 h1 rm hrm m dec hd, ?_,
    buildCharmap_runtime_independent rt1 rt2 h1 h2 name replacement rm hrm cm h⟩
  obtain ⟨-, -, -, hperm, hsorted, -⟩ :=
    buildCharmap_padding rt1 h1 name replacement rm hrm cm h
  have hle := chars_le_of_ok rt1 h1 name replacement rm hrm cm h
  have h24 : ∀ c ∈ rm, c < 2 ^ 24 := fun c hc => by have := hle c hc; omega
  have hmap : (distinctChars rm).map (fun c => packKey (c, rm.indexOf c)) =
      (distinctChars rm).map (fun c => 2 ^ 24 * rm.indexOf c + c) := by
    apply List.map_congr_left
    intro c hc
    have hc' := ((mem_distinctChars rm c).1 hc).1
    have hidx := List.indexOf_lt_length.2 hc'
    rw [hrm.1] at hidx
    exact packKey_eq c _ hidx (h24 c hc')
  rw [hmap] at hperm
  exact strict_of_perm_keys rm _ h24 hperm hsorted

/-! ## The array built by the parser -/

theorem foldl_set_getElem? (ps : List (Nat × Nat)) (b : Nat) :
    ∀ (m0 : List Nat) (d : Nat), m0[b]? = some d →
      (ps.foldl (fun m p => m.set p.2 p.1) m0)[b]? =
        some ((((ps.filter (fun p => p.2 == b)).getLast?).map Prod.fst).getD d) := by
  induction ps with
  | nil => intro m0 d h; simpa using h
  | cons p ps ih =>
    intro m0 d h
    obtain ⟨r, c⟩ := p
    have hb : b < m0.length := (List.getElem?_eq_some_iff.1 h).1
    rw [List.foldl_cons]
    by_cases hc : c = b
    · subst hc
      have hset : (m0.set c r)[c]? = some r := by
        rw [List.getElem?_set_self hb]
      rw [ih _ r hset]
      have hf : ((r, c) :: ps).filter (fun p => p.2 == c) =
          (r, c) :: ps.filter (fun p => p.2 == c) := by
        rw [List.filter_cons]; simp
      rw [hf, List.getLast?_cons]
      cases (ps.filter (fun p => p.2 == c)).getLast? <;> rfl
    · have hset : (m0.set c r)[b]? = some d := by
        rw [List.getElem?_set_ne hc]; exact h
      rw [ih _ d hset]
      have hf : ((r, c) :: ps).filter (fun p => p.2 == b) =
          ps.filter (fun p => p.2 == b) := by
        rw [List.filter_cons]; simp [hc]
      rw [hf]

theorem scanLoop_getElem? (lines : List (List Nat)) (b : Nat) (hb : b < 256) :
    (scanLoop lines (List.replicate 256 RuneError) 0).1[b]? =
      some ((lastEntry lines b).getD RuneError) := by
  rw [scanLoop_eq]
  exact foldl_set_getElem? _ b _ RuneError (by
    rw [List.getElem?_replicate, if_pos hb])

theorem parseLines_ok_inv (lines : List (List Nat)) (s : List Nat)
    (h : parseLines lines = .ok s) :
    s = runesToString (scanLoop lines (List.replicate 256 RuneError) 0).1 ∧
      128 ≤ (lines.filterMap lineEntry).length := by
  rw [parseLines_eq] at h
  split_ifs at h with hlt
  simp only [Except.ok.injEq] at h
  rw [scanLoop_eq]
  exact ⟨h.symm, by omega⟩

/-- The result on the lines that the scanner yields: when there are at least
128 matching lines, the string returned is `string(mapping)` for the array
`mapping` built by the loop, which has 256 entries; for every byte `b`,
`mapping[b]` is the code point of the last of these lines that matches with
the byte value `b`, and is U+FFFD if none does; the `b`-th rune of the
returned string is that code point if it is a Unicode scalar value, and
U+FFFD if it is not. -/
theorem parseLines_result (lines : List (List Nat)) (s : List Nat)
    (h : parseLines lines = .ok s) :
    s = runesToString (scanLoop lines (List.replicate 256 RuneError) 0).1 ∧
    (scanLoop lines (List.replicate 256 RuneError) 0).1.length = 256 ∧
    (rangeString s).length = 256 ∧
    ∀ b < 256,
      (scanLoop lines (List.replicate 256 RuneError) 0).1[b]? =
        some (match ((lines.filterMap lineEntry).filter (fun p => p.2 == b)).getLast? with
          | some p => p.1
          | none => RuneError) ∧
      (rangeString s)[b]? =
        some (validRune (match
          ((lines.filterMap lineEntry).filter (fun p => p.2 == b)).getLast? with
          | some p => p.1
          | none => RuneError)) := by
  obtain ⟨hs, -⟩ := parseLines_ok_inv lines s h
  have hlen : (scanLoop lines (List.replicate 256 RuneError) 0).1.length = 256 := by
    rw [scanLoop_eq, foldl_set_length, List.length_replicate]
  refine ⟨hs, hlen, ?_, ?_⟩
  · rw [hs, rangeString_runesToString_any, List.length_map, hlen]
  · intro b hb
    have hb1 := scanLoop_getElem? lines b hb
    rw [hs, rangeString_runesToString_any, List.getElem?_map, hb1, lastEntry]
    cases ((lines.filterMap lineEntry).filter (fun p => p.2 == b)).getLast? <;>
      exact ⟨rfl, rfl⟩
/-! ## Lines that the parser skips -/

theorem hexVal_isSome (c : Nat) (h : (hexVal c).isSome = true) :
    (0x30 ≤ c ∧ c ≤ 0x39) ∨ (0x61 ≤ c ∧ c ≤ 0x66) ∨ (0x41 ≤ c ∧ c ≤ 0x46) := by
  unfold hexVal at h
  split_ifs at h with h1 h2 h3
  · exact Or.inl h1
  · exact Or.inr (Or.inl h2)
  · exact Or.inr (Or.inr h3)
  · simp at h

theorem isHexTok_of_hex (c : Nat) (h : (hexVal c).isSome = true) : isHexTok c = true := by
  simp [isHexTok, h]

theorem isSpace_false_of_hex (c : Nat) (h : (hexVal c).isSome = true) :
    isSpace c = false ∧ c ≠ 0x0A ∧ c ≠ 0x2D ∧ c ≠ 0x2B := by
  have := hexVal_isSome c h
  refine ⟨?_, by omega, by omega, by omega⟩
  unfold isSpace
  simp only [Bool.or_eq_false_iff, Bool.and_eq_false_iff, decide_eq_false_iff_not,
    beq_eq_false_iff_ne]
  omega

theorem takeWhile_hex_append (ds : List Nat) (h : ∀ c ∈ ds, (hexVal c).isSome = true)
    (x : Nat) (hx : isHexTok x = false) (rest : List Nat) :
    (ds ++ x :: rest).takeWhile isHexTok = ds ∧
      (ds ++ x :: rest).dropWhile isHexTok = x :: rest := by
  induction ds with
  | nil => simp [List.takeWhile_cons, List.dropWhile_cons, hx]
  | cons d ds ih =>
    have hd := isHexTok_of_hex d (h d (List.mem_cons_self _ _))
    have := ih (fun c hc => h c (List.mem_cons_of_mem _ hc))
    simp [List.takeWhile_cons, List.dropWhile_cons, hd, this]

theorem SkipSpace_of_head (c : Nat) (t : List Nat) (h1 : isSpace c = false)
    (h2 : c ≠ 0x0A) : SkipSpace (c :: t) = some (c :: t) := by
  simp [SkipSpace, h1, h2]

theorem scanInt32_hex (ds : List Nat) (h : ∀ c ∈ ds, (hexVal c).isSome = true)
    (x : Nat) (hx : isHexTok x = false) (hxs : isSpace x = false) (hxn : x ≠ 0x0A)
    (hx1 : x ≠ 0x2D) (hx2 : x ≠ 0x2B) (rest : List Nat) :
    scanInt32 (ds ++ x :: rest) = none ∨
      ∃ v, scanInt32 (ds ++ x :: rest) = some (v, x :: rest) := by
  obtain ⟨c, t, hct, hc1, hc2, hc3, hc4⟩ : ∃ c t, ds ++ x :: rest = c :: t ∧
      isSpace c = false ∧ c ≠ 0x0A ∧ c ≠ 0x2D ∧ c ≠ 0x2B := by
    cases ds with
    | nil => exact ⟨x, rest, rfl, hxs, hxn, hx1, hx2⟩
    | cons d ds =>
      obtain ⟨a, b, c, e⟩ := isSpace_false_of_hex d (h d (List.mem_cons_self _ _))
      exact ⟨d, ds ++ x :: rest, rfl, a, b, c, e⟩
  obtain ⟨htake, hdrop⟩ := takeWhile_hex_append ds h x hx rest
  unfold scanInt32
  rw [hct, SkipSpace_of_head c t hc1 hc2]
  simp only
  have hsigned : scanInt32.match_1 (fun _ => Bool × List Nat) (c :: t)
      (fun t => (true, t)) (fun t => (false, t)) (fun _ => (false, c :: t)) =
      (false, c :: t) := by
    split
    · next heq => simp only [List.cons.injEq] at heq; exact absurd heq.1 hc3
    · next heq => simp only [List.cons.injEq] at heq; exact absurd heq.1 hc4
    · rfl
  simp only [hsigned]
  rw [← hct, htake, hdrop]
  cases (if ds = [] then none else hexValue ds) with
  | none => exact Or.inl rfl
  | some v =>
    simp only [Bool.false_eq_true, if_false]
    split_ifs
    · exact Or.inr ⟨v, rfl⟩
    · exact Or.inl rfl

theorem scanUint8_hex (ds : List Nat) (h : ∀ c ∈ ds, (hexVal c).isSome = true)
    (hne : ds ≠ []) (x : Nat) (hx : isHexTok x = false) (rest : List Nat) :
    scanUint8 (ds ++ x :: rest) = none ∨
      ∃ v, scanUint8 (ds ++ x :: rest) = some (v, x :: rest) := by
  obtain ⟨c, t, hct, hc1, hc2⟩ : ∃ c t, ds ++ x :: rest = c :: t ∧
      isSpace c = false ∧ c ≠ 0x0A := by
    cases ds with
    | nil => exact absurd rfl hne
    | cons d ds =>
      obtain ⟨a, b, -, -⟩ := isSpace_false_of_hex d (h d (List.mem_cons_self _ _))
      exact ⟨d, ds ++ x :: rest, rfl, a, b⟩
  obtain ⟨htake, hdrop⟩ := takeWhile_hex_append ds h x hx rest
  unfold scanUint8
  rw [hct, SkipSpace_of_head c t hc1 hc2]
  simp only
  rw [← hct, htake, hdrop]
  cases (if ds = [] then none else hexValue ds) with
  | none => exact Or.inl rfl
  | some v =>
    simp only
    split_ifs
    · exact Or.inr ⟨v, rfl⟩
    · exact Or.inl rfl

theorem Sscanf_entryRunes (ud bd : List Nat) (hu : ∀ c ∈ ud, (hexVal c).isSome = true)
    (hb : ∀ c ∈ bd, (hexVal c).isSome = true) (flag : Nat) (hf : flag ≠ 0x30) :
    Sscanf (entryRunes ud bd flag) = none := by
  have e1 : bytesOf "<U" = [0x3C, 0x55] := by decide
  have e2 : bytesOf "> \\x" = [0x3E, 0x20, 0x5C, 0x78] := by decide
  have e3 : bytesOf " |" = [0x20, 0x7C] := by decide
  have hshape : entryRunes ud bd flag =
      0x3C :: 0x55 :: (ud ++ 0x3E :: (0x20 :: 0x5C :: 0x78 :: (bd ++ 0x20 :: [0x7C, flag]))) := by
    rw [entryRunes, e1, e2, e3]
    simp
  rw [hshape]
  unfold Sscanf
  simp only [matchRune, if_true, Option.bind_eq_bind, Option.some_bind]
  rcases scanInt32_hex ud hu 0x3E (by decide) (by decide) (by decide) (by decide) (by decide)
    (0x20 :: 0x5C :: 0x78 :: (bd ++ 0x20 :: [0x7C, flag])) with h1 | ⟨v, h1⟩
  · rw [h1]; rfl
  · rw [h1]
    simp only [Option.some_bind, matchRune, if_true]
    have hms : matchSpace (0x20 :: 0x5C :: 0x78 :: (bd ++ 0x20 :: [0x7C, flag])) =
        some (0x5C :: 0x78 :: (bd ++ 0x20 :: [0x7C, flag])) := by
      rw [matchSpace]
      have : isSpace 0x5C = false := by decide
      simp [List.dropWhile_cons, this]
      decide
    rw [hms]
    simp only [Option.some_bind, matchRune, if_true]
    have hscan : scanUint8 (bd ++ 0x20 :: [0x7C, flag]) = none ∨
        ∃ c, scanUint8 (bd ++ 0x20 :: [0x7C, flag]) = some (c, 0x20 :: [0x7C, flag]) := by
      by_cases hbd : bd = []
      · left
        subst hbd
        have h20 : isSpace 0x20 = true := by decide
        have h7C : isSpace 0x7C = false := by decide
        have hskip : SkipSpace ([] ++ 0x20 :: [0x7C, flag]) = some [0x7C, flag] := by
          simp [SkipSpace, h20, h7C]
        have htok : isHexTok 0x7C = false := by decide
        unfold scanUint8
        rw [hskip]
        simp [List.takeWhile_cons, htok]
      · exact scanUint8_hex bd hb hbd 0x20 (by decide) [0x7C, flag]
    rcases hscan with h2 | ⟨c, h2⟩
    · rw [h2]; rfl
    · rw [h2]
      simp only [Option.some_bind]
      have hms2 : matchSpace (0x20 :: [0x7C, flag]) = some [0x7C, flag] := by
        rw [matchSpace]
        have : isSpace 0x7C = false := by decide
        simp [List.dropWhile_cons, this]
        decide
      rw [hms2]
      simp [matchRune, hf]

theorem lineEntry_eq_none (line : List Nat)
    (h : TrimSpace (rangeString line) = [] ∨
      (TrimSpace (rangeString line)).head? = some 0x23 ∨
      Sscanf (TrimSpace (rangeString line)) = none ∨
      ∃ ud bd flag, (∀ c ∈ ud, (hexVal c).isSome = true) ∧
        (∀ c ∈ bd, (hexVal c).isSome = true) ∧
        (flag = 0x31 ∨ flag = 0x32 ∨ flag = 0x33) ∧
        TrimSpace (rangeString line) = entryRunes ud bd flag) :
    lineEntry line = none := by
  unfold lineEntry
  simp only
  rcases h with h | h | h | ⟨ud, bd, flag, hu, hb, hf, h⟩
  · rw [if_pos (Or.inl h)]
  · rw [if_pos (Or.inr h)]
  · split_ifs
    · rfl
    · exact h
  · split_ifs
    · rfl
    · rw [h]
      exact Sscanf_entryRunes ud bd hu hb flag (by omega)

theorem filterMap_lineEntry_skip (pre post : List (List Nat)) (line : List Nat)
    (h : lineEntry line = none) :
    (pre ++ line :: post).filterMap lineEntry = (pre ++ post).filterMap lineEntry := by
  rw [List.filterMap_append, List.filterMap_cons_none h, List.filterMap_append]

/-- Skipped lines among the lines that the scanner yields: one more or one
fewer line that is blank, or whose first non-space character is `#`, or that
does not match the entry pattern with fallback flag 0, as does every line of
the form of an entry with the flag 1, 2 or 3, changes neither the result,
success or failure, nor the array `mapping` and the count that the loop
builds. -/
theorem parseLines_tolerant (pre post : List (List Nat)) (line : List Nat)
    (h : TrimSpace (rangeString line) = [] ∨
      (TrimSpace (rangeString line)).head? = some 0x23 ∨
      Sscanf (TrimSpace (rangeString line)) = none ∨
      ∃ ud bd flag, (∀ c ∈ ud, (hexVal c).isSome = true) ∧
        (∀ c ∈ bd, (hexVal c).isSome = true) ∧
        (flag = 0x31 ∨ flag = 0x32 ∨ flag = 0x33) ∧
        TrimSpace (rangeString line) = entryRunes ud bd flag) :
    parseLines (pre ++ line :: post) = parseLines (pre ++ post) ∧
    scanLoop (pre ++ line :: post) (List.replicate 256 RuneError) 0 =
      scanLoop (pre ++ post) (List.replicate 256 RuneError) 0 := by
  have hskip := filterMap_lineEntry_skip pre post line (lineEntry_eq_none line h)
  constructor
  · rw [parseLines_eq, parseLines_eq, hskip]
  · rw [scanLoop_eq, scanLoop_eq, hskip]

/-! ## What the writer has received -/

theorem writeDecodeLoop_result (cs : List Nat) :
    ∀ (i : Nat) (m : BackMap) (w : CodeWriter) (dec : List utf8Enc),
      (writeDecodeLoop cs i m w).2 =
        match decodeLoop cs i m dec with
        | .ok r => .ok r.1
        | .error err => .error err := by
  induction cs with
  | nil => intro i m w dec; rfl
  | cons c cs ih =>
    intro i m w dec
    rw [writeDecodeLoop, decodeLoop]
    by_cases hlen : (EncodeRune c).length > 3
    · simp only [hlen, if_true]
    · simp only [hlen, if_false]
      exact ih _ _ _ _

theorem writeDecodeLoop_ok_out (cs : List Nat) :
    ∀ (i : Nat) (m : BackMap) (w : CodeWriter) (m1 : BackMap),
      (writeDecodeLoop cs i m w).2 = .ok m1 →
        (writeDecodeLoop cs i m w).1 =
          w.printf ((List.enumFrom i cs).flatMap (fun p => entryCalls p.1 p.2)) := by
  induction cs with
  | nil => intro i m w m1 _; simp [writeDecodeLoop, CodeWriter.printf]
  | cons c cs ih =>
    intro i m w m1 h
    rw [writeDecodeLoop] at h ⊢
    by_cases hlen : (EncodeRune c).length > 3
    · simp only [hlen, if_true] at h
      exact Except.noConfusion h
    · simp only [hlen, if_false] at h ⊢
      rw [ih _ _ _ m1 h]
      simp [CodeWriter.printf, List.enumFrom_cons]

theorem writeDecodeLoop_error_out (cs : List Nat) :
    ∀ (i : Nat) (m : BackMap) (w : CodeWriter) (j c : Nat),
      (writeDecodeLoop cs i m w).2 = .error (.runeTooLong j c) →
        i ≤ j ∧ (writeDecodeLoop cs i m w).1 =
          w.printf ((List.enumFrom i (cs.take (j - i))).flatMap
            (fun p => entryCalls p.1 p.2)) := by
  induction cs with
  | nil => intro i m w j c h; simp [writeDecodeLoop] at h
  | cons x xs ih =>
    intro i m w j c h
    rw [writeDecodeLoop] at h ⊢
    by_cases hlen : (EncodeRune x).length > 3
    · simp only [hlen, if_true, Except.error.injEq, BuildError.runeTooLong.injEq] at h
      obtain ⟨rfl, rfl⟩ := h
      simp only [hlen, if_true, Nat.sub_self, List.take_zero]
      exact ⟨Nat.le_refl _, by simp [CodeWriter.printf]⟩
    · simp only [hlen, if_false] at h ⊢
      obtain ⟨h1, h2⟩ := ih _ _ _ j c h
      refine ⟨by omega, ?_⟩
      rw [h2]
      have e : j - i = (j - (i + 1)) + 1 := by omega
      rw [e, List.take_succ_cons]
      simp [CodeWriter.printf, List.enumFrom_cons]

theorem mainBody_result (rt : Runtime) (e : Encoding) (w : CodeWriter) :
    (mainBody rt e w).2 =
      match buildCharmap rt e.name e.replacement e.mapping with
      | .ok _ => .ok ()
      | .error err => .error err := by
  unfold mainBody buildCharmap
  have hres := writeDecodeLoop_result (rangeString e.mapping) 0 []
    (w.printf (headerCalls e)) []
  simp only
  cases hw : writeDecodeLoop (rangeString e.mapping) 0 [] (w.printf (headerCalls e)) with
  | mk w2 r =>
    rw [hw] at hres
    simp only at hres
    cases hdl : decodeLoop (rangeString e.mapping) 0 [] [] with
    | error err =>
      rw [hdl] at hres
      simp only at hres
      subst hres
      rfl
    | ok p =>
      obtain ⟨m, dec⟩ := p
      rw [hdl] at hres
      simp only at hres
      subst hres
      simp only
      cases padLoop 256 (rt.sortSort ((rt.rangeMap m).map packKey)) <;> rfl

theorem mainBody_tooLong (rt : Runtime) (e : Encoding) (w : CodeWriter) (i c : Nat)
    (h : (mainBody rt e w).2 = .error (.runeTooLong i c)) :
    (mainBody rt e w).1.out = w.out ++ headerCalls e ++
      ((rangeString e.mapping).take i).enum.flatMap (fun p => entryCalls p.1 p.2) ∧
    (mainBody rt e w).1.Size = w.Size := by
  unfold mainBody at h ⊢
  simp only at h ⊢
  cases hw : writeDecodeLoop (rangeString e.mapping) 0 [] (w.printf (headerCalls e)) with
  | mk w2 r =>
    rw [hw] at h
    cases r with
    | error err =>
      simp only [Except.error.injEq] at h
      subst h
      have hw2 : (writeDecodeLoop (rangeString e.mapping) 0 []
          (w.printf (headerCalls e))).2 = .error (.runeTooLong i c) := by rw [hw]
      obtain ⟨-, hout⟩ := writeDecodeLoop_error_out _ _ _ _ i c hw2
      rw [hw] at hout
      simp only at hout
      rw [hout]
      simp [CodeWriter.printf, List.enum]
    | ok m =>
      simp only at h
      cases hp : padLoop 256 (rt.sortSort ((rt.rangeMap m).map packKey)) with
      | ok enc => rw [hp] at h; simp at h
      | error err =>
        rw [hp] at h
        simp only [Except.error.injEq] at h
        subst h
        by_cases hl : rt.sortSort ((rt.rangeMap m).map packKey) = []
        · rw [hl, padLoop_nil] at hp
          simp at hp
        · rw [padLoop_ok 256 _ hl (by omega)] at hp
          simp at hp

theorem headerCalls_ne_nil (e : Encoding) : headerCalls e ≠ [] := by
  unfold headerCalls
  simp

theorem writeEncodeLoop_out (encode : List Nat) :
    ∀ (i : Nat) (w : CodeWriter),
      writeEncodeLoop encode i w =
        w.printf ((List.enumFrom i encode).flatMap (fun p => keyCalls p.1 p.2)) := by
  induction encode with
  | nil => intro i w; simp [writeEncodeLoop, CodeWriter.printf]
  | cons enc rest ih =>
    intro i w
    rw [writeEncodeLoop, ih]
    simp [CodeWriter.printf, List.enumFrom_cons]

/-- When construction succeeds, the writer has received the literal of the
Charmap that `buildCharmap` describes, and the size estimate has grown. -/
theorem mainBody_ok (rt : Runtime) (e : Encoding) (w : CodeWriter) (cm : Charmap)
    (h : buildCharmap rt e.name e.replacement e.mapping = .ok cm) :
    (mainBody rt e w).2 = .ok () ∧
    (mainBody rt e w).1.Size = w.Size + 2072 ∧
    (mainBody rt e w).1.out = w.out ++ headerCalls e ++
      (rangeString e.mapping).enum.flatMap (fun p => entryCalls p.1 p.2) ++
      [⟨"\x7d,\n", []⟩, ⟨"encode: [256]uint32\x7b\n", []⟩] ++
      cm.encode.enum.flatMap (fun p => keyCalls p.1 p.2) ++ [⟨"\x7d,\n\x7d\n", []⟩] := by
  have hres := mainBody_result rt e w
  rw [h] at hres
  simp only at hres
  refine ⟨hres, ?_⟩
  unfold buildCharmap at h
  unfold mainBody at hres ⊢
  simp only at hres ⊢
  have hwr := writeDecodeLoop_result (rangeString e.mapping) 0 []
    (w.printf (headerCalls e)) []
  cases hdl : decodeLoop (rangeString e.mapping) 0 [] [] with
  | error err => rw [hdl] at h; simp at h
  | ok p =>
    obtain ⟨m, dec⟩ := p
    rw [hdl] at h hwr
    simp only at h hwr
    have hout := writeDecodeLoop_ok_out _ _ _ _ m hwr
    cases hw : writeDecodeLoop (rangeString e.mapping) 0 [] (w.printf (headerCalls e)) with
    | mk w2 r =>
      rw [hw] at hwr hout
      simp only at hwr hout
      subst hwr
      simp only
      cases hp : padLoop 256 (rt.sortSort ((rt.rangeMap m).map packKey)) with
      | error err => rw [hp] at h; simp at h
      | ok enc =>
        rw [hp] at h
        simp only [Except.ok.injEq] at h
        simp only
        rw [← h, writeEncodeLoop_out, hout]
        simp [CodeWriter.printf, List.enum]

theorem buildCharmap_emoji (rt : Runtime) (name : String) (repl : Nat) :
    buildCharmap rt name repl (runesToString emojiMapping) =
      .error (.runeTooLong 2 0x1F600) := by
  unfold buildCharmap
  rw [rangeString_runesToString _ emojiMapping_raw.2]
  have hsplit : emojiMapping =
      [0x41, 0x42] ++ 0x1F600 :: ([0x1F601] ++ List.replicate 252 RuneError) := rfl
  rw [hsplit, decodeLoop_error [0x41, 0x42] (by decide) 0x1F600 (by decide) _ 0 [] []]
  rfl

theorem mainBody_emoji (rt : Runtime) (e : Encoding) (w : CodeWriter)
    (he : e.mapping = runesToString emojiMapping) :
    (mainBody rt e w).2 = .error (.runeTooLong 2 0x1F600) := by
  rw [mainBody_result, he, buildCharmap_emoji]

theorem take_two_emoji :
    (rangeString (runesToString emojiMapping)).take 2 = [0x41, 0x42] := by
  rw [rangeString_runesToString _ emojiMapping_raw.2]
  rfl

set_option maxRecDepth 100000 in
theorem headerCalls_emojiEncoding :
    headerCalls emojiEncoding =
      [⟨"// %s is the %s encoding.\n", [.bytes (bytesOf "EBCDIC_K"), .text "EBCDIC-K"]⟩,
       ⟨"var %s *Charmap = &%s\n\nvar %s = Charmap\x7b\nname: %q,\n",
          [.bytes (bytesOf "EBCDIC_K"), .bytes (bytesOf "ebcdic_K"),
            .bytes (bytesOf "ebcdic_K"), .text "EBCDIC-K"]⟩,
       ⟨"asciiSuperset: %t,\n", [.bool false]⟩,
       ⟨"low: 0x%02x,\n", [.int 0x00]⟩,
       ⟨"replacement: 0x%02x,\n", [.int 0x3f]⟩,
       ⟨"decode: [256]utf8Enc\x7b\n", []⟩] := by
  decide

/-- C13, as the code has it. Output at a failure: when construction for an
encoding stops with the character-too-long error at the counter `i`, the
writer has received, after what it held before, the comment and the opening
of the Charmap literal up to `decode: [256]utf8Enc{` and the entries of the
bytes below `i`, and nothing else; its size estimate is unchanged. -/
theorem partial_output_on_failure (rt : Runtime) (e : Encoding) (w : CodeWriter)
    (i c : Nat) (h : (mainBody rt e w).2 = .error (.runeTooLong i c)) :
    (mainBody rt e w).1.out = w.out ++ headerCalls e ++
      ((rangeString e.mapping).take i).enum.flatMap (fun p => entryCalls p.1 p.2) ∧
    (mainBody rt e w).1.Size = w.Size :=
  mainBody_tooLong rt e w i c h

/-- C13, counterexample. For the encoding `EBCDIC-K` with a mapping that
holds U+1F600 at byte `0x02`, construction stops with the
character-too-long error, and the writer, which held the import clause, has
received six calls for the comment and the opening of the Charmap literal
and three for the decode entries of the bytes `0x00` and `0x01`. -/
theorem atomic_failure_counterexample :
    (mainBody simpleRuntime emojiEncoding initialWriter).2 =
      .error (.runeTooLong 2 0x1F600) ∧
    (mainBody simpleRuntime emojiEncoding initialWriter).1.out =
      initialWriter.out ++
      [⟨"// %s is the %s encoding.\n", [.bytes (bytesOf "EBCDIC_K"), .text "EBCDIC-K"]⟩,
       ⟨"var %s *Charmap = &%s\n\nvar %s = Charmap\x7b\nname: %q,\n",
          [.bytes (bytesOf "EBCDIC_K"), .bytes (bytesOf "ebcdic_K"),
            .bytes (bytesOf "ebcdic_K"), .text "EBCDIC-K"]⟩,
       ⟨"asciiSuperset: %t,\n", [.bool false]⟩,
       ⟨"low: 0x%02x,\n", [.int 0x00]⟩,
       ⟨"replacement: 0x%02x,\n", [.int 0x3f]⟩,
       ⟨"decode: [256]utf8Enc\x7b\n", []⟩,
       ⟨"\x7b%d,[3]byte\x7b0x%02x,0x%02x,0x%02x\x7d\x7d,", [.int 1, .int 0x41, .int 0, .int 0]⟩,
       ⟨"\x7b%d,[3]byte\x7b0x%02x,0x%02x,0x%02x\x7d\x7d,", [.int 1, .int 0x42, .int 0, .int 0]⟩,
       ⟨"\n", []⟩] ∧
    (mainBody simpleRuntime emojiEncoding initialWriter).1.out ≠ initialWriter.out := by
  have h := mainBody_emoji simpleRuntime emojiEncoding initialWriter rfl
  obtain ⟨hout, -⟩ := mainBody_tooLong simpleRuntime emojiEncoding initialWriter 2 0x1F600 h
  have hm : emojiEncoding.mapping = runesToString emojiMapping := rfl
  rw [hm, take_two_emoji, headerCalls_emojiEncoding] at hout
  refine ⟨h, ?_, ?_⟩
  · rw [hout]
    decide
  · rw [hout]
    decide

/-! ## The theorems at the sample inputs -/

theorem euroMapping_builds : ∃ cm,
    buildCharmap simpleRuntime "EBCDIC-K" 0x3f (runesToString euroMapping) = .ok cm :=
  buildCharmap_succeeds simpleRuntime simpleRuntime_valid "EBCDIC-K" 0x3f euroMapping
    euroMapping_raw.2 euroMapping_le ⟨0, by decide, by decide⟩

theorem duplicateMapping_builds : ∃ cm,
    buildCharmap simpleRuntime "EBCDIC-K" 0x3f (runesToString duplicateMapping) = .ok cm :=
  buildCharmap_succeeds simpleRuntime simpleRuntime_valid "EBCDIC-K" 0x3f duplicateMapping
    duplicateMapping_raw.2 duplicateMapping_le ⟨0, by decide, by decide⟩

set_option maxRecDepth 100000 in
theorem euroMapping_at_0x80 : euroMapping[0x80]? = some 0x20AC := by decide

set_option maxRecDepth 100000 in
theorem euroMapping_unique : ∀ b < 256, euroMapping[b]? = some 0x20AC → b = 0x80 := by
  decide

theorem lt_of_getElem?_euro {b c : Nat} (h : euroMapping[b]? = some c) : b < 256 := by
  have := (List.getElem?_eq_some_iff.1 h).1
  rw [euroMapping_raw.1] at this
  exact this

/-- C1 at the scenario of the specification: the byte `0x80`, mapped to the
euro sign, round-trips to itself. -/
theorem roundtrip_decode_encode_witness : ∃ cm,
    buildCharmap simpleRuntime "EBCDIC-K" 0x3f (runesToString euroMapping) = .ok cm ∧
    (∃ d, cm.decode[0x80]? = some d ∧
      DecodeRuneInString (d.bytes.take d.n) = (0x20AC, d.n)) ∧
    ∃ e ∈ cm.encode, e &&& 0xffffff = 0x20AC ∧ e >>> 24 = 0x80 :=
  euroMapping_builds.elim fun cm h =>
    have hw := roundtrip_decode_encode simpleRuntime simpleRuntime_valid "EBCDIC-K" 0x3f
      euroMapping euroMapping_raw cm h 0x80 0x20AC euroMapping_at_0x80 (by decide)
    ⟨cm, h, hw.1, hw.2.elim fun e he =>
      ⟨e, he.1, he.2.1, he.2.2.2.2 (fun b hb =>
        euroMapping_unique b (lt_of_getElem?_euro hb) hb)⟩⟩

set_option maxRecDepth 100000 in
theorem duplicateMapping_first : ∀ b ≤ 0x41, duplicateMapping[b]? = some 0x41 → b = 0x41 := by
  decide

set_option maxRecDepth 100000 in
theorem duplicateMapping_at_0x41 : duplicateMapping[0x41]? = some 0x41 := by decide

set_option maxRecDepth 100000 in
theorem duplicateMapping_at_0x42 : duplicateMapping[0x42]? = some 0x41 := by decide

/-- C2 at the scenario of the specification: the bytes `0x41` and `0x42` both
stand for U+0041, and every entry for U+0041 is `0x41000041`. -/
theorem lowest_byte_wins_witness :
    duplicateMapping[0x41]? = some 0x41 ∧ duplicateMapping[0x42]? = some 0x41 ∧
    ∃ cm, buildCharmap simpleRuntime "EBCDIC-K" 0x3f (runesToString duplicateMapping) =
        .ok cm ∧
      ∀ e ∈ cm.encode, e &&& 0xffffff = 0x41 → e = 0x41000041 := by
  refine ⟨duplicateMapping_at_0x41, duplicateMapping_at_0x42, ?_⟩
  obtain ⟨cm, h⟩ := duplicateMapping_builds
  refine ⟨cm, h, ?_⟩
  intro e he hec
  have hw := lowest_byte_wins simpleRuntime simpleRuntime_valid "EBCDIC-K" 0x3f
    duplicateMapping duplicateMapping_raw cm h 0x41
    (List.getElem?_mem duplicateMapping_at_0x41) (by decide) e he hec
  have h41 : e >>> 24 = 0x41 :=
    duplicateMapping_first _ (hw.2.1 0x41 duplicateMapping_at_0x41) hw.1
  have hp := hw.2.2
  rw [h41] at hp
  rw [hp]
  decide

/-- C3 at the scenario of the specification. -/
theorem encode_sorted_witness : ∃ cm,
    buildCharmap simpleRuntime "EBCDIC-K" 0x3f (runesToString euroMapping) = .ok cm ∧
    cm.encode.length = 256 ∧
    cm.encode.Pairwise (fun a b => a &&& 0xffffff ≤ b &&& 0xffffff) :=
  euroMapping_builds.elim fun cm h =>
    ⟨cm, h, encode_sorted simpleRuntime simpleRuntime_valid "EBCDIC-K" 0x3f
      euroMapping euroMapping_raw cm h⟩

/-- C5 at the scenario of the specification: the entry of the byte `0x80`,
mapped to the euro sign, is `(3, E2 82 AC)`. -/
theorem decode_table_correct_witness : ∃ cm,
    buildCharmap simpleRuntime "EBCDIC-K" 0x3f (runesToString euroMapping) = .ok cm ∧
    cm.decode.length = 256 ∧ cm.decode[0x80]? = some ⟨3, 0xE2, 0x82, 0xAC⟩ := by
  obtain ⟨cm, h⟩ := euroMapping_builds
  obtain ⟨hlen, c, d, hc, hd, -, -, -, -, heuro, -⟩ :=
    decode_table_correct simpleRuntime simpleRuntime_valid "EBCDIC-K" 0x3f
      euroMapping euroMapping_raw cm h 0x80 (by decide)
  rw [euroMapping_at_0x80] at hc
  have hc' : c = 0x20AC := (Option.some.inj hc).symm
  rw [heuro hc'] at hd
  exact ⟨cm, h, hlen, hd⟩

/-- Padding at the scenario of the specification, which has 129 distinct
characters: the positions 129..255 equal position 128. -/
theorem padding_correct_witness : ∃ cm,
    buildCharmap simpleRuntime "EBCDIC-K" 0x3f (runesToString euroMapping) = .ok cm ∧
    cm.encode.length = 256 ∧
    (cm.encode.take 129).Perm
      ((distinctChars euroMapping).map (fun c => packKey (c, euroMapping.indexOf c))) ∧
    ∀ j, 129 ≤ j → j < 256 → cm.encode[j]? = cm.encode[128]? := by
  obtain ⟨cm, h, -, hlen, hperm, -, hpad⟩ :=
    padding_correct simpleRuntime simpleRuntime_valid "EBCDIC-K" 0x3f
      euroMapping euroMapping_raw (ne_tooLong_of_ok euroMapping_builds)
      (by rw [distinctChars_euro_length]; decide)
  rw [distinctChars_euro_length] at hperm hpad
  exact ⟨cm, h, hlen, hperm, hpad⟩

/-- C7 at the scenario of the specification. -/
theorem key_packing_faithful_witness : ∃ cm,
    buildCharmap simpleRuntime "EBCDIC-K" 0x3f (runesToString euroMapping) = .ok cm ∧
    (∀ e ∈ cm.encode, euroMapping[e >>> 24]? = some (e &&& 0xffffff) ∧
      e &&& 0xffffff ≠ RuneError ∧ e >>> 24 < 256 ∧ e &&& 0xffffff < 2 ^ 24 ∧ e < 2 ^ 32 ∧
      e = packKey (e &&& 0xffffff, e >>> 24)) ∧
    (∀ c, (∃ e ∈ cm.encode, e &&& 0xffffff = c) ↔ (c ∈ euroMapping ∧ c ≠ RuneError)) :=
  euroMapping_builds.elim fun cm h =>
    ⟨cm, h, key_packing_faithful simpleRuntime simpleRuntime_valid "EBCDIC-K" 0x3f
      euroMapping euroMapping_raw cm h⟩

set_option maxRecDepth 100000 in
theorem emojiMapping_at_2 : emojiMapping[2]? = some 0x1F600 := by decide

set_option maxRecDepth 100000 in
theorem emojiMapping_before_2 :
    ∀ b < 2, ∀ c, emojiMapping[b]? = some c → c < 0x10000 := by
  intro b hb c hc
  interval_cases b
  · have : emojiMapping[0]? = some 0x41 := by decide
    rw [this] at hc
    have := Option.some.inj hc
    omega
  · have : emojiMapping[1]? = some 0x42 := by decide
    rw [this] at hc
    have := Option.some.inj hc
    omega

/-- C8 at a mapping that holds U+1F600 at byte `0x02` and U+1F601 at byte
`0x03`: the error is raised for byte `0x02`. -/
theorem range_error_witness :
    buildCharmap simpleRuntime "EBCDIC-K" 0x3f (runesToString emojiMapping) =
      .error (.runeTooLong 2 0x1F600) := by
  obtain ⟨b, c, hc, hbig, hmin, herr⟩ :=
    range_error simpleRuntime "EBCDIC-K" 0x3f emojiMapping emojiMapping_raw
      ⟨0x1F600, List.getElem?_mem emojiMapping_at_2, by decide⟩
  have hb2 : b = 2 := by
    rcases Nat.lt_trichotomy b 2 with hlt | heq | hgt
    · have := emojiMapping_before_2 b hlt c hc
      omega
    · exact heq
    · have := hmin 2 0x1F600 hgt emojiMapping_at_2
      omega
  subst hb2
  rw [emojiMapping_at_2] at hc
  rw [← Option.some.inj hc] at herr
  exact herr

set_option maxRecDepth 100000 in
theorem lineEntry_0xC1 : lineEntry (bytesOf "<U00C1> \\xC1 |0") = some (0xC1, 0xC1) := by
  decide

/-- The scenario of the specification for the parser: a text that defines
only the bytes `0x41` and `0xC1` is refused, two characters having been
found. -/
theorem parseLines_two_entries :
    parseLines [bytesOf "<U0041> \\x41 |0", bytesOf "<U00C1> \\xC1 |0"] =
      .error (.onlyFewCharacters 2) := by
  have hf : [bytesOf "<U0041> \\x41 |0", bytesOf "<U00C1> \\xC1 |0"].filterMap lineEntry =
      [(0x41, 0x41), (0xC1, 0xC1)] := by
    rw [List.filterMap_cons_some lineEntry_repeated, List.filterMap_cons_some lineEntry_0xC1,
      List.filterMap_nil]
  rw [parseLines_eq, hf]
  rfl

/-! ## The later theorems at the sample inputs -/

set_option maxRecDepth 100000 in
theorem lineEntry_overwrite : lineEntry (bytesOf "<U00C1> \\x41 |0") = some (0xC1, 0x41) := by
  decide

theorem filterMap_overwriteLines :
    overwriteLines.filterMap lineEntry =
      List.replicate 127 (0x41, 0x41) ++ [(0xC1, 0x41)] := by
  rw [overwriteLines, List.filterMap_append, List.filterMap_replicate_of_some lineEntry_repeated,
    List.filterMap_cons_some lineEntry_overwrite, List.filterMap_nil]

theorem parseLines_overwriteLines :
    parseLines overwriteLines =
      .ok (runesToString (scanLoop overwriteLines (List.replicate 256 RuneError) 0).1) := by
  have hlen : ¬ (List.replicate 127 (0x41, 0x41) ++ [(0xC1, 0x41)]).length < 128 := by
    rw [List.length_append, List.length_replicate]
    decide
  rw [parseLines_eq, scanLoop_eq, filterMap_overwriteLines, if_neg hlen]

/-- C13 at an encoding with a comment and two variable names, on an empty
writer and with maps enumerated in reverse. -/
theorem partial_output_on_failure_witness :
    (mainBody reverseRuntime
        ⟨"EBCDIC-K", "Katakana", bytesOf "EBCDIC_K,IBM290", 0x3f, runesToString emojiMapping⟩
        ⟨[], 0⟩).1.out =
      [] ++ headerCalls
        ⟨"EBCDIC-K", "Katakana", bytesOf "EBCDIC_K,IBM290", 0x3f, runesToString emojiMapping⟩ ++
      ((rangeString (runesToString emojiMapping)).take 2).enum.flatMap
        (fun p => entryCalls p.1 p.2) ∧
    (mainBody reverseRuntime
        ⟨"EBCDIC-K", "Katakana", bytesOf "EBCDIC_K,IBM290", 0x3f, runesToString emojiMapping⟩
        ⟨[], 0⟩).1.Size = 0 :=
  partial_output_on_failure reverseRuntime
    ⟨"EBCDIC-K", "Katakana", bytesOf "EBCDIC_K,IBM290", 0x3f, runesToString emojiMapping⟩
    ⟨[], 0⟩ 2 0x1F600 (mainBody_emoji _ _ _ rfl)

/-- C16 at the scenario of the specification, with the maps enumerated in
insertion order and in reverse. -/
theorem encode_deterministic_witness : ∃ cm,
    buildCharmap simpleRuntime "EBCDIC-K" 0x3f (runesToString euroMapping) = .ok cm ∧
    buildCharmap reverseRuntime "EBCDIC-K" 0x3f (runesToString euroMapping) = .ok cm ∧
    (cm.encode.take 129).Pairwise (fun a b => a &&& 0xffffff < b &&& 0xffffff) := by
  obtain ⟨cm, h⟩ := euroMapping_builds
  obtain ⟨-, h2, h3⟩ := encode_deterministic simpleRuntime reverseRuntime simpleRuntime_valid
    reverseRuntime_valid "EBCDIC-K" 0x3f euroMapping euroMapping_raw cm h
  rw [distinctChars_euro_length] at h2
  exact ⟨cm, h, h3, h2⟩

/-! ## The parser on a text -/

theorem rawMapping_runesToString (mapping : List Nat) (h : mapping.length = 256) :
    RawMapping (rangeString (runesToString mapping)) := by
  rw [rangeString_runesToString_any]
  refine ⟨by rw [List.length_map, h], ?_⟩
  intro r hr
  obtain ⟨x, -, rfl⟩ := List.mem_map.1 hr
  exact isScalar_validRune x

theorem parseLines_ok_raw (lines : List (List Nat))
    (h : 128 ≤ (lines.filterMap lineEntry).length) :
    ∃ s, parseLines lines = .ok s ∧ RawMapping (rangeString s) := by
  obtain ⟨mapping, hlen, hs⟩ := (parseLines_threshold lines).2.1 h
  exact ⟨_, hs, rawMapping_runesToString mapping hlen⟩

/-- C10, as the code has it. Parser threshold: `getUCM` counts the matching
lines, each time one is read. A text with fewer than 128 matching lines fails
with the source-format error. For a text in which every line is shorter than
64 KiB, the error reports the number of the matching lines, and with at least
128 matching lines, and so whenever at least 128 byte values receive a
mapping, `getUCM` returns the string of a RawMapping. -/
theorem parser_threshold (eofWithData : Bool) (text : List Nat) :
    (((textLines text).filterMap lineEntry).length < 128 →
      ∃ n, n < 128 ∧ getUCM eofWithData text = .error (.onlyFewCharacters n)) ∧
    ((∀ l ∈ splitLines text, l.length < MaxScanTokenSize) →
      (((textLines text).filterMap lineEntry).length < 128 →
        getUCM eofWithData text =
          .error (.onlyFewCharacters ((textLines text).filterMap lineEntry).length)) ∧
      (128 ≤ ((textLines text).filterMap lineEntry).length →
        ∃ s, getUCM eofWithData text = .ok s ∧ RawMapping (rangeString s)) ∧
      (128 ≤ (mappedBytes (textLines text)).length →
        ∃ s, getUCM eofWithData text = .ok s ∧ RawMapping (rangeString s))) := by
  constructor
  · intro h
    have hle := scanTokens_entries_le eofWithData text
    refine ⟨((scanTokens eofWithData text).filterMap lineEntry).length, by omega, ?_⟩
    rw [getUCM_eq_parseLines, parseLines_eq, if_pos (by omega)]
  · intro hshort
    rw [getUCM_eq_parseLines, scanTokens_of_short eofWithData text hshort]
    refine ⟨fun h => (parseLines_threshold _).1 h, parseLines_ok_raw _, ?_⟩
    intro h
    apply parseLines_ok_raw
    have h1 : (mappedBytes (textLines text)).length ≤
        (((textLines text).filterMap lineEntry).map Prod.snd).length :=
      (List.dedup_sublist _).length_le
    rw [List.length_map] at h1
    omega

theorem repeatedLines_plain :
    ∀ l ∈ repeatedLines, 0x0A ∉ l ∧ l.length < MaxScanTokenSize ∧ dropCR l = l :=
  replicate_plain _ _ plain_repeated

/-- C10, counterexample. In the text of 128 copies of the line
`<U0041> \x41 |0`, all shorter than 64 KiB, only one byte value, `0x41`,
receives a mapping, fewer than 128, and the parser does not fail: it returns
a RawMapping. -/
theorem parser_threshold_counterexample :
    (∀ l ∈ splitLines repeatedText, l.length < MaxScanTokenSize) ∧
    mappedBytes (textLines repeatedText) = [0x41] ∧
    (mappedBytes (textLines repeatedText)).length < 128 ∧
    (∀ eofWithData, getUCM eofWithData repeatedText =
      .ok (runesToString ((List.replicate 256 RuneError).set 0x41 0x41))) ∧
    RawMapping (rangeString (runesToString ((List.replicate 256 RuneError).set 0x41 0x41))) := by
  obtain ⟨-, h2, h3, h4⟩ := unlines_plain repeatedLines repeatedLines_plain
  have hm : mappedBytes (textLines repeatedText) = [0x41] := by
    rw [repeatedText, h2]
    exact mappedBytes_repeatedLines
  refine ⟨h3, hm, by rw [hm]; decide, ?_, ?_⟩
  · intro e
    rw [getUCM_eq_parseLines, repeatedText, h4 e, repeatedLines,
      parseLines_replicate _ _ _ lineEntry_repeated]
  · apply rawMapping_runesToString
    rw [List.length_set, List.length_replicate]

set_option maxRecDepth 100000 in
theorem plain_0xC1 :
    0x0A ∉ bytesOf "<U00C1> \\xC1 |0" ∧
    (bytesOf "<U00C1> \\xC1 |0").length < MaxScanTokenSize ∧
    dropCR (bytesOf "<U00C1> \\xC1 |0") = bytesOf "<U00C1> \\xC1 |0" := by
  decide

/-- The scenario of the specification for the parser, as a text: with the
bytes `0x41` and `0xC1` only, `getUCM` fails, having found 2 characters. -/
theorem getUCM_twoEntriesText (eofWithData : Bool) :
    getUCM eofWithData twoEntriesText = .error (.onlyFewCharacters 2) := by
  have hp : ∀ l ∈ [bytesOf "<U0041> \\x41 |0", bytesOf "<U00C1> \\xC1 |0"],
      0x0A ∉ l ∧ l.length < MaxScanTokenSize ∧ dropCR l = l := by
    intro l hl
    rcases List.mem_cons.1 hl with rfl | hl
    · exact plain_repeated
    · rw [List.mem_singleton.1 hl]; exact plain_0xC1
  rw [getUCM_eq_parseLines, twoEntriesText, (unlines_plain _ hp).2.2.2 eofWithData]
  exact parseLines_two_entries

/-- C10 at the scenario of the specification: the text that defines only the
bytes `0x41` and `0xC1` has 2 matching lines, and `getUCM` fails with 2
characters found. -/
theorem parser_threshold_witness :
    (∀ l ∈ splitLines twoEntriesText, l.length < MaxScanTokenSize) ∧
    ((textLines twoEntriesText).filterMap lineEntry).length = 2 ∧
    getUCM true twoEntriesText = .error (.onlyFewCharacters 2) := by
  have hp : ∀ l ∈ [bytesOf "<U0041> \\x41 |0", bytesOf "<U00C1> \\xC1 |0"],
      0x0A ∉ l ∧ l.length < MaxScanTokenSize ∧ dropCR l = l := by
    intro l hl
    rcases List.mem_cons.1 hl with rfl | hl
    · exact plain_repeated
    · rw [List.mem_singleton.1 hl]; exact plain_0xC1
  obtain ⟨-, htl, hshort, -⟩ := unlines_plain _ hp
  have hf : ((textLines twoEntriesText).filterMap lineEntry).length = 2 := by
    rw [twoEntriesText, htl, List.filterMap_cons_some lineEntry_repeated,
      List.filterMap_cons_some lineEntry_0xC1, List.filterMap_nil]
    rfl
  have h := ((parser_threshold true twoEntriesText).2 hshort).1 (by rw [hf]; decide)
  rw [hf] at h
  exact ⟨hshort, hf, h⟩

/-- C11, as the code has it. Parser result: when the parser accepts a mapping
text in which every line is shorter than 64 KiB, the string it returns is
`string(mapping)` for the array `mapping` built by its loop, and both have 256
entries; for every byte `b`, `mapping[b]` is the code point of the last line,
in the order of the text, that matches with the byte value `b`, and U+FFFD if
no matching line has the byte value `b`; the `b`-th rune of the returned
string is `mapping[b]` if that is a Unicode scalar value, and U+FFFD if it is
not. -/
theorem parser_result (eofWithData : Bool) (text s : List Nat)
    (hshort : ∀ l ∈ splitLines text, l.length < MaxScanTokenSize)
    (h : getUCM eofWithData text = .ok s) :
    s = runesToString (scanLoop (textLines text) (List.replicate 256 RuneError) 0).1 ∧
    (scanLoop (textLines text) (List.replicate 256 RuneError) 0).1.length = 256 ∧
    (rangeString s).length = 256 ∧
    ∀ b < 256,
      (scanLoop (textLines text) (List.replicate 256 RuneError) 0).1[b]? =
        some (match lastEntry (textLines text) b with
          | some r => r
          | none => RuneError) ∧
      (rangeString s)[b]? =
        some (match lastEntry (textLines text) b with
          | some r => if IsScalar r then r else RuneError
          | none => RuneError) := by
  rw [getUCM_eq_parseLines, scanTokens_of_short eofWithData text hshort] at h
  obtain ⟨h1, h2, h3, h4⟩ := parseLines_result (textLines text) s h
  refine ⟨h1, h2, h3, ?_⟩
  intro b hb
  obtain ⟨h5, h6⟩ := h4 b hb
  rw [h5, h6, lastEntry]
  cases (((textLines text).filterMap lineEntry).filter (fun p => p.2 == b)).getLast? with
  | none => exact ⟨rfl, rfl⟩
  | some p => exact ⟨rfl, rfl⟩

set_option maxRecDepth 100000 in
theorem plain_overwrite :
    0x0A ∉ bytesOf "<U00C1> \\x41 |0" ∧
    (bytesOf "<U00C1> \\x41 |0").length < MaxScanTokenSize ∧
    dropCR (bytesOf "<U00C1> \\x41 |0") = bytesOf "<U00C1> \\x41 |0" := by
  decide

set_option maxRecDepth 100000 in
theorem plain_surrogate :
    0x0A ∉ bytesOf "<UD800> \\x42 |0" ∧
    (bytesOf "<UD800> \\x42 |0").length < MaxScanTokenSize ∧
    dropCR (bytesOf "<UD800> \\x42 |0") = bytesOf "<UD800> \\x42 |0" := by
  decide

theorem append_plain (n : Nat) (line last : List Nat)
    (h : 0x0A ∉ line ∧ line.length < MaxScanTokenSize ∧ dropCR line = line)
    (hlast : 0x0A ∉ last ∧ last.length < MaxScanTokenSize ∧ dropCR last = last) :
    ∀ l ∈ List.replicate n line ++ [last],
      0x0A ∉ l ∧ l.length < MaxScanTokenSize ∧ dropCR l = l := by
  intro l hl
  rcases List.mem_append.1 hl with hl | hl
  · exact replicate_plain n line h l hl
  · rw [List.mem_singleton.1 hl]; exact hlast

theorem getUCM_overwriteText (eofWithData : Bool) :
    getUCM eofWithData overwriteText =
      .ok (runesToString (scanLoop overwriteLines (List.replicate 256 RuneError) 0).1) := by
  rw [getUCM_eq_parseLines, overwriteText,
    (unlines_plain overwriteLines
      (append_plain _ _ _ plain_repeated plain_overwrite)).2.2.2 eofWithData]
  exact parseLines_overwriteLines

set_option maxRecDepth 100000 in
/-- C11 at a text of 128 lines for the byte `0x41`, the last of which maps it
to U+00C1: the returned string holds U+00C1 at `0x41` and U+FFFD at `0x42`. -/
theorem parser_result_witness :
    (∀ l ∈ splitLines overwriteText, l.length < MaxScanTokenSize) ∧
    ∃ s, getUCM true overwriteText = .ok s ∧ (rangeString s).length = 256 ∧
      (rangeString s)[0x41]? = some 0xC1 ∧ (rangeString s)[0x42]? = some RuneError := by
  obtain ⟨-, htl, hshort, -⟩ := unlines_plain overwriteLines
    (append_plain _ _ _ plain_repeated plain_overwrite)
  obtain ⟨-, -, hlen, hres⟩ := parser_result true overwriteText _ hshort
    (getUCM_overwriteText true)
  have h41 := (hres 0x41 (by decide)).2
  have h42 := (hres 0x42 (by decide)).2
  rw [overwriteText, htl, lastEntry, filterMap_overwriteLines] at h41 h42
  refine ⟨hshort, _, getUCM_overwriteText true, hlen, ?_, ?_⟩
  · rw [h41]; decide
  · rw [h42]; decide

set_option maxRecDepth 100000 in
theorem lineEntry_surrogate : lineEntry (bytesOf "<UD800> \\x42 |0") = some (0xD800, 0x42) := by
  decide

theorem filterMap_surrogateLines :
    surrogateLines.filterMap lineEntry =
      List.replicate 127 (0x41, 0x41) ++ [(0xD800, 0x42)] := by
  rw [surrogateLines, List.filterMap_append,
    List.filterMap_replicate_of_some lineEntry_repeated,
    List.filterMap_cons_some lineEntry_surrogate, List.filterMap_nil]

theorem getUCM_surrogateText (eofWithData : Bool) :
    getUCM eofWithData surrogateText =
      .ok (runesToString (scanLoop surrogateLines (List.replicate 256 RuneError) 0).1) := by
  have hlen : ¬ (List.replicate 127 (0x41, 0x41) ++ [(0xD800, 0x42)]).length < 128 := by
    rw [List.length_append, List.length_replicate]
    decide
  rw [getUCM_eq_parseLines, surrogateText,
    (unlines_plain surrogateLines
      (append_plain _ _ _ plain_repeated plain_surrogate)).2.2.2 eofWithData,
    parseLines_eq, scanLoop_eq, filterMap_surrogateLines, if_neg hlen]

set_option maxRecDepth 100000 in
/-- C11, counterexample. The text of 127 lines `<U0041> \x41 |0` and a last
line `<UD800> \x42 |0`, all shorter than 64 KiB, is accepted by the parser;
the last line that matches with the byte value `0x42` has the code point
U+D800, and the character returned for the byte `0x42` is U+FFFD, not that
code point, although a matching line has the byte value `0x42`. -/
theorem parser_result_counterexample :
    (∀ l ∈ splitLines surrogateText, l.length < MaxScanTokenSize) ∧
    lastEntry (textLines surrogateText) 0x42 = some 0xD800 ∧
    ∃ s, (∀ eofWithData, getUCM eofWithData surrogateText = .ok s) ∧
      (rangeString s).length = 256 ∧ (rangeString s)[0x42]? = some 0xFFFD := by
  obtain ⟨-, htl, hshort, -⟩ := unlines_plain surrogateLines
    (append_plain _ _ _ plain_repeated plain_surrogate)
  have hlast : lastEntry surrogateLines 0x42 = some 0xD800 := by
    rw [lastEntry, filterMap_surrogateLines]
    decide
  refine ⟨hshort, by rw [surrogateText, htl]; exact hlast, _, getUCM_surrogateText, ?_, ?_⟩
  · rw [rangeString_runesToString_any, List.length_map, scanLoop_eq, foldl_set_length,
      List.length_replicate]
  · rw [rangeString_runesToString_any, List.getElem?_map,
      scanLoop_getElem? surrogateLines 0x42 (by decide), hlast]
    decide

/-! ## A line that the scanner cannot hold -/

theorem dropWhile_append_keep (p : Nat → Bool) (c : Nat) (hc : p c = false) :
    ∀ l : List Nat, ∃ k, (l ++ [c]).dropWhile p = k ++ [c] := by
  intro l
  induction l with
  | nil => exact ⟨[], by simp [List.dropWhile_cons, hc]⟩
  | cons a l ih =>
    obtain ⟨k, hk⟩ := ih
    rw [List.cons_append, List.dropWhile_cons]
    split_ifs
    · exact ⟨k, hk⟩
    · exact ⟨a :: l, rfl⟩

theorem TrimSpace_head (c : Nat) (t : List Nat) (hc : isSpace c = false) :
    (TrimSpace (c :: t)).head? = some c := by
  unfold TrimSpace
  have h1 : (c :: t).dropWhile isSpace = c :: t := by
    rw [List.dropWhile_cons, hc]; rfl
  rw [h1, List.reverse_cons]
  obtain ⟨k, hk⟩ := dropWhile_append_keep isSpace c hc t.reverse
  rw [hk, List.reverse_append]
  rfl

theorem runesToString_ascii (rm : List Nat) (h : ∀ r ∈ rm, r < 0x80) :
    runesToString rm = rm := by
  induction rm with
  | nil => rfl
  | cons r rs ih =>
    have hr : r < 0x80 := h r (List.mem_cons_self _ _)
    have he : EncodeRune r = [r] := by
      unfold EncodeRune
      simp [hr]
      intro h1
      omega
    have := ih (fun x hx => h x (List.mem_cons_of_mem _ hx))
    unfold runesToString at this ⊢
    rw [List.flatMap_cons, he, this]
    rfl

theorem rangeString_ascii (s : List Nat) (h : ∀ r ∈ s, r < 0x80) : rangeString s = s := by
  have h1 := rangeString_runesToString s (fun r hr => Or.inl (by have := h r hr; omega))
  rw [runesToString_ascii s h] at h1
  exact h1

theorem longComment_length : longComment.length = MaxScanTokenSize := by
  rw [longComment, List.length_cons, List.length_replicate]
  rfl

theorem longComment_no_newline : 0x0A ∉ longComment := by
  rw [longComment]
  intro h
  rcases List.mem_cons.1 h with h | h
  · omega
  · have := (List.mem_replicate.1 h).2
    omega

theorem longComment_head : (TrimSpace (rangeString longComment)).head? = some 0x23 := by
  have h : ∀ r ∈ longComment, r < 0x80 := by
    intro r hr
    rw [longComment] at hr
    rcases List.mem_cons.1 hr with h | h
    · omega
    · have := (List.mem_replicate.1 h).2
      omega
  rw [rangeString_ascii longComment h, longComment]
  exact TrimSpace_head 0x23 _ (by decide)

theorem getUCM_halvesText (eofWithData : Bool) :
    getUCM eofWithData halvesText =
      .ok (runesToString ((List.replicate 256 RuneError).set 0x41 0x41)) := by
  have hp : ∀ l ∈ List.replicate 64 (bytesOf "<U0041> \\x41 |0") ++
      List.replicate 64 (bytesOf "<U0041> \\x41 |0"),
      0x0A ∉ l ∧ l.length < MaxScanTokenSize ∧ dropCR l = l := by
    intro l hl
    rcases List.mem_append.1 hl with hl | hl <;> exact replicate_plain _ _ plain_repeated l hl
  rw [getUCM_eq_parseLines, halvesText, (unlines_plain _ hp).2.2.2 eofWithData,
    ← List.replicate_add]
  exact parseLines_replicate _ _ _ lineEntry_repeated

theorem getUCM_longCommentText (eofWithData : Bool) :
    getUCM eofWithData longCommentText = .error (.onlyFewCharacters 64) := by
  have hp : ∀ l ∈ List.replicate 64 (bytesOf "<U0041> \\x41 |0"),
      0x0A ∉ l ∧ l.length < MaxScanTokenSize := fun l hl =>
    ⟨(replicate_plain _ _ plain_repeated l hl).1, (replicate_plain _ _ plain_repeated l hl).2.1⟩
  rw [getUCM_eq_parseLines, longCommentText,
    scanTokens_unlines_long eofWithData _ _ longComment hp longComment_no_newline
      (by rw [longComment_length]),
    List.map_replicate, plain_repeated.2.2, parseLines_eq,
    List.filterMap_replicate_of_some lineEntry_repeated, List.length_replicate,
    if_pos (by omega)]

/-- Tolerant parse below the limit of the scanner: in a text of lines that
each end in a newline, one more or one fewer line shorter than 64 KiB that is
blank, or whose first non-space character is `#`, or that does not match the
entry pattern with fallback flag 0, changes neither the matching lines that
are read nor the result of `getUCM`. -/
theorem getUCM_tolerant (eofWithData : Bool) (pre post : List (List Nat)) (line : List Nat)
    (hpre : ∀ l ∈ pre, 0x0A ∉ l) (hline : 0x0A ∉ line)
    (hlen : line.length < MaxScanTokenSize) (h : lineEntry (dropCR line) = none) :
    (scanTokens eofWithData (unlines (pre ++ line :: post))).filterMap lineEntry =
      (scanTokens eofWithData (unlines (pre ++ post))).filterMap lineEntry ∧
    getUCM eofWithData (unlines (pre ++ line :: post)) =
      getUCM eofWithData (unlines (pre ++ post)) := by
  have hf : (scanTokens eofWithData (unlines (pre ++ line :: post))).filterMap lineEntry =
      (scanTokens eofWithData (unlines (pre ++ post))).filterMap lineEntry := by
    induction pre with
    | nil =>
      rw [List.nil_append, List.nil_append, scanTokens_unlines_cons _ _ _ hline, if_pos hlen,
        List.filterMap_cons_none h]
    | cons l ls ih =>
      have hl := hpre l (List.mem_cons_self _ _)
      have ih1 := ih (fun x hx => hpre x (List.mem_cons_of_mem _ hx))
      rw [List.cons_append, List.cons_append, scanTokens_unlines_cons _ _ _ hl,
        scanTokens_unlines_cons _ _ _ hl]
      split_ifs
      · rw [List.filterMap_cons, List.filterMap_cons, ih1]
      · rfl
  refine ⟨hf, ?_⟩
  rw [getUCM_eq_parseLines, getUCM_eq_parseLines, parseLines_eq, parseLines_eq, hf]

set_option maxRecDepth 100000 in
/-- Tolerant parse at a text of 128 matching lines into which a blank line, a
comment that ends in a carriage return and an entry with the fallback flag 1
are inserted, one at a time. -/
theorem getUCM_tolerant_samples (eofWithData : Bool) :
    getUCM eofWithData (unlines (List.replicate 64 (bytesOf "<U0041> \\x41 |0") ++
        bytesOf "  \t" :: List.replicate 64 (bytesOf "<U0041> \\x41 |0"))) =
      getUCM eofWithData halvesText ∧
    getUCM eofWithData (unlines (List.replicate 64 (bytesOf "<U0041> \\x41 |0") ++
        bytesOf " # <U0042> \\x42 |0\r" :: List.replicate 64 (bytesOf "<U0041> \\x41 |0"))) =
      getUCM eofWithData halvesText ∧
    getUCM eofWithData (unlines (List.replicate 64 (bytesOf "<U0041> \\x41 |0") ++
        bytesOf "<U0042> \\x42 |1" :: List.replicate 64 (bytesOf "<U0041> \\x41 |0"))) =
      getUCM eofWithData halvesText := by
  have hp : ∀ l ∈ List.replicate 64 (bytesOf "<U0041> \\x41 |0"), 0x0A ∉ l := fun l hl =>
    (replicate_plain _ _ plain_repeated l hl).1
  exact ⟨(getUCM_tolerant eofWithData _ _ (bytesOf "  \t") hp (by decide) (by decide)
      (by decide)).2,
    (getUCM_tolerant eofWithData _ _ (bytesOf " # <U0042> \\x42 |0\r") hp (by decide)
      (by decide) (by decide)).2,
    (getUCM_tolerant eofWithData _ _ (bytesOf "<U0042> \\x42 |1") hp (by decide) (by decide)
      (by decide)).2⟩

/-- C12, the failing input. Between the two halves of a text of 128 lines
`<U0041> \x41 |0`, which `getUCM` accepts, a line of `#` and 65535 times `x`
is inserted: a line whose first non-space character is `#`, of 64 KiB.  The
scanner stops at it, the 64 lines after it are never read, and `getUCM` fails
with 64 characters found. -/
theorem tolerant_parse_fails_on_long_line (eofWithData : Bool) :
    longComment.length = MaxScanTokenSize ∧ 0x0A ∉ longComment ∧
    (TrimSpace (rangeString longComment)).head? = some 0x23 ∧
    lineEntry longComment = none ∧
    getUCM eofWithData halvesText =
      .ok (runesToString ((List.replicate 256 RuneError).set 0x41 0x41)) ∧
    scanTokens eofWithData longCommentText =
      List.replicate 64 (bytesOf "<U0041> \\x41 |0") ∧
    getUCM eofWithData longCommentText = .error (.onlyFewCharacters 64) := by
  refine ⟨longComment_length, longComment_no_newline, longComment_head,
    lineEntry_eq_none _ (Or.inr (Or.inl longComment_head)), getUCM_halvesText eofWithData,
    ?_, getUCM_longCommentText eofWithData⟩
  have hp : ∀ l ∈ List.replicate 64 (bytesOf "<U0041> \\x41 |0"),
      0x0A ∉ l ∧ l.length < MaxScanTokenSize := fun l hl =>
    ⟨(replicate_plain _ _ plain_repeated l hl).1, (replicate_plain _ _ plain_repeated l hl).2.1⟩
  rw [longCommentText,
    scanTokens_unlines_long eofWithData _ _ longComment hp longComment_no_newline
      (by rw [longComment_length]),
    List.map_replicate, plain_repeated.2.2]

end MakeTables
